import Mathlib

/-!
Walker alias-method samplers (`walker/random_choice.hpp`, `walker/tower_sampling.hpp`)

A shallow embedding of the table builders, the table validator and the samplers,
in exact rational arithmetic (`double` is read as `ℚ`), followed by the theorems
that settle the specification claims.

The exact embedding is the premise "in exact arithmetic": no operation rounds,
overflows or leaves the range of a conversion.  The builders and the alias
samplers are embedded a second time in binary64 arithmetic (section "The same
code in binary64 arithmetic", definitions with the suffix `_double`), where every
operation of the source rounds; that embedding is used to evaluate the code at
inputs at which rounding, overflow or an undefined conversion decides what the
code does.

Conventions of the embedding

* `std::vector<T>` is `List T`; `v[i]` is `v.getD i default`, `v[i] = x` is `v.set i x`.
* a `void f(weights, table&)` that may `throw` is a function returning
  `Option Exn × Table`: the exception raised (if any), and the contents of the
  table argument when control leaves the function.
* the index type (`IndexType`, `std::size_t`) is `ℕ`.
* iterators into the scratch `array` are offsets from `array.begin()`.
-/

namespace walker

/-- The two exception classes thrown by the library. -/
inductive Exn where
  | invalid_argument
  | range_error
  deriving DecidableEq, Repr

/-- An alias table `std::vector<std::pair<CutoffType, IndexType>>`:
first component cutoff, second component alias. -/
abbrev Table (C : Type) := List (C × ℕ)

namespace detail

/-- `std::vector::resize(n)`: keep the first `n` elements, pad with
value-initialised elements. -/
def resize {α : Type} [Inhabited α] (v : List α) (n : ℕ) : List α :=
  v.take n ++ List.replicate (n - v.length) default

/-- Inner loop of `check_table` (lines 43-45): the probability mass the table
sends to index `i`.  `nm` is the de-quantisation factor and `val` the conversion
of a stored cutoff to `double`. -/
def implied_mass {C : Type} [Inhabited C] (nm : ℚ) (val : C → ℚ) (table : Table C) (i : ℕ) : ℚ :=
  (List.range table.length).foldl
    (fun p j => if (table.getD j default).2 = i then p + (1 - nm * val (table.getD j default).1) else p)
    (nm * val (table.getD i default).1)

/-- `detail::check_table` (lines 32-49).  For a floating-point cutoff type
`nm = 1`; for an integral cutoff type `nm = 1 / numeric_limits<CutoffType>::max()`. -/
def check_table {C : Type} [Inhabited C] (nm : ℚ) (val : C → ℚ)
    (weights : List ℚ) (table : Table C) (tol : ℚ) : Bool :=
  let n := weights.length
  let m := table.length
  let tol := tol * n
  let norm := (m : ℚ) / weights.sum
  (List.range n).foldl
    (fun r i => r && decide (|implied_mass nm val table i - norm * weights.getD i 0| < tol)) true

/-- The validation loop shared by every builder
(`for (auto w : weights) { if (w < 0) throw std::invalid_argument; norm += w; }`). -/
def accumulate_checked : List ℚ → ℚ → Except Exn ℚ
  | [], norm => .ok norm
  | w :: ws, norm => if w < 0 then .error .invalid_argument else accumulate_checked ws (norm + w)

/-- State of the partition loop of `fill_ft2009`: the scratch array and the two
iterators `neg_p`, `pos_p`. -/
structure PartState where
  array : List (ℚ × ℕ)
  neg_p : ℕ
  pos_p : ℕ

/-- One iteration of the partition loop (lines 75-84 / 126-135); `b i` is the
excess `norm * weights[i] - 1` computed in the loop body. -/
def partition_step (b : ℕ → ℚ) (s : PartState) (i : ℕ) : PartState :=
  if b i < 0 then
    { array := s.array.set s.neg_p (b i, i), neg_p := s.neg_p + 1, pos_p := s.pos_p }
  else
    { array := s.array.set (s.pos_p - 1) (b i, i), neg_p := s.neg_p, pos_p := s.pos_p - 1 }

/-- The partition loop: `array(n)`, `neg_p = array.begin()`, `pos_p = array.end()`,
then `for (i = 0; i < n; ++i)`. -/
def partition_excess (n : ℕ) (b : ℕ → ℚ) : PartState :=
  (List.range n).foldl (partition_step b)
    { array := List.replicate n default, neg_p := 0, pos_p := n }

/-- State of the assignment loop of `fill_ft2009`: the scratch array, the
iterator `pos_p` and the table under construction. -/
structure FillState (C : Type) where
  array : List (ℚ × ℕ)
  pos_p : ℕ
  table : Table C

/-- One iteration of the assignment loop (lines 89-97 / 141-149), at iterator
`neg_p`.  `cut x` is the stored form of the cutoff `x` (`CutoffType(1) + first`
resp. `CutoffType(nm * (1 + first))`) and `full` the stored form used in the
`else` branch (`CutoffType(1)` resp. `CutoffType(nm)`). -/
def assign_step {C : Type} (cut : ℚ → C) (full : C) (s : FillState C) (neg_p : ℕ) : FillState C :=
  let e := s.array.getD neg_p default
  if s.pos_p ≠ s.array.length then
    let p := s.array.getD s.pos_p default
    let table := s.table.set e.2 (cut (1 + e.1), p.2)
    let array := s.array.set s.pos_p (p.1 + e.1, p.2)
    if p.1 + e.1 ≤ 0 then
      { array := array, pos_p := s.pos_p + 1, table := table }
    else
      { array := array, pos_p := s.pos_p, table := table }
  else
    { s with table := s.table.set e.2 (full, e.2) }

/-- The assignment loop `for (neg_p = array.begin(); neg_p != array.end(); ++neg_p)`. -/
def assign_aliases {C : Type} (cut : ℚ → C) (full : C) (s : FillState C) : FillState C :=
  (List.range s.array.length).foldl (assign_step cut full) s

/-- `detail::fill_ft2009`, floating-point cutoff (lines 52-98), in exact
arithmetic (`fill_ft2009_double` is the same function in binary64). -/
def fill_ft2009 (weights : List ℚ) (table : Table ℚ) : Option Exn × Table ℚ :=
  if weights.length = 0 then (some .invalid_argument, table) else
  let n := weights.length
  match accumulate_checked weights 0 with
  | .error e => (some e, table)
  | .ok norm =>
    if norm ≤ 0 then (some .invalid_argument, table) else
    let norm := (n : ℚ) / norm
    let table := resize table n
    let part := partition_excess n (fun i => norm * weights.getD i 0 - 1)
    (none, (assign_aliases (fun x => x) 1
      { array := part.array, pos_p := part.pos_p, table := table }).table)

/-- `numeric_limits<unsigned int>::max()`. -/
def uint_max : ℕ := 2 ^ 32 - 1

/-- Conversion `double → unsigned int` (`CutoffType(x)`, `result_type(x)`) of an
exact value: the fractional part is discarded.  (The conversion is undefined in
C++ when the truncated value is negative or exceeds `uint_max`; in exact
arithmetic the builders and the samplers only convert values in range.
`Double.to_uint` is the conversion in binary64.) -/
def to_uint (x : ℚ) : ℕ := ⌊x⌋.toNat

/-- The loop `while (m < n) m <<= 1;` (line 108), started at a positive `m`. -/
def grow_pow2 (n m : ℕ) (hm : 0 < m) : ℕ :=
  if h : m < n then grow_pow2 n (m <<< 1) (by rw [Nat.shiftLeft_eq]; omega) else m
termination_by n - m
decreasing_by
  rw [Nat.shiftLeft_eq]
  omega

/-- `detail::fill_ft2009`, integral cutoff (lines 100-150), for
`CutoffType = unsigned int`, in exact arithmetic (`fill_ft2009_integral_double`
is the same function in binary64). -/
def fill_ft2009_integral (weights : List ℚ) (table : Table ℕ) : Option Exn × Table ℕ :=
  if weights.length = 0 then (some .range_error, table) else
  let n := weights.length
  let m := grow_pow2 n 2 (by decide)
  match accumulate_checked weights 0 with
  | .error e => (some e, table)
  | .ok norm =>
    if norm ≤ 0 then (some .invalid_argument, table) else
    let norm := (m : ℚ) / norm
    let table := resize table m
    let part := partition_excess m
      (fun i => norm * (if i < n then weights.getD i 0 else 0) - 1)
    let nm : ℚ := uint_max
    (none, (assign_aliases (fun x => to_uint (nm * x)) (to_uint nm)
      { array := part.array, pos_p := part.pos_p, table := table }).table)

/-- State of the inner scan of `fill_walker1977` (lines 181-195).  `minpos` and
`maxpos` are declared without initialiser, hence `none` until assigned. -/
structure ScanState where
  sum : ℚ
  minval : ℚ
  maxval : ℚ
  minpos : Option ℕ
  maxpos : Option ℕ

/-- Body of the inner scan `for (j = 0; j < n; ++j)` of `fill_walker1977`. -/
def scan_step (b : List ℚ) (s : ScanState) (j : ℕ) : ScanState :=
  let bj := b.getD j 0
  let s1 : ScanState := { s with sum := s.sum + |bj| }
  let s2 : ScanState := if bj ≤ s1.minval then { s1 with minval := bj, minpos := some j } else s1
  if bj ≥ s2.maxval then { s2 with maxval := bj, maxpos := some j } else s2

/-- The inner scan of `fill_walker1977`. -/
def scan (b : List ℚ) : ScanState :=
  (List.range b.length).foldl (scan_step b)
    { sum := 0, minval := 0, maxval := 0, minpos := none, maxpos := none }

/-- The outer loop `for (i = 0; i < n; ++i)` of `fill_walker1977` (lines 179-203)
with `k` iterations left.  The result is `none` when an uninitialised `minpos`
or `maxpos` would be read. -/
def walker1977_passes (tol : ℚ) : ℕ → Table ℚ → List ℚ → Option (Table ℚ)
  | 0, table, _ => some table
  | k + 1, table, b =>
    let sc := scan b
    if sc.sum < tol then some table
    else
      match sc.minpos, sc.maxpos with
      | some minpos, some maxpos =>
        let table := table.set minpos (1 + sc.minval, maxpos)
        let b := b.set maxpos (b.getD maxpos 0 + sc.minval)
        let b := b.set minpos 0
        walker1977_passes tol k table b
      | _, _ => none

/-- The initialisation loop of `fill_walker1977` (lines 174-177):
`table[i] = (1, i)` for every `i < n`, applied to the resized table. -/
def init_table (table : Table ℚ) (n : ℕ) : Table ℚ :=
  (List.range n).foldl (fun t i => t.set i (1, i)) table

/-- `detail::fill_walker1977` (lines 152-204), in exact arithmetic
(`fill_walker1977_double` is the same function in binary64).  The outer `none`
stands for a read of an uninitialised variable. -/
def fill_walker1977 (weights : List ℚ) (table : Table ℚ) (tol : ℚ) :
    Option (Option Exn × Table ℚ) :=
  if weights.length = 0 then some (some .invalid_argument, table) else
  let n := weights.length
  match accumulate_checked weights 0 with
  | .error e => some (some e, table)
  | .ok norm =>
    if norm ≤ 0 then some (some .invalid_argument, table) else
    let norm := (n : ℚ) / norm
    let table := init_table (resize table n) n
    let b := (List.range n).map (fun i => norm * weights.getD i 0 - 1)
    match walker1977_passes tol n table b with
    | some table => some (none, table)
    | none => none

/-- The loop `for (auto w : weights) { a += w / norm; accum_.push_back(a); }`
shared by `random_choice_bsearch::init` and `random_choice_lsearch::init`, in
exact arithmetic (neither the quotients nor the sums are rounded). -/
def push_cumulative (norm : ℚ) : List ℚ → ℚ → List ℚ → List ℚ
  | [], _, accum => accum
  | w :: ws, a, accum => push_cumulative norm ws (a + w / norm) (accum ++ [a + w / norm])

/-- `random_choice_bsearch::init` (lines 299-319), as a function of the
weights and of the member `accum_`. -/
def random_choice_bsearch_init (weights : List ℚ) (accum_ : List ℚ) : Option Exn × List ℚ :=
  if weights.length = 0 then (some .invalid_argument, accum_) else
  match accumulate_checked weights 0 with
  | .error e => (some e, accum_)
  | .ok norm =>
    if norm ≤ 0 then (some .invalid_argument, accum_) else
    let accum_ := resize accum_ 0
    (none, push_cumulative norm weights 0 accum_)

/-- `random_choice_lsearch::init` (lines 385-405). -/
def random_choice_lsearch_init (weights : List ℚ) (accum_ : List ℚ) : Option Exn × List ℚ :=
  if weights.length = 0 then (some .invalid_argument, accum_) else
  match accumulate_checked weights 0 with
  | .error e => (some e, accum_)
  | .ok norm =>
    if norm ≤ 0 then (some .invalid_argument, accum_) else
    let accum_ := resize accum_ 0
    (none, push_cumulative norm weights 0 accum_)

/-- The `while (true)` loop of `random_choice_bsearch::operator()` (lines 335-363)
on `int` variables, with `fuel` iterations allowed; `none` when the fuel runs
out.  A width `last - first` below 2 falls through every branch and the loop
repeats with unchanged variables. -/
def bsearch_loop (accum : List ℚ) (p : ℚ) : ℕ → ℤ → ℤ → ℤ → Option ℤ
  | 0, _, _, _ => none
  | fuel + 1, first, last, current =>
    if last - first > 3 then
      if p < accum.getD current.toNat 0 then
        bsearch_loop accum p fuel first current (first + ((current - first) >>> (1 : ℕ)))
      else
        bsearch_loop accum p fuel current last (current + ((last - current) >>> (1 : ℕ)))
    else if last - first = 3 then
      if p < accum.getD first.toNat 0 then some first
      else if p < accum.getD (first + 1).toNat 0 then some (first + 1)
      else if p < accum.getD (first + 2).toNat 0 then some (first + 2)
      else some (first + 3)
    else
      if last - first = 2 then
        if p < accum.getD first.toNat 0 then some first
        else if p < accum.getD (first + 1).toNat 0 then some (first + 1)
        else some (first + 2)
      else bsearch_loop accum p fuel first last current

/-- `random_choice_bsearch::operator()` (lines 321-364) for the draw `p`, the
loop being allowed `fuel` iterations.  `int` is modelled by `ℤ` (exact as long
as the array has fewer than `2^31` elements); the result is converted to the
unsigned `result_type`. -/
def random_choice_bsearch_call (accum_ : List ℚ) (p : ℚ) (fuel : ℕ) : Option ℕ :=
  let first : ℤ := 0
  let last : ℤ := accum_.length
  let current : ℤ := first + ((last - first) >>> (1 : ℕ))
  if last - first = 0 then some first.toNat
  else if last - first = 1 then
    if p < accum_.getD first.toNat 0 then some first.toNat else some (first + 1).toNat
  else (bsearch_loop accum_ p fuel first last current).map Int.toNat

/-- `random_choice_lsearch::operator()` (lines 407-412): the scan
`for (r = 0; r < accum_.size(); ++r) if (accum_[r] > x) return r;` from index `r`,
with `k` elements left, and the final `return 0`. -/
def lsearch_scan (accum_ : List ℚ) (x : ℚ) : ℕ → ℕ → ℕ
  | 0, _ => 0
  | k + 1, r => if accum_.getD r 0 > x then r else lsearch_scan accum_ x k (r + 1)

/-- `random_choice_lsearch::operator()` for the draw `x`. -/
def random_choice_lsearch_call (accum_ : List ℚ) (x : ℚ) : ℕ :=
  lsearch_scan accum_ x accum_.length 0

/-- `random_choice_walker`, floating-point cutoff (lines 213-243): its only
member is the table. -/
structure random_choice_walker_float where
  table_ : Table ℚ

/-- Constructor `random_choice_walker(const CONT& weights)` (line 222): an
exception of `fill_ft2009` leaves no object. -/
def random_choice_walker_float.construct (weights : List ℚ) :
    Except Exn random_choice_walker_float :=
  match fill_ft2009 weights [] with
  | (none, t) => .ok { table_ := t }
  | (some e, _) => .error e

/-- Members `size()`, `cutoff(i)`, `alias(i)` (lines 236-238). -/
def random_choice_walker_float.size (self : random_choice_walker_float) : ℕ :=
  self.table_.length

def random_choice_walker_float.cutoff (self : random_choice_walker_float) (i : ℕ) : ℚ :=
  (self.table_.getD i default).1

def random_choice_walker_float.alias (self : random_choice_walker_float) (i : ℕ) : ℕ :=
  (self.table_.getD i default).2

/-- `operator()` of the floating-point sampler (lines 224-228), in exact
arithmetic: the product `size() * eng()` is not rounded before its fractional part
is discarded (`random_choice_walker_double.call` is the operator in binary64).
The engine is the stream `eng` of its successive outputs, read from position
`pos`; the result is the sampled index and the position after the call. -/
def random_choice_walker_float.call (self : random_choice_walker_float)
    (eng : ℕ → ℚ) (pos : ℕ) : ℕ × ℕ :=
  let x := to_uint ((self.size : ℚ) * eng pos)
  (if eng (pos + 1) < self.cutoff x then x else self.alias x, pos + 2)

/-- `random_choice_walker`, integral cutoff (lines 250-282). -/
structure random_choice_walker_integral where
  bits_ : ℕ
  table_ : Table ℕ

/-- Constructor of the integral sampler (lines 258-262):
`bits_ = 31 - int(std::log(table_.size() - 0.5) / std::log(2.0))`, the logarithm
being taken exactly and the `int` result stored in the unsigned `bits_`. -/
def random_choice_walker_integral.construct (weights : List ℚ) :
    Except Exn random_choice_walker_integral :=
  match fill_ft2009_integral weights [] with
  | (none, t) =>
    .ok { bits_ := ((31 - Int.log 2 ((t.length : ℚ) - 1 / 2)) % 2 ^ 32).toNat, table_ := t }
  | (some e, _) => .error e

def random_choice_walker_integral.cutoff (self : random_choice_walker_integral) (i : ℕ) : ℕ :=
  (self.table_.getD i default).1

def random_choice_walker_integral.alias (self : random_choice_walker_integral) (i : ℕ) : ℕ :=
  (self.table_.getD i default).2

/-- `operator()` of the integral sampler (lines 264-268) on a stream `eng` of raw
engine outputs read from position `pos`. -/
def random_choice_walker_integral.call (self : random_choice_walker_integral)
    (eng : ℕ → ℕ) (pos : ℕ) : ℕ × ℕ :=
  let x := eng pos >>> self.bits_
  (if eng (pos + 1) < self.cutoff x then x else self.alias x, pos + 2)

end detail

/-- `tower_sampling` (tower_sampling.hpp): the members `sum_` and `table_`. -/
structure tower_sampling where
  sum_ : ℚ
  table_ : List ℚ

/-- The loop `for (itr = firstW; itr != lastW; ++itr) { s += *itr; table_.push_back(s / sum_); }`
of the `tower_sampling` constructor. -/
def tower_push (sum_ : ℚ) : List ℚ → ℚ → List ℚ → List ℚ
  | [], _, table_ => table_
  | w :: ws, s, table_ => tower_push sum_ ws (s + w) (table_ ++ [(s + w) / sum_])

/-- Constructor `tower_sampling(firstW, lastW)` (lines 28-36).  It contains no
`throw`; its result is wrapped in `Except` only to be comparable with the other
constructors. -/
def tower_sampling.construct (weights : List ℚ) : Except Exn tower_sampling :=
  let sum_ := weights.sum
  .ok { sum_ := sum_, table_ := tower_push sum_ weights 0 [] }

end walker



namespace walker.detail

/-! ## Vocabulary for the loop invariants -/

/-- Entries of the deficit group after `q` iterations of the partition loop,
in insertion order. -/
def negs (b : ℕ → ℚ) (q : ℕ) : List (ℚ × ℕ) :=
  ((List.range q).filter (fun i => decide (b i < 0))).map (fun i => (b i, i))

/-- Entries of the surplus group after `q` iterations of the partition loop,
in insertion order. -/
def poss (b : ℕ → ℚ) (q : ℕ) : List (ℚ × ℕ) :=
  ((List.range q).filter (fun i => !decide (b i < 0))).map (fun i => (b i, i))

/-- Excess (`->first`) stored at offset `s` of a scratch array. -/
def excess_at (a : List (ℚ × ℕ)) (s : ℕ) : ℚ := (a.getD s default).1

/-- Original index (`->second`) stored at offset `s` of a scratch array. -/
def index_at (a : List (ℚ × ℕ)) (s : ℕ) : ℕ := (a.getD s default).2

/-- Mass that a table entry `e` stored at index `j` gives to index `i`: its
cutoff if `j = i`, and the complement of its cutoff if its alias is `i`. -/
def contrib (e : ℚ × ℕ) (j i : ℕ) : ℚ :=
  (if j = i then e.1 else 0) + (if e.2 = i then 1 - e.1 else 0)

/-- Mass given to index `i` by the table entries written during the first `q`
iterations of the assignment loop over the scratch array `A`. -/
def mass_upto (A : List (ℚ × ℕ)) (T : Table ℚ) (q i : ℕ) : ℚ :=
  ∑ u in Finset.range q, contrib (T.getD (index_at A u) default) (index_at A u) i

/-- What the partition loop establishes about the scratch array `A`, with `k`
the common value of `neg_p` and `pos_p`: the stored indices are distinct and in
range, the first `k` excesses are negative (and at least `-1`), the others are
non-negative, and the excesses sum to zero. -/
structure Partitioned (A : List (ℚ × ℕ)) (k : ℕ) : Prop where
  k_le : k ≤ A.length
  inj : ∀ s t, s < A.length → t < A.length → index_at A s = index_at A t → s = t
  bound : ∀ s, s < A.length → index_at A s < A.length
  neg0 : ∀ s, s < k → excess_at A s < 0 ∧ -1 ≤ excess_at A s
  pos0 : ∀ s, k ≤ s → s < A.length → 0 ≤ excess_at A s
  sum0 : ∑ s in Finset.range A.length, excess_at A s = 0

/-- Invariant of the assignment loop of the floating-point `fill_ft2009` before
iteration `q` (exact arithmetic), relative to the partitioned array `A`. -/
structure AssignInv (A : List (ℚ × ℕ)) (k q : ℕ) (st : FillState ℚ) : Prop where
  len_arr : st.array.length = A.length
  len_tab : st.table.length = A.length
  snd_eq : ∀ s, index_at st.array s = index_at A s
  k_le : k ≤ st.pos_p
  q_le : q ≤ st.pos_p
  p_le : st.pos_p ≤ A.length
  low : ∀ s, s < k → excess_at st.array s = excess_at A s
  neg : ∀ s, q ≤ s → s < st.pos_p → excess_at st.array s ≤ 0 ∧ -1 ≤ excess_at st.array s
  pos : ∀ s, st.pos_p ≤ s → s < A.length → 0 ≤ excess_at st.array s
  sum : ∑ s in Finset.Ico q A.length, excess_at st.array s = 0
  written : ∀ s, s < q → ∃ t, k ≤ t ∧ t < A.length ∧
      (st.table.getD (index_at A s) default).2 = index_at A t ∧
      0 ≤ (st.table.getD (index_at A s) default).1 ∧
      (st.table.getD (index_at A s) default).1 ≤ 1 ∧
      (s < k → (st.table.getD (index_at A s) default).1 = 1 + excess_at A s)
  mass : ∀ s, s < A.length →
      mass_upto A st.table q (index_at A s)
        = if s < q then 1 + excess_at A s else excess_at A s - excess_at st.array s

end walker.detail

namespace walker

/-- A valid weight vector: non-empty, no negative weight, positive sum. -/
def ValidWeights (w : List ℚ) : Prop :=
  w ≠ [] ∧ (∀ x ∈ w, 0 ≤ x) ∧ 0 < w.sum

end walker

namespace walker.detail

/-- Stored form of an exact table entry in the integral table:
`CutoffType(nm * cutoff)` with `nm = numeric_limits<unsigned int>::max()`. -/
def quantize (e : ℚ × ℕ) : ℕ × ℕ := (to_uint ((uint_max : ℚ) * e.1), e.2)

/-- An exact loop state with its table quantised. -/
def quantize_state (st : FillState ℚ) : FillState ℕ :=
  { array := st.array, pos_p := st.pos_p, table := st.table.map quantize }

/-- Exact preimage of an integral table entry under `quantize`. -/
def dequantize (e : ℕ × ℕ) : ℚ × ℕ := ((e.1 : ℚ) / uint_max, e.2)

/-- The excess computed by the integral `fill_ft2009` for slot `i` of a table
of length `m`: `norm * (i < n ? weights[i] : 0) - 1` with `norm = m / sum`. -/
def padded_excess (w : List ℚ) (m : ℕ) (i : ℕ) : ℚ :=
  (m : ℚ) / w.sum * (if i < w.length then w.getD i 0 else 0) - 1

/-- The exact (unquantised) table underlying the integral `fill_ft2009`: the
assignment loop run with exact cutoffs on the same partitioned array. -/
def exact_table (w : List ℚ) (t : Table ℕ) : Table ℚ :=
  let m := grow_pow2 w.length 2 (by decide)
  (assign_aliases (fun x => x) 1
    { array := negs (padded_excess w m) m ++ (poss (padded_excess w m) m).reverse,
      pos_p := (negs (padded_excess w m) m).length,
      table := (resize t m).map dequantize }).table

end walker.detail

namespace walker

/-- An invalid weight vector: empty, or with a negative weight, or with a
non-positive sum. -/
def InvalidWeights (w : List ℚ) : Prop :=
  w = [] ∨ (∃ x ∈ w, x < 0) ∨ w.sum ≤ 0

end walker

namespace walker

/-- The search `std::upper_bound(first, last, val)` of the C++ standard library,
in its usual halving form on random-access iterators (iterators are offsets
into `a`, `len` is the length of the range still to be searched):
`while (len > 0) { half = len >> 1; middle = first + half;
if (val < *middle) len = half; else { first = middle + 1; len = len - half - 1; } }
return first;`. -/
def upper_bound_loop (a : List ℚ) (val : ℚ) (first len : ℕ) : ℕ :=
  if h : len > 0 then
    let half := len >>> 1
    let middle := first + half
    if val < a.getD middle 0 then upper_bound_loop a val first half
    else upper_bound_loop a val (middle + 1) (len - half - 1)
  else first
termination_by len
decreasing_by
  · rw [Nat.shiftRight_eq_div_pow]
    omega
  · omega

/-- The call `std::upper_bound(table_.begin(), table_.end(), val)`, as an offset
from `table_.begin()`. -/
def upper_bound (a : List ℚ) (val : ℚ) : ℕ :=
  upper_bound_loop a val 0 a.length

/-- `tower_sampling::operator()` (lines 37-41) for the value `p` drawn by
`dist_(eng)`: `result_type(itr - table_.begin())`. -/
def tower_sampling.call (self : tower_sampling) (p : ℚ) : ℕ :=
  upper_bound self.table_ p

end walker

namespace walker

/-- The cumulative array of the specification: entry `i` is the normalized
cumulative sum `(w_0 + ... + w_i) / sum w` of `weights[0..i]`. -/
def cumulative (w : List ℚ) : List ℚ :=
  (List.range w.length).map (fun i => (w.take (i + 1)).sum / w.sum)

end walker

namespace walker

/-- The index `r` is the smallest index of `a` whose entry exceeds `p`, or the
length of `a` when no entry exceeds `p`. -/
def LeastAbove (a : List ℚ) (p : ℚ) (r : ℕ) : Prop :=
  r ≤ a.length ∧ (∀ i, i < r → ¬ a.getD i 0 > p) ∧ (r < a.length → a.getD r 0 > p)

end walker

namespace walker

end walker

namespace walker.detail

/-- Number of non-zero entries of the excess array `b` of `fill_walker1977`. -/
def nonzero_count (b : List ℚ) : ℕ :=
  ((Finset.range b.length).filter (fun i => b.getD i 0 ≠ 0)).card

/-- Invariant of the outer loop of `fill_walker1977` (exact arithmetic), with
`b0` the initial excesses: the current excesses `b` sum to zero, an entry with
non-zero excess still holds its initial value `(1, i)`, and the mass the table
gives to `i` is `1 + b0_i - b_i`. -/
structure Walker77Inv (b0 : List ℚ) (table : Table ℚ) (b : List ℚ) : Prop where
  len_b : b.length = b0.length
  len_t : table.length = b0.length
  sum : b.sum = 0
  fresh : ∀ i, i < b0.length → b.getD i 0 ≠ 0 → table.getD i default = (1, i)
  mass : ∀ i, i < b0.length →
    implied_mass 1 (fun x => x) table i = 1 + b0.getD i 0 - b.getD i 0

end walker.detail

namespace walker.detail

/-- State of the assignment loop of the floating-point `fill_ft2009` (lines
89-97) on the weights `w` and the table `t`, before the iteration at
`neg_p = array.begin() + q`. -/
def fill_ft2009_loop_state (w : List ℚ) (t : Table ℚ) (q : ℕ) : FillState ℚ :=
  let n := w.length
  let part := partition_excess n (fun i => (n : ℚ) / w.sum * w.getD i 0 - 1)
  (List.range q).foldl (assign_step (fun x => x) 1)
    { array := part.array, pos_p := part.pos_p, table := resize t n }

end walker.detail

/-! ## The same code in binary64 arithmetic

A second embedding of the builders and of the alias samplers, in which `double`
is IEEE 754 binary64: every arithmetic operation of the source is performed
exactly and its result rounded (round to nearest, ties to even), one operation
at a time (no fused multiply-add, no wider intermediate precision).  It is used
to evaluate the code at concrete inputs.
-/

namespace walker

/-- Values of the C++ type `double` (IEEE 754 binary64): a finite value, an
infinity with its sign, or a NaN.  The two zeros are not distinguished.  A value
`fin q` given as input is meant with `q` representable, `Double.round q = fin q`;
every operation below returns such values. -/
inductive Double where
  | fin (q : ℚ)
  | inf (negative : Bool)
  | nan
  deriving DecidableEq

/-- A value-initialised `double` is `0.0`. -/
instance : Inhabited Double := ⟨.fin 0⟩

/-- Doubling search for the width of `n`: the first `j`, counted from the given
one, with `n < 2^(2^j)` (at most `fuel` steps). -/
def log2_width (n : ℕ) : ℕ → ℕ → ℕ
  | 0, j => j
  | fuel + 1, j => if n < 2 ^ 2 ^ j then j else log2_width n fuel (j + 1)

/-- Bisection for the leading bit of `n`: from `2^k ≤ n < 2^(k + 2^j)` to the
`k` with `2^k ≤ n < 2^(k+1)`. -/
def log2_bisect (n : ℕ) : ℕ → ℕ → ℕ
  | 0, k => k
  | j + 1, k =>
    if 2 ^ (k + 2 ^ j) ≤ n then log2_bisect n j (k + 2 ^ j) else log2_bisect n j k

/-- The exponent `⌊log₂ n⌋` of a positive natural number. -/
def nat_log2 (n : ℕ) : ℕ := log2_bisect n (log2_width n n 0) 0

/-- Binary exponent `⌊log₂ x⌋` of a positive rational `x`: the difference of the
exponents of numerator and denominator, lowered by one when `2` to that power
exceeds `x`. -/
def ilog2 (x : ℚ) : ℤ :=
  if (2 : ℚ) ^ ((nat_log2 x.num.natAbs : ℤ) - (nat_log2 x.den : ℤ)) ≤ x then
    (nat_log2 x.num.natAbs : ℤ) - (nat_log2 x.den : ℤ)
  else (nat_log2 x.num.natAbs : ℤ) - (nat_log2 x.den : ℤ) - 1

/-- The integer nearest to `x`, the even one on a tie. -/
def round_half_even (x : ℚ) : ℤ :=
  if x - ⌊x⌋ < 1 / 2 then ⌊x⌋
  else if 1 / 2 < x - ⌊x⌋ then ⌊x⌋ + 1
  else if ⌊x⌋ % 2 = 0 then ⌊x⌋ else ⌊x⌋ + 1

/-- Rounding of the exact result `x` of an operation to binary64: 53 significant
bits, least exponent `-1022` (below it the subnormal spacing `2^-1074`), round
to nearest with ties to even, and infinity when the rounded magnitude reaches
`2^1024`. -/
def Double.round (x : ℚ) : Double :=
  if x = 0 then .fin 0 else
  let e := max (ilog2 |x|) (-1022)
  let y := (round_half_even (x / 2 ^ (e - 52)) : ℚ) * 2 ^ (e - 52)
  if (2 : ℚ) ^ (1024 : ℕ) ≤ |y| then .inf (decide (x < 0)) else .fin y

/-- Conversion of an unsigned integer (`std::size_t`, `unsigned int`) to `double`. -/
def Double.of_nat (n : ℕ) : Double := Double.round n

/-- Unary minus. -/
def Double.neg : Double → Double
  | .fin a => .fin (-a)
  | .inf s => .inf (!s)
  | .nan => .nan

/-- The function `std::abs`. -/
def Double.abs : Double → Double
  | .fin a => .fin |a|
  | .inf _ => .inf false
  | .nan => .nan

/-- Addition `x + y`. -/
def Double.add : Double → Double → Double
  | .fin a, .fin b => Double.round (a + b)
  | .fin _, .inf s => .inf s
  | .inf s, .fin _ => .inf s
  | .inf s, .inf t => if s = t then .inf s else .nan
  | .nan, _ => .nan
  | _, .nan => .nan

/-- Subtraction `x - y`. -/
def Double.sub (x y : Double) : Double := x.add y.neg

/-- Multiplication `x * y`. -/
def Double.mul : Double → Double → Double
  | .fin a, .fin b => Double.round (a * b)
  | .fin a, .inf s => if a = 0 then .nan else .inf (xor (decide (a < 0)) s)
  | .inf s, .fin b => if b = 0 then .nan else .inf (xor s (decide (b < 0)))
  | .inf s, .inf t => .inf (xor s t)
  | .nan, _ => .nan
  | _, .nan => .nan

/-- Division `x / y` (a zero divisor is taken as `+0`). -/
def Double.div : Double → Double → Double
  | .fin a, .fin b =>
    if b = 0 then (if a = 0 then .nan else .inf (decide (a < 0))) else Double.round (a / b)
  | .fin _, .inf _ => .fin 0
  | .inf s, .fin b => .inf (xor s (decide (b < 0)))
  | .inf _, .inf _ => .nan
  | .nan, _ => .nan
  | _, .nan => .nan

/-- Comparison `x < y`; false when an operand is a NaN. -/
def Double.lt : Double → Double → Bool
  | .fin a, .fin b => decide (a < b)
  | .fin _, .inf s => !s
  | .inf s, .fin _ => s
  | .inf s, .inf t => s && !t
  | .nan, _ => false
  | _, .nan => false

/-- Comparison `x <= y`; false when an operand is a NaN. -/
def Double.le : Double → Double → Bool
  | .fin a, .fin b => decide (a ≤ b)
  | .fin _, .inf s => !s
  | .inf s, .fin _ => s
  | .inf s, .inf t => s || !t
  | .nan, _ => false
  | _, .nan => false

/-- Conversion `double → unsigned int` (`CutoffType(x)`, `result_type(x)`): the
fractional part is discarded when the truncated value fits, that is when
`-1 < x < 2^32`.  Otherwise (a NaN, an infinity, a value out of range) the
conversion is undefined in C++, and `ub x` stands for the value it yields. -/
def Double.to_uint (ub : Double → ℕ) : Double → ℕ
  | .fin a => if -1 < a ∧ a < 2 ^ 32 then ⌊a⌋.toNat else ub (.fin a)
  | x => ub x

namespace detail

/-- The validation loop shared by every builder, in binary64
(`for (auto w : weights) { if (w < 0) throw std::invalid_argument; norm += w; }`). -/
def accumulate_checked_double : List Double → Double → Except Exn Double
  | [], norm => .ok norm
  | w :: ws, norm =>
    if w.lt (.fin 0) then .error .invalid_argument
    else accumulate_checked_double ws (norm.add w)

/-- State of the partition loop of `fill_ft2009` in binary64. -/
structure PartStateD where
  array : List (Double × ℕ)
  neg_p : ℕ
  pos_p : ℕ

/-- One iteration of the partition loop (lines 75-84 / 126-135) in binary64;
`b i` is the excess `norm * weights[i] - 1` computed in the loop body. -/
def partition_step_double (b : ℕ → Double) (s : PartStateD) (i : ℕ) : PartStateD :=
  if (b i).lt (.fin 0) then
    { array := s.array.set s.neg_p (b i, i), neg_p := s.neg_p + 1, pos_p := s.pos_p }
  else
    { array := s.array.set (s.pos_p - 1) (b i, i), neg_p := s.neg_p, pos_p := s.pos_p - 1 }

/-- The partition loop in binary64. -/
def partition_excess_double (n : ℕ) (b : ℕ → Double) : PartStateD :=
  (List.range n).foldl (partition_step_double b)
    { array := List.replicate n default, neg_p := 0, pos_p := n }

/-- State of the assignment loop of `fill_ft2009` in binary64. -/
structure FillStateD (C : Type) where
  array : List (Double × ℕ)
  pos_p : ℕ
  table : Table C

/-- One iteration of the assignment loop (lines 89-97 / 141-149) in binary64, at
iterator `neg_p`.  `cut x` is the stored form of `x = 1 + neg_p->first`
(`x` itself resp. `CutoffType(nm * x)`) and `full` the value stored in the
`else` branch (`CutoffType(1)` resp. `CutoffType(nm)`). -/
def assign_step_double {C : Type} (cut : Double → C) (full : C) (s : FillStateD C)
    (neg_p : ℕ) : FillStateD C :=
  let e := s.array.getD neg_p default
  if s.pos_p ≠ s.array.length then
    let p := s.array.getD s.pos_p default
    let table := s.table.set e.2 (cut ((Double.fin 1).add e.1), p.2)
    let array := s.array.set s.pos_p (p.1.add e.1, p.2)
    if (p.1.add e.1).le (.fin 0) then
      { array := array, pos_p := s.pos_p + 1, table := table }
    else
      { array := array, pos_p := s.pos_p, table := table }
  else
    { s with table := s.table.set e.2 (full, e.2) }

/-- The assignment loop in binary64. -/
def assign_aliases_double {C : Type} (cut : Double → C) (full : C) (s : FillStateD C) :
    FillStateD C :=
  (List.range s.array.length).foldl (assign_step_double cut full) s

/-- `detail::fill_ft2009`, floating-point cutoff (lines 52-98), in binary64. -/
def fill_ft2009_double (weights : List Double) (table : Table Double) :
    Option Exn × Table Double :=
  if weights.length = 0 then (some .invalid_argument, table) else
  let n := weights.length
  match accumulate_checked_double weights (.fin 0) with
  | .error e => (some e, table)
  | .ok norm =>
    if norm.le (.fin 0) then (some .invalid_argument, table) else
    let norm := (Double.of_nat n).div norm
    let table := resize table n
    let part := partition_excess_double n
      (fun i => (norm.mul (weights.getD i default)).sub (.fin 1))
    (none, (assign_aliases_double (fun x => x) (.fin 1)
      { array := part.array, pos_p := part.pos_p, table := table }).table)

/-- `detail::fill_ft2009`, integral cutoff (lines 100-150), for
`CutoffType = unsigned int`, in binary64; `ub` gives the result of the
conversions `CutoffType(...)` that are undefined. -/
def fill_ft2009_integral_double (ub : Double → ℕ) (weights : List Double) (table : Table ℕ) :
    Option Exn × Table ℕ :=
  if weights.length = 0 then (some .range_error, table) else
  let n := weights.length
  let m := grow_pow2 n 2 (by decide)
  match accumulate_checked_double weights (.fin 0) with
  | .error e => (some e, table)
  | .ok norm =>
    if norm.le (.fin 0) then (some .invalid_argument, table) else
    let norm := (Double.of_nat m).div norm
    let table := resize table m
    let part := partition_excess_double m
      (fun i => (norm.mul (if i < n then weights.getD i default else .fin 0)).sub (.fin 1))
    let nm := Double.of_nat uint_max
    (none, (assign_aliases_double (fun x => Double.to_uint ub (nm.mul x)) (Double.to_uint ub nm)
      { array := part.array, pos_p := part.pos_p, table := table }).table)

/-- State of the inner scan of `fill_walker1977` (lines 181-195) in binary64.
`minpos` and `maxpos` are declared without initialiser, hence `none` until
assigned. -/
structure ScanStateD where
  sum : Double
  minval : Double
  maxval : Double
  minpos : Option ℕ
  maxpos : Option ℕ

/-- Body of the inner scan `for (j = 0; j < n; ++j)` of `fill_walker1977` in
binary64. -/
def scan_step_double (b : List Double) (s : ScanStateD) (j : ℕ) : ScanStateD :=
  let bj := b.getD j default
  let s1 : ScanStateD := { s with sum := s.sum.add bj.abs }
  let s2 : ScanStateD :=
    if bj.le s1.minval then { s1 with minval := bj, minpos := some j } else s1
  if s2.maxval.le bj then { s2 with maxval := bj, maxpos := some j } else s2

/-- The inner scan of `fill_walker1977` in binary64. -/
def scan_double (b : List Double) : ScanStateD :=
  (List.range b.length).foldl (scan_step_double b)
    { sum := .fin 0, minval := .fin 0, maxval := .fin 0, minpos := none, maxpos := none }

/-- The outer loop `for (i = 0; i < n; ++i)` of `fill_walker1977` (lines 179-203)
in binary64, with `k` iterations left.  The result is `none` when an
uninitialised `minpos` or `maxpos` would be read. -/
def walker1977_passes_double (tol : Double) : ℕ → Table Double → List Double →
    Option (Table Double)
  | 0, table, _ => some table
  | k + 1, table, b =>
    let sc := scan_double b
    if sc.sum.lt tol then some table
    else
      match sc.minpos, sc.maxpos with
      | some minpos, some maxpos =>
        let table := table.set minpos ((Double.fin 1).add sc.minval, maxpos)
        let b := b.set maxpos ((b.getD maxpos default).add sc.minval)
        let b := b.set minpos (.fin 0)
        walker1977_passes_double tol k table b
      | _, _ => none

/-- The initialisation loop of `fill_walker1977` (lines 174-177), on a table of
binary64 cutoffs. -/
def init_table_double (table : Table Double) (n : ℕ) : Table Double :=
  (List.range n).foldl (fun t i => t.set i (.fin 1, i)) table

/-- `detail::fill_walker1977` (lines 152-204) in binary64.  The outer `none`
stands for a read of an uninitialised variable. -/
def fill_walker1977_double (weights : List Double) (table : Table Double) (tol : Double) :
    Option (Option Exn × Table Double) :=
  if weights.length = 0 then some (some .invalid_argument, table) else
  let n := weights.length
  match accumulate_checked_double weights (.fin 0) with
  | .error e => some (some e, table)
  | .ok norm =>
    if norm.le (.fin 0) then some (some .invalid_argument, table) else
    let norm := (Double.of_nat n).div norm
    let table := init_table_double (resize table n) n
    let b := (List.range n).map (fun i => (norm.mul (weights.getD i default)).sub (.fin 1))
    match walker1977_passes_double tol n table b with
    | some table => some (none, table)
    | none => none

/-- `random_choice_walker`, floating-point cutoff (lines 213-243), with binary64
cutoffs. -/
structure random_choice_walker_double where
  table_ : Table Double

/-- Constructor `random_choice_walker(const CONT& weights)` (line 222) in
binary64. -/
def random_choice_walker_double.construct (weights : List Double) :
    Except Exn random_choice_walker_double :=
  match fill_ft2009_double weights [] with
  | (none, t) => .ok { table_ := t }
  | (some e, _) => .error e

/-- `operator()` of the floating-point sampler (lines 224-228) in binary64:
`x = result_type(RealType(size()) * eng())`, the product being rounded before
its fractional part is discarded.  The engine is the stream `eng` of its
outputs, read from position `pos`. -/
def random_choice_walker_double.call (self : random_choice_walker_double)
    (ub : Double → ℕ) (eng : ℕ → Double) (pos : ℕ) : ℕ × ℕ :=
  let x := Double.to_uint ub ((Double.of_nat self.table_.length).mul (eng pos))
  (if (eng (pos + 1)).lt (self.table_.getD x default).1 then x
    else (self.table_.getD x default).2, pos + 2)

/-- Constructor of the integral sampler (lines 258-262), the table being built
in binary64 (the logarithm of `bits_` is taken exactly). -/
def random_choice_walker_integral.construct_double (ub : Double → ℕ) (weights : List Double) :
    Except Exn random_choice_walker_integral :=
  match fill_ft2009_integral_double ub weights [] with
  | (none, t) =>
    .ok { bits_ := ((31 - Int.log 2 ((t.length : ℚ) - 1 / 2)) % 2 ^ 32).toNat, table_ := t }
  | (some e, _) => .error e

/-- The loop `for (auto w : weights) { a += w / norm; accum_.push_back(a); }` of
`random_choice_bsearch::init` and `random_choice_lsearch::init` in binary64. -/
def push_cumulative_double (norm : Double) : List Double → Double → List Double → List Double
  | [], _, accum => accum
  | w :: ws, a, accum =>
    push_cumulative_double norm ws (a.add (w.div norm)) (accum ++ [a.add (w.div norm)])

/-- `random_choice_bsearch::init` (lines 299-319) in binary64;
`random_choice_lsearch::init` (lines 385-405) has the same body. -/
def random_choice_bsearch_init_double (weights : List Double) (accum_ : List Double) :
    Option Exn × List Double :=
  if weights.length = 0 then (some .invalid_argument, accum_) else
  match accumulate_checked_double weights (.fin 0) with
  | .error e => (some e, accum_)
  | .ok norm =>
    if norm.le (.fin 0) then (some .invalid_argument, accum_) else
    let accum_ := resize accum_ 0
    (none, push_cumulative_double norm weights (.fin 0) accum_)

end detail

end walker
namespace walker.detail

/-! ## The partition loop -/

theorem negs_succ (b : ℕ → ℚ) (q : ℕ) :
    negs b (q + 1) = if b q < 0 then negs b q ++ [(b q, q)] else negs b q := by
  unfold negs
  rw [List.range_succ, List.filter_append]
  by_cases h : b q < 0 <;> simp [List.filter_cons, h]

theorem poss_succ (b : ℕ → ℚ) (q : ℕ) :
    poss b (q + 1) = if b q < 0 then poss b q else poss b q ++ [(b q, q)] := by
  unfold poss
  rw [List.range_succ, List.filter_append]
  by_cases h : b q < 0 <;> simp [List.filter_cons, h]

theorem negs_length_add_poss_length (b : ℕ → ℚ) (q : ℕ) :
    (negs b q).length + (poss b q).length = q := by
  induction q with
  | zero => simp [negs, poss]
  | succ q ih =>
    rw [negs_succ, poss_succ]
    by_cases h : b q < 0 <;> simp [h] <;> omega

theorem set_front_of_gap {α : Type} (L R : List α) (d x : α) (r : ℕ) :
    (L ++ List.replicate (r + 1) d ++ R).set L.length x
      = (L ++ [x]) ++ List.replicate r d ++ R := by
  simp [List.set_append, List.replicate_succ]

theorem set_back_of_gap {α : Type} (L R : List α) (d x : α) (r : ℕ) :
    (L ++ List.replicate (r + 1) d ++ R).set (L.length + r) x
      = L ++ List.replicate r d ++ (x :: R) := by
  rw [List.replicate_succ']
  simp [List.set_append]

theorem partition_fold (n : ℕ) (b : ℕ → ℚ) (q : ℕ) (hq : q ≤ n) :
    (List.range q).foldl (partition_step b)
        { array := List.replicate n default, neg_p := 0, pos_p := n }
      = { array := negs b q ++ List.replicate (n - q) default ++ (poss b q).reverse,
          neg_p := (negs b q).length,
          pos_p := n - (poss b q).length } := by
  induction q with
  | zero => simp [negs, poss]
  | succ q ih =>
    have hlen := negs_length_add_poss_length b q
    rw [List.range_succ, List.foldl_append, ih (by omega)]
    simp only [List.foldl_cons, List.foldl_nil, partition_step]
    obtain ⟨r, hr⟩ : ∃ r, n - q = r + 1 := ⟨n - q - 1, by omega⟩
    have hr2 : n - (q + 1) = r := by omega
    rw [negs_succ, poss_succ, hr, hr2]
    by_cases h : b q < 0
    · simp only [h, if_true]
      rw [set_front_of_gap]
      simp
    · have e : n - (poss b q).length - 1 = (negs b q).length + r := by omega
      simp only [h, if_false]
      rw [e, set_back_of_gap]
      simp
      omega

theorem partition_excess_eq (n : ℕ) (b : ℕ → ℚ) :
    partition_excess n b
      = { array := negs b n ++ (poss b n).reverse,
          neg_p := (negs b n).length,
          pos_p := (negs b n).length } := by
  have hlen := negs_length_add_poss_length b n
  unfold partition_excess
  rw [partition_fold n b n le_rfl]
  simp
  omega


/-! ## The assignment loop -/

theorem getD_set_self {α : Type} (l : List α) (j : ℕ) (x d : α) (h : j < l.length) :
    (l.set j x).getD j d = x := by
  simp [List.getD_eq_getElem?_getD, List.getElem?_set, h]

theorem getD_set_of_ne {α : Type} (l : List α) (j j' : ℕ) (x d : α) (h : j ≠ j') :
    (l.set j x).getD j' d = l.getD j' d := by
  simp [List.getD_eq_getElem?_getD, List.getElem?_set, h]

theorem foldl_ite_add (c : ℕ → Prop) [DecidablePred c] (f : ℕ → ℚ) (init : ℚ) (m : ℕ) :
    (List.range m).foldl (fun p j => if c j then p + f j else p) init
      = init + ∑ j in Finset.range m, (if c j then f j else 0) := by
  induction m with
  | zero => simp
  | succ m ih =>
    rw [List.range_succ, List.foldl_append, ih, Finset.sum_range_succ]
    by_cases h : c m <;> simp [h, add_assoc]

theorem excess_at_set_self (a : List (ℚ × ℕ)) (p : ℕ) (x : ℚ) (j : ℕ) (h : p < a.length) :
    excess_at (a.set p (x, j)) p = x := by
  unfold excess_at
  rw [getD_set_self _ _ _ _ h]

theorem excess_at_set_of_ne (a : List (ℚ × ℕ)) (p s : ℕ) (x : ℚ) (j : ℕ) (h : p ≠ s) :
    excess_at (a.set p (x, j)) s = excess_at a s := by
  unfold excess_at
  rw [getD_set_of_ne _ _ _ _ _ h]

theorem index_at_set_same (a : List (ℚ × ℕ)) (p s : ℕ) (x : ℚ) :
    index_at (a.set p (x, index_at a p)) s = index_at a s := by
  by_cases h : p = s
  · subst h
    by_cases hp : p < a.length
    · unfold index_at
      rw [getD_set_self _ _ _ _ hp]
    · rw [List.set_eq_of_length_le (by omega)]
  · unfold index_at
    rw [getD_set_of_ne _ _ _ _ _ h]

theorem assign_step_end {C : Type} (cut : ℚ → C) (full : C) (s : FillState C) (q : ℕ)
    (hp : s.pos_p = s.array.length) :
    assign_step cut full s q
      = { s with table := s.table.set (index_at s.array q) (full, index_at s.array q) } := by
  simp only [assign_step, index_at, hp, ne_eq, not_true_eq_false, if_false]

theorem assign_step_adv {C : Type} (cut : ℚ → C) (full : C) (s : FillState C) (q : ℕ)
    (hp : s.pos_p ≠ s.array.length)
    (h : excess_at s.array s.pos_p + excess_at s.array q ≤ 0) :
    assign_step cut full s q
      = { array := s.array.set s.pos_p
            (excess_at s.array s.pos_p + excess_at s.array q, index_at s.array s.pos_p),
          pos_p := s.pos_p + 1,
          table := s.table.set (index_at s.array q)
            (cut (1 + excess_at s.array q), index_at s.array s.pos_p) } := by
  unfold excess_at at h
  simp only [assign_step, index_at, excess_at, ne_eq, hp, not_false_eq_true, if_true, h,
    if_false]

theorem assign_step_stay {C : Type} (cut : ℚ → C) (full : C) (s : FillState C) (q : ℕ)
    (hp : s.pos_p ≠ s.array.length)
    (h : ¬ excess_at s.array s.pos_p + excess_at s.array q ≤ 0) :
    assign_step cut full s q
      = { array := s.array.set s.pos_p
            (excess_at s.array s.pos_p + excess_at s.array q, index_at s.array s.pos_p),
          pos_p := s.pos_p,
          table := s.table.set (index_at s.array q)
            (cut (1 + excess_at s.array q), index_at s.array s.pos_p) } := by
  unfold excess_at at h
  simp only [assign_step, index_at, excess_at, ne_eq, hp, not_false_eq_true, if_true, h,
    if_false]

theorem mass_upto_step (A : List (ℚ × ℕ)) (k : ℕ) (hP : Partitioned A k) (T : Table ℚ)
    (hT : T.length = A.length) (q : ℕ) (hq : q < A.length) (e : ℚ × ℕ) (i : ℕ) :
    mass_upto A (T.set (index_at A q) e) (q + 1) i
      = mass_upto A T q i + contrib e (index_at A q) i := by
  unfold mass_upto
  rw [Finset.sum_range_succ]
  congr 1
  · apply Finset.sum_congr rfl
    intro u hu
    have hu' : u < q := Finset.mem_range.mp hu
    have hne : index_at A q ≠ index_at A u := by
      intro h
      have := hP.inj q u hq (by omega) h
      omega
    rw [getD_set_of_ne _ _ _ _ _ hne]
  · rw [getD_set_self _ _ _ _ (by rw [hT]; exact hP.bound q hq)]

theorem contrib_at (A : List (ℚ × ℕ)) (k : ℕ) (hP : Partitioned A k) (q p s : ℕ)
    (hq : q < A.length) (hp : p < A.length) (hs : s < A.length) (c : ℚ) :
    contrib (c, index_at A p) (index_at A q) (index_at A s)
      = (if q = s then c else 0) + (if p = s then 1 - c else 0) := by
  have e1 : (index_at A q = index_at A s) ↔ q = s :=
    ⟨hP.inj q s hq hs, fun h => by rw [h]⟩
  have e2 : (index_at A p = index_at A s) ↔ p = s :=
    ⟨hP.inj p s hp hs, fun h => by rw [h]⟩
  simp only [contrib, e1, e2]

theorem assign_step_inv (A : List (ℚ × ℕ)) (k : ℕ) (hP : Partitioned A k) (q : ℕ)
    (hq : q < A.length) (st : FillState ℚ) (h : AssignInv A k q st) :
    AssignInv A k (q + 1) (assign_step (fun x => x) 1 st q) := by
  have hlen := h.len_arr
  have hsplit : ∑ s in Finset.Ico (q + 1) A.length, excess_at st.array s
      = - excess_at st.array q := by
    have e := Finset.sum_eq_sum_Ico_succ_bot hq (fun s => excess_at st.array s)
    have h0 := h.sum
    rw [e] at h0
    linarith
  have hiq : index_at st.array q = index_at A q := h.snd_eq q
  by_cases hp : st.pos_p = st.array.length
  · -- the surplus group is exhausted: every remaining excess is zero
    have hpn : st.pos_p = A.length := by omega
    have ha0 : excess_at st.array q = 0 := by
      have hall : ∀ s ∈ Finset.Ico q A.length, excess_at st.array s ≤ 0 := by
        intro s hs
        rw [Finset.mem_Ico] at hs
        exact (h.neg s hs.1 (by omega)).1
      exact (Finset.sum_eq_zero_iff_of_nonpos hall).mp h.sum q
        (Finset.mem_Ico.mpr ⟨le_rfl, hq⟩)
    have hkq : k ≤ q := by
      by_contra hlt
      have h1 := h.low q (by omega)
      have h2 := (hP.neg0 q (by omega)).1
      rw [ha0] at h1
      linarith
    rw [assign_step_end _ _ _ _ hp, hiq]
    exact
      { len_arr := h.len_arr
        len_tab := by simp [h.len_tab]
        snd_eq := h.snd_eq
        k_le := h.k_le
        q_le := by show q + 1 ≤ st.pos_p; omega
        p_le := h.p_le
        low := h.low
        neg := fun s h1 h2 => h.neg s (by omega) h2
        pos := h.pos
        sum := by
          show ∑ s in Finset.Ico (q + 1) A.length, excess_at st.array s = 0
          rw [hsplit, ha0, neg_zero]
        written := by
          intro s hs
          show ∃ t, k ≤ t ∧ t < A.length ∧
            ((st.table.set (index_at A q) (1, index_at A q)).getD (index_at A s) default).2
              = index_at A t ∧
            0 ≤ ((st.table.set (index_at A q) (1, index_at A q)).getD (index_at A s) default).1 ∧
            ((st.table.set (index_at A q) (1, index_at A q)).getD (index_at A s) default).1 ≤ 1 ∧
            (s < k → ((st.table.set (index_at A q) (1, index_at A q)).getD
              (index_at A s) default).1 = 1 + excess_at A s)
          by_cases hsq : s = q
          · subst hsq
            rw [getD_set_self _ _ _ _ (by rw [h.len_tab]; exact hP.bound s hq)]
            exact ⟨s, hkq, hq, rfl, by norm_num, by norm_num, fun hlt => by omega⟩
          · have hne : index_at A q ≠ index_at A s := fun he =>
              hsq (hP.inj q s hq (by omega) he).symm
            rw [getD_set_of_ne _ _ _ _ _ hne]
            exact h.written s (by omega)
        mass := by
          intro s hs
          show mass_upto A (st.table.set (index_at A q) (1, index_at A q)) (q + 1)
              (index_at A s) = _
          rw [mass_upto_step A k hP _ h.len_tab q hq, contrib_at A k hP q q s hq hq hs,
            h.mass s hs]
          rcases Nat.lt_trichotomy s q with h1 | h1 | h1
          · have h2 : ¬ q = s := by omega
            have h3 : s < q + 1 := by omega
            simp [h1, h2, h3]
          · subst h1
            simp [ha0]
            ring
          · have h2 : ¬ q = s := by omega
            have h3 : ¬ s < q + 1 := by omega
            have h4 : ¬ s < q := by omega
            simp [h2, h3, h4] }
  · -- pair the entry at `neg_p` with the entry at `pos_p`
    have hpn : st.pos_p < A.length := by
      have := h.p_le
      omega
    have hpl : st.pos_p < st.array.length := by omega
    have hvp : 0 ≤ excess_at st.array st.pos_p := h.pos _ le_rfl hpn
    have hqp0 : q = st.pos_p → excess_at st.array q = 0 := by
      intro e
      have hall : ∀ s ∈ Finset.Ico q A.length, 0 ≤ excess_at st.array s := by
        intro s hs
        rw [Finset.mem_Ico] at hs
        exact h.pos s (by omega) hs.2
      exact (Finset.sum_eq_zero_iff_of_nonneg hall).mp h.sum q
        (Finset.mem_Ico.mpr ⟨le_rfl, hq⟩)
    have ha : excess_at st.array q ≤ 0 ∧ -1 ≤ excess_at st.array q := by
      by_cases e : q = st.pos_p
      · rw [hqp0 e]
        norm_num
      · exact h.neg q le_rfl (by have := h.q_le; omega)
    have hip : index_at st.array st.pos_p = index_at A st.pos_p := h.snd_eq _
    have hq_ne : ¬ excess_at st.array st.pos_p + excess_at st.array q ≤ 0 → q ≠ st.pos_p := by
      intro hgt e
      have e0 := hqp0 e
      rw [← e, e0] at hgt
      norm_num at hgt
    -- both outcomes of the test `pos_p->first <= 0` write the same array and table
    have key : ∀ p', (p' = st.pos_p + 1 ∧
          excess_at st.array st.pos_p + excess_at st.array q ≤ 0) ∨
        (p' = st.pos_p ∧ ¬ excess_at st.array st.pos_p + excess_at st.array q ≤ 0) →
        AssignInv A k (q + 1)
          { array := st.array.set st.pos_p
              (excess_at st.array st.pos_p + excess_at st.array q, index_at st.array st.pos_p),
            pos_p := p',
            table := st.table.set (index_at st.array q)
              (1 + excess_at st.array q, index_at st.array st.pos_p) } := by
      intro p' hp'
      have hexc : ∀ s, excess_at (st.array.set st.pos_p
          (excess_at st.array st.pos_p + excess_at st.array q, index_at st.array st.pos_p)) s
          = if s = st.pos_p then excess_at st.array st.pos_p + excess_at st.array q
            else excess_at st.array s := by
        intro s
        by_cases e : s = st.pos_p
        · rw [if_pos e, e, excess_at_set_self _ _ _ _ hpl]
        · rw [if_neg e, excess_at_set_of_ne _ _ _ _ _ (Ne.symm e)]
      rw [hiq, hip]
      exact
        { len_arr := by simp [h.len_arr]
          len_tab := by simp [h.len_tab]
          snd_eq := by
            intro s
            show index_at (st.array.set st.pos_p _) s = index_at A s
            rw [← hip, index_at_set_same, h.snd_eq]
          k_le := by
            show k ≤ p'
            have := h.k_le
            rcases hp' with ⟨e, _⟩ | ⟨e, _⟩ <;> omega
          q_le := by
            show q + 1 ≤ p'
            have := h.q_le
            rcases hp' with ⟨e, _⟩ | ⟨e, hgt⟩
            · omega
            · have := hq_ne hgt
              omega
          p_le := by
            show p' ≤ A.length
            rcases hp' with ⟨e, _⟩ | ⟨e, _⟩ <;> omega
          low := by
            intro s hs
            show excess_at (st.array.set st.pos_p _) s = excess_at A s
            have := h.k_le
            rw [← hip, hexc, if_neg (by omega), h.low s hs]
          neg := by
            intro s h1 h2
            show excess_at (st.array.set st.pos_p _) s ≤ 0 ∧
              -1 ≤ excess_at (st.array.set st.pos_p _) s
            have h2' : s < p' := h2
            rw [← hip, hexc]
            by_cases e : s = st.pos_p
            · rw [if_pos e]
              rcases hp' with ⟨_, hle⟩ | ⟨e', _⟩
              · exact ⟨hle, by linarith [ha.2]⟩
              · omega
            · rw [if_neg e]
              exact h.neg s (by omega) (by rcases hp' with ⟨e', _⟩ | ⟨e', _⟩ <;> omega)
          pos := by
            intro s h1 h2
            show 0 ≤ excess_at (st.array.set st.pos_p _) s
            have h1' : p' ≤ s := h1
            rw [← hip, hexc]
            by_cases e : s = st.pos_p
            · rw [if_pos e]
              rcases hp' with ⟨e', _⟩ | ⟨_, hgt⟩
              · omega
              · exact le_of_lt (not_le.mp hgt)
            · rw [if_neg e]
              exact h.pos s (by rcases hp' with ⟨e', _⟩ | ⟨e', _⟩ <;> omega) h2
          sum := by
            show ∑ s in Finset.Ico (q + 1) A.length, excess_at (st.array.set st.pos_p _) s = 0
            rw [← hip]
            simp only [hexc]
            have hpt : ∀ s, (if s = st.pos_p then
                  excess_at st.array st.pos_p + excess_at st.array q
                else excess_at st.array s)
                = excess_at st.array s + (if s = st.pos_p then excess_at st.array q else 0) := by
              intro s
              by_cases e : s = st.pos_p
              · simp [e]
              · simp [e]
            simp only [hpt]
            rw [Finset.sum_add_distrib, hsplit, Finset.sum_ite_eq']
            by_cases e : q = st.pos_p
            · have hnm : st.pos_p ∉ Finset.Ico (q + 1) A.length := by
                rw [Finset.mem_Ico]
                omega
              rw [if_neg hnm, hqp0 e]
              norm_num
            · have hm : st.pos_p ∈ Finset.Ico (q + 1) A.length := by
                rw [Finset.mem_Ico]
                have := h.q_le
                omega
              rw [if_pos hm]
              ring
          written := by
            intro s hs
            show ∃ t, k ≤ t ∧ t < A.length ∧
              ((st.table.set (index_at A q) (1 + excess_at st.array q,
                index_at A st.pos_p)).getD (index_at A s) default).2 = index_at A t ∧
              0 ≤ ((st.table.set (index_at A q) (1 + excess_at st.array q,
                index_at A st.pos_p)).getD (index_at A s) default).1 ∧
              ((st.table.set (index_at A q) (1 + excess_at st.array q,
                index_at A st.pos_p)).getD (index_at A s) default).1 ≤ 1 ∧
              (s < k → ((st.table.set (index_at A q) (1 + excess_at st.array q,
                index_at A st.pos_p)).getD (index_at A s) default).1 = 1 + excess_at A s)
            by_cases hsq : s = q
            · subst hsq
              rw [getD_set_self _ _ _ _ (by rw [h.len_tab]; exact hP.bound s hq)]
              refine ⟨st.pos_p, h.k_le, hpn, rfl, ?_, ?_, fun hlt => by rw [h.low s hlt]⟩
              · show 0 ≤ 1 + excess_at st.array s
                linarith [ha.2]
              · show 1 + excess_at st.array s ≤ 1
                linarith [ha.1]
            · have hne : index_at A q ≠ index_at A s := fun he =>
                hsq (hP.inj q s hq (by omega) he).symm
              rw [getD_set_of_ne _ _ _ _ _ hne]
              exact h.written s (by omega)
          mass := by
            intro s hs
            show mass_upto A (st.table.set (index_at A q) (1 + excess_at st.array q,
              index_at A st.pos_p)) (q + 1) (index_at A s)
              = if s < q + 1 then 1 + excess_at A s
                else excess_at A s - excess_at (st.array.set st.pos_p _) s
            rw [mass_upto_step A k hP _ h.len_tab q hq, contrib_at A k hP q st.pos_p s hq hpn hs,
              h.mass s hs, ← hip, hexc]
            have hqle := h.q_le
            rcases Nat.lt_trichotomy s q with h1 | h1 | h1
            · rw [if_pos h1, if_neg (show ¬ q = s by omega),
                if_neg (show ¬ st.pos_p = s by omega), if_pos (show s < q + 1 by omega)]
              ring
            · subst h1
              rw [if_neg (lt_irrefl s), if_pos (rfl : s = s), if_pos (show s < s + 1 by omega)]
              by_cases e : st.pos_p = s
              · rw [if_pos e, hqp0 e.symm]
                ring
              · rw [if_neg e]
                ring
            · rw [if_neg (show ¬ s < q by omega), if_neg (show ¬ q = s by omega),
                if_neg (show ¬ s < q + 1 by omega)]
              by_cases e : st.pos_p = s
              · rw [if_pos e, if_pos e.symm, e]
                ring
              · rw [if_neg e, if_neg (fun x => e x.symm)]
                ring }
    by_cases hle : excess_at st.array st.pos_p + excess_at st.array q ≤ 0
    · rw [assign_step_adv _ _ _ _ hp hle]
      exact key _ (Or.inl ⟨rfl, hle⟩)
    · rw [assign_step_stay _ _ _ _ hp hle]
      exact key _ (Or.inr ⟨rfl, hle⟩)

theorem assign_init_inv (A : List (ℚ × ℕ)) (k : ℕ) (hP : Partitioned A k) (T : Table ℚ)
    (hT : T.length = A.length) :
    AssignInv A k 0 { array := A, pos_p := k, table := T } :=
  { len_arr := rfl
    len_tab := hT
    snd_eq := fun _ => rfl
    k_le := le_rfl
    q_le := Nat.zero_le _
    p_le := hP.k_le
    low := fun _ _ => rfl
    neg := fun s _ h2 => ⟨le_of_lt (hP.neg0 s h2).1, (hP.neg0 s h2).2⟩
    pos := hP.pos0
    sum := by
      show ∑ s in Finset.Ico 0 A.length, excess_at A s = 0
      rw [← Finset.range_eq_Ico]
      exact hP.sum0
    written := fun s hs => absurd hs (Nat.not_lt_zero s)
    mass := by
      intro s _
      simp [mass_upto] }

theorem assign_fold_inv (A : List (ℚ × ℕ)) (k : ℕ) (hP : Partitioned A k) (T : Table ℚ)
    (hT : T.length = A.length) (q : ℕ) (hq : q ≤ A.length) :
    AssignInv A k q
      ((List.range q).foldl (assign_step (fun x => x) 1)
        { array := A, pos_p := k, table := T }) := by
  induction q with
  | zero => exact assign_init_inv A k hP T hT
  | succ q ih =>
    rw [List.range_succ, List.foldl_append]
    exact assign_step_inv A k hP q (by omega) _ (ih (by omega))

theorem assign_aliases_inv (A : List (ℚ × ℕ)) (k : ℕ) (hP : Partitioned A k) (T : Table ℚ)
    (hT : T.length = A.length) :
    AssignInv A k A.length
      (assign_aliases (fun x => x) 1 { array := A, pos_p := k, table := T }) :=
  assign_fold_inv A k hP T hT A.length le_rfl

/-- The stored indices of a partitioned array are exactly `0, …, n-1`. -/
theorem image_index_at (A : List (ℚ × ℕ))
    (hinj : ∀ s t, s < A.length → t < A.length → index_at A s = index_at A t → s = t)
    (hbound : ∀ s, s < A.length → index_at A s < A.length) :
    (Finset.range A.length).image (index_at A) = Finset.range A.length := by
  apply Finset.eq_of_subset_of_card_le
  · intro i hi
    rw [Finset.mem_image] at hi
    obtain ⟨s, hs, rfl⟩ := hi
    exact Finset.mem_range.mpr (hbound s (Finset.mem_range.mp hs))
  · rw [Finset.card_image_of_injOn]
    intro s hs t ht e
    simp only [Finset.coe_range, Set.mem_Iio] at hs ht
    exact hinj s t hs ht e

theorem exists_offset (A : List (ℚ × ℕ)) (k : ℕ) (hP : Partitioned A k) (i : ℕ)
    (hi : i < A.length) : ∃ s, s < A.length ∧ index_at A s = i := by
  have h : i ∈ (Finset.range A.length).image (index_at A) := by
    rw [image_index_at A hP.inj hP.bound]
    exact Finset.mem_range.mpr hi
  rw [Finset.mem_image] at h
  obtain ⟨s, hs, e⟩ := h
  exact ⟨s, Finset.mem_range.mp hs, e⟩

theorem sum_index_at (A : List (ℚ × ℕ))
    (hinj : ∀ s t, s < A.length → t < A.length → index_at A s = index_at A t → s = t)
    (hbound : ∀ s, s < A.length → index_at A s < A.length) (g : ℕ → ℚ) :
    ∑ u in Finset.range A.length, g (index_at A u) = ∑ j in Finset.range A.length, g j := by
  conv_rhs => rw [← image_index_at A hinj hbound]
  rw [Finset.sum_image]
  intro s hs t ht e
  exact hinj s t (Finset.mem_range.mp hs) (Finset.mem_range.mp ht) e

/-- The validator's inner loop computes the cutoff of `i` plus the complements
of the cutoffs of all entries aliased to `i`. -/
theorem implied_mass_eq_sum {C : Type} [Inhabited C] (nm : ℚ) (val : C → ℚ) (T : Table C)
    (i : ℕ) :
    implied_mass nm val T i
      = nm * val (T.getD i default).1
        + ∑ j in Finset.range T.length,
            (if (T.getD j default).2 = i then 1 - nm * val (T.getD j default).1 else 0) := by
  unfold implied_mass
  exact foldl_ite_add (fun j => (T.getD j default).2 = i)
    (fun j => 1 - nm * val (T.getD j default).1) _ _

theorem implied_mass_eq_mass_upto (A : List (ℚ × ℕ)) (k : ℕ) (hP : Partitioned A k)
    (T : Table ℚ) (hT : T.length = A.length) (i : ℕ) (hi : i < A.length) :
    implied_mass 1 (fun x => x) T i = mass_upto A T A.length i := by
  rw [implied_mass_eq_sum]
  unfold mass_upto
  rw [sum_index_at A hP.inj hP.bound (fun j => contrib (T.getD j default) j i)]
  simp only [contrib]
  rw [Finset.sum_add_distrib, Finset.sum_ite_eq' (Finset.range A.length) i
    (fun j => (T.getD j default).1), if_pos (Finset.mem_range.mpr hi), hT]
  simp

/-! ## The partition loop establishes `Partitioned` -/

theorem mem_negs (b : ℕ → ℚ) (n : ℕ) (e : ℚ × ℕ) (h : e ∈ negs b n) :
    e.2 < n ∧ e.1 = b e.2 ∧ b e.2 < 0 := by
  simp only [negs, List.mem_map, List.mem_filter, List.mem_range, decide_eq_true_eq] at h
  obtain ⟨i, ⟨h1, h2⟩, rfl⟩ := h
  exact ⟨h1, rfl, h2⟩

theorem mem_poss (b : ℕ → ℚ) (n : ℕ) (e : ℚ × ℕ) (h : e ∈ poss b n) :
    e.2 < n ∧ e.1 = b e.2 ∧ 0 ≤ b e.2 := by
  simp only [poss, List.mem_map, List.mem_filter, List.mem_range, Bool.not_eq_true',
    decide_eq_false_iff_not, not_lt] at h
  obtain ⟨i, ⟨h1, h2⟩, rfl⟩ := h
  exact ⟨h1, rfl, h2⟩

theorem partitioned_length (b : ℕ → ℚ) (n : ℕ) :
    (negs b n ++ (poss b n).reverse).length = n := by
  rw [List.length_append, List.length_reverse]
  exact negs_length_add_poss_length b n

theorem partitioned_getD_low (b : ℕ → ℚ) (n s : ℕ) (hs : s < (negs b n).length) :
    (negs b n ++ (poss b n).reverse).getD s default ∈ negs b n := by
  rw [List.getD_append _ _ _ _ hs, List.getD_eq_getElem _ _ hs]
  exact List.getElem_mem _

theorem partitioned_getD_high (b : ℕ → ℚ) (n s : ℕ) (hs : (negs b n).length ≤ s)
    (hn : s < n) :
    (negs b n ++ (poss b n).reverse).getD s default ∈ poss b n := by
  have hlen := negs_length_add_poss_length b n
  have h2 : s - (negs b n).length < (poss b n).reverse.length := by
    rw [List.length_reverse]
    omega
  rw [List.getD_append_right _ _ _ _ hs, List.getD_eq_getElem _ _ h2]
  exact List.mem_reverse.mp (List.getElem_mem _)

theorem partitioned_entry (b : ℕ → ℚ) (n s : ℕ) (hn : s < n) :
    index_at (negs b n ++ (poss b n).reverse) s < n ∧
    excess_at (negs b n ++ (poss b n).reverse) s
      = b (index_at (negs b n ++ (poss b n).reverse) s) := by
  unfold index_at excess_at
  by_cases hs : s < (negs b n).length
  · have := mem_negs b n _ (partitioned_getD_low b n s hs)
    exact ⟨this.1, this.2.1⟩
  · have := mem_poss b n _ (partitioned_getD_high b n s (by omega) hn)
    exact ⟨this.1, this.2.1⟩

theorem partitioned_perm (b : ℕ → ℚ) (n : ℕ) :
    ((negs b n ++ (poss b n).reverse).map Prod.snd).Perm (List.range n) := by
  have e1 : (negs b n).map Prod.snd = (List.range n).filter (fun i => decide (b i < 0)) := by
    simp [negs, Function.comp_def]
  have e2 : (poss b n).map Prod.snd = (List.range n).filter (fun i => !decide (b i < 0)) := by
    simp [poss, Function.comp_def]
  rw [List.map_append, List.map_reverse, e1, e2]
  exact ((List.reverse_perm _).append_left _).trans (List.filter_append_perm _ _)

theorem partitioned_inj (b : ℕ → ℚ) (n : ℕ) (s t : ℕ) (hs : s < n) (ht : t < n)
    (e : index_at (negs b n ++ (poss b n).reverse) s
      = index_at (negs b n ++ (poss b n).reverse) t) : s = t := by
  have hnd : ((negs b n ++ (poss b n).reverse).map Prod.snd).Nodup :=
    (partitioned_perm b n).nodup_iff.mpr (List.nodup_range n)
  have hl : ((negs b n ++ (poss b n).reverse).map Prod.snd).length = n := by
    rw [List.length_map, partitioned_length]
  have hl' := partitioned_length b n
  unfold index_at at e
  rw [List.getD_eq_getElem _ _ (show s < (negs b n ++ (poss b n).reverse).length by omega),
    List.getD_eq_getElem _ _ (show t < (negs b n ++ (poss b n).reverse).length by omega)] at e
  have e' : ((negs b n ++ (poss b n).reverse).map Prod.snd).get ⟨s, by omega⟩
      = ((negs b n ++ (poss b n).reverse).map Prod.snd).get ⟨t, by omega⟩ := by
    simp only [List.get_eq_getElem, List.getElem_map]
    exact e
  simp only [List.get_eq_getElem] at e'
  exact (hnd.getElem_inj_iff).mp e'

theorem partitioned_of_excess (b : ℕ → ℚ) (n : ℕ) (hb1 : ∀ i, i < n → -1 ≤ b i)
    (hb0 : ∑ i in Finset.range n, b i = 0) :
    Partitioned (negs b n ++ (poss b n).reverse) (negs b n).length := by
  have hl := partitioned_length b n
  have hlen := negs_length_add_poss_length b n
  have hinj : ∀ s t, s < (negs b n ++ (poss b n).reverse).length →
      t < (negs b n ++ (poss b n).reverse).length →
      index_at (negs b n ++ (poss b n).reverse) s
        = index_at (negs b n ++ (poss b n).reverse) t → s = t := by
    intro s t hs ht e
    rw [hl] at hs ht
    exact partitioned_inj b n s t hs ht e
  have hbound : ∀ s, s < (negs b n ++ (poss b n).reverse).length →
      index_at (negs b n ++ (poss b n).reverse) s
        < (negs b n ++ (poss b n).reverse).length := by
    intro s hs
    rw [hl] at hs ⊢
    exact (partitioned_entry b n s hs).1
  refine ⟨by omega, hinj, hbound, ?_, ?_, ?_⟩
  · intro s hs
    have hm := mem_negs b n _ (partitioned_getD_low b n s hs)
    unfold excess_at
    rw [hm.2.1]
    exact ⟨hm.2.2, hb1 _ hm.1⟩
  · intro s hs hn
    rw [hl] at hn
    have hm := mem_poss b n _ (partitioned_getD_high b n s hs hn)
    unfold excess_at
    rw [hm.2.1]
    exact hm.2.2
  · have e : ∀ s ∈ Finset.range (negs b n ++ (poss b n).reverse).length,
        excess_at (negs b n ++ (poss b n).reverse) s
          = b (index_at (negs b n ++ (poss b n).reverse) s) := by
      intro s hs
      rw [Finset.mem_range, hl] at hs
      exact (partitioned_entry b n s hs).2
    rw [Finset.sum_congr rfl e, sum_index_at _ hinj hbound b, hl]
    exact hb0

/-! ## Input validation -/

theorem accumulate_checked_eq (ws : List ℚ) (acc : ℚ) :
    accumulate_checked ws acc
      = if ∃ x ∈ ws, x < 0 then .error .invalid_argument else .ok (acc + ws.sum) := by
  induction ws generalizing acc with
  | nil => simp [accumulate_checked]
  | cons w ws ih =>
    unfold accumulate_checked
    by_cases hw : w < 0
    · simp [hw]
    · rw [if_neg hw, ih]
      by_cases h : ∃ x ∈ ws, x < 0
      · have h' : ∃ x ∈ w :: ws, x < 0 := by
          obtain ⟨x, hx, hx0⟩ := h
          exact ⟨x, List.mem_cons_of_mem _ hx, hx0⟩
        rw [if_pos h, if_pos h']
      · have h' : ¬ ∃ x ∈ w :: ws, x < 0 := by
          rintro ⟨x, hx, hx0⟩
          rcases List.mem_cons.mp hx with rfl | hx
          · exact hw hx0
          · exact h ⟨x, hx, hx0⟩
        rw [if_neg h, if_neg h', List.sum_cons, add_assoc]

theorem accumulate_checked_valid (w : List ℚ) (hw : ValidWeights w) :
    accumulate_checked w 0 = .ok w.sum := by
  rw [accumulate_checked_eq, if_neg, zero_add]
  rintro ⟨x, hx, hx0⟩
  exact absurd (hw.2.1 x hx) (not_le.mpr hx0)

theorem sum_range_getD (w : List ℚ) :
    ∑ i in Finset.range w.length, w.getD i 0 = w.sum := by
  induction w with
  | nil => simp
  | cons x xs ih =>
    rw [List.length_cons, Finset.sum_range_succ', List.sum_cons]
    simp only [List.getD_cons_succ, List.getD_cons_zero]
    rw [ih, add_comm]

theorem getD_nonneg (w : List ℚ) (hw : ∀ x ∈ w, 0 ≤ x) (i : ℕ) : 0 ≤ w.getD i 0 := by
  by_cases hi : i < w.length
  · rw [List.getD_eq_getElem _ _ hi]
    exact hw _ (List.getElem_mem _)
  · rw [List.getD_eq_default _ _ (by omega)]

theorem length_pos_of_valid (w : List ℚ) (hw : ValidWeights w) : 0 < w.length :=
  List.length_pos.mpr hw.1

theorem length_resize {α : Type} [Inhabited α] (v : List α) (n : ℕ) :
    (resize v n).length = n := by
  simp [resize]
  omega

/-- The excess `norm * weights[i] - 1` of the floating-point builder. -/
theorem excess_ge_neg_one (w : List ℚ) (hw : ValidWeights w) (c : ℚ) (hc : 0 ≤ c) (i : ℕ) :
    -1 ≤ c / w.sum * w.getD i 0 - 1 := by
  have h1 : 0 ≤ c / w.sum := div_nonneg hc (le_of_lt hw.2.2)
  have h2 := getD_nonneg w hw.2.1 i
  have := mul_nonneg h1 h2
  linarith

theorem excess_sum_zero (w : List ℚ) (hw : ValidWeights w) :
    ∑ i in Finset.range w.length, ((w.length : ℚ) / w.sum * w.getD i 0 - 1) = 0 := by
  rw [Finset.sum_sub_distrib, ← Finset.mul_sum, sum_range_getD]
  have := ne_of_gt hw.2.2
  simp
  field_simp

theorem foldl_and_eq_true (p : ℕ → Bool) (n : ℕ) :
    (List.range n).foldl (fun r i => r && p i) true = true ↔ ∀ i, i < n → p i = true := by
  induction n with
  | zero => simp
  | succ n ih =>
    rw [List.range_succ, List.foldl_append]
    simp only [List.foldl_cons, List.foldl_nil, Bool.and_eq_true, ih]
    constructor
    · rintro ⟨h1, h2⟩ i hi
      rcases Nat.lt_succ_iff_lt_or_eq.mp hi with h | rfl
      · exact h1 i h
      · exact h2
    · intro h
      exact ⟨fun i hi => h i (by omega), h n (by omega)⟩

theorem check_table_iff {C : Type} [Inhabited C] (nm : ℚ) (val : C → ℚ)
    (weights : List ℚ) (table : Table C) (tol : ℚ) :
    check_table nm val weights table tol = true ↔
      ∀ i, i < weights.length →
        |implied_mass nm val table i - (table.length : ℚ) / weights.sum * weights.getD i 0|
          < tol * weights.length := by
  unfold check_table
  simp only []
  rw [foldl_and_eq_true]
  simp only [decide_eq_true_eq]

/-! ## The floating-point `fill_ft2009` -/

theorem fill_ft2009_valid (w : List ℚ) (t : Table ℚ) (hw : ValidWeights w) :
    fill_ft2009 w t
      = (none, (assign_aliases (fun x => x) 1
          { array := negs (fun i => (w.length : ℚ) / w.sum * w.getD i 0 - 1) w.length
              ++ (poss (fun i => (w.length : ℚ) / w.sum * w.getD i 0 - 1) w.length).reverse,
            pos_p := (negs (fun i => (w.length : ℚ) / w.sum * w.getD i 0 - 1) w.length).length,
            table := resize t w.length }).table) := by
  have hn := length_pos_of_valid w hw
  unfold fill_ft2009
  rw [if_neg (by omega), accumulate_checked_valid w hw]
  simp only []
  rw [if_neg (not_le.mpr hw.2.2), partition_excess_eq]

theorem fill_ft2009_partitioned (w : List ℚ) (hw : ValidWeights w) :
    Partitioned
      (negs (fun i => (w.length : ℚ) / w.sum * w.getD i 0 - 1) w.length
        ++ (poss (fun i => (w.length : ℚ) / w.sum * w.getD i 0 - 1) w.length).reverse)
      (negs (fun i => (w.length : ℚ) / w.sum * w.getD i 0 - 1) w.length).length :=
  partitioned_of_excess _ _
    (fun i _ => excess_ge_neg_one w hw _ (Nat.cast_nonneg _) i) (excess_sum_zero w hw)

end walker.detail

namespace walker.detail

theorem assign_aliases_length (A : List (ℚ × ℕ)) (k : ℕ) (hP : Partitioned A k) (T : Table ℚ)
    (hT : T.length = A.length) :
    (assign_aliases (fun x => x) 1 { array := A, pos_p := k, table := T }).table.length
      = A.length :=
  (assign_aliases_inv A k hP T hT).len_tab

theorem assign_aliases_mass (A : List (ℚ × ℕ)) (k : ℕ) (hP : Partitioned A k) (T : Table ℚ)
    (hT : T.length = A.length) (s : ℕ) (hs : s < A.length) :
    implied_mass 1 (fun x => x)
        (assign_aliases (fun x => x) 1 { array := A, pos_p := k, table := T }).table
        (index_at A s)
      = 1 + excess_at A s := by
  have inv := assign_aliases_inv A k hP T hT
  rw [implied_mass_eq_mass_upto A k hP _ inv.len_tab _ (hP.bound s hs), inv.mass s hs,
    if_pos hs]

theorem fill_ft2009_length (w : List ℚ) (t : Table ℚ) (hw : ValidWeights w) :
    (fill_ft2009 w t).2.length = w.length := by
  rw [fill_ft2009_valid w t hw]
  have hP := fill_ft2009_partitioned w hw
  rw [assign_aliases_length _ _ hP _ (by rw [length_resize, partitioned_length])]
  exact partitioned_length _ _

theorem fill_ft2009_implied_mass (w : List ℚ) (t : Table ℚ) (hw : ValidWeights w) (i : ℕ)
    (hi : i < w.length) :
    implied_mass 1 (fun x => x) (fill_ft2009 w t).2 i = w.length * w.getD i 0 / w.sum := by
  rw [fill_ft2009_valid w t hw]
  have hP := fill_ft2009_partitioned w hw
  have hl := partitioned_length (fun i => (w.length : ℚ) / w.sum * w.getD i 0 - 1) w.length
  obtain ⟨s, hs, rfl⟩ := exists_offset _ _ hP i (by rw [hl]; exact hi)
  show implied_mass 1 (fun x => x) (assign_aliases (fun x => x) 1 _).table _ = _
  rw [assign_aliases_mass _ _ hP _ (by rw [length_resize, hl]) s hs,
    (partitioned_entry _ _ s (by rw [hl] at hs; exact hs)).2]
  ring

end walker.detail

namespace walker

/-- C1: in exact arithmetic the table built by the floating-point `fill_ft2009`
from a valid weight vector reproduces the input distribution exactly: the builder
returns normally, the table has `N` entries, for every index `i < N` the cutoff
of `i` plus the sum of `1 - cutoff_j` over all entries `j` aliased to `i` equals
`N * w_i / sum w`, and `check_table` accepts the table for every positive
tolerance. -/
theorem fill_ft2009_reproduces_distribution (w : List ℚ) (t : Table ℚ)
    (hw : ValidWeights w) :
    (detail.fill_ft2009 w t).1 = none ∧
    (detail.fill_ft2009 w t).2.length = w.length ∧
    (∀ i, i < w.length →
      ((detail.fill_ft2009 w t).2.getD i default).1
        + ∑ j in Finset.range (detail.fill_ft2009 w t).2.length,
            (if ((detail.fill_ft2009 w t).2.getD j default).2 = i
              then 1 - ((detail.fill_ft2009 w t).2.getD j default).1 else 0)
        = w.length * w.getD i 0 / w.sum) ∧
    (∀ tol, 0 < tol →
      detail.check_table 1 (fun x => x) w (detail.fill_ft2009 w t).2 tol = true) := by
  have hmass := detail.fill_ft2009_implied_mass w t hw
  refine ⟨by rw [detail.fill_ft2009_valid w t hw], detail.fill_ft2009_length w t hw, ?_, ?_⟩
  · intro i hi
    have h := hmass i hi
    rw [detail.implied_mass_eq_sum] at h
    simpa using h
  · intro tol htol
    rw [detail.check_table_iff]
    intro i hi
    have hn : (0 : ℚ) < w.length := by exact_mod_cast detail.length_pos_of_valid w hw
    rw [hmass i hi, detail.fill_ft2009_length w t hw]
    have e : (w.length : ℚ) * w.getD i 0 / w.sum - w.length / w.sum * w.getD i 0 = 0 := by
      ring
    rw [e, abs_zero]
    exact mul_pos htol hn

theorem fill_ft2009_reproduces_distribution_witness :
    ValidWeights [1, 2, 3, 4] ∧
    ((detail.fill_ft2009 [1, 2, 3, 4] []).1 = none ∧
    (detail.fill_ft2009 [1, 2, 3, 4] []).2.length = ([1, 2, 3, 4] : List ℚ).length ∧
    (∀ i, i < ([1, 2, 3, 4] : List ℚ).length →
      ((detail.fill_ft2009 [1, 2, 3, 4] []).2.getD i default).1
        + ∑ j in Finset.range (detail.fill_ft2009 [1, 2, 3, 4] []).2.length,
            (if ((detail.fill_ft2009 [1, 2, 3, 4] []).2.getD j default).2 = i
              then 1 - ((detail.fill_ft2009 [1, 2, 3, 4] []).2.getD j default).1 else 0)
        = ([1, 2, 3, 4] : List ℚ).length * ([1, 2, 3, 4] : List ℚ).getD i 0
            / ([1, 2, 3, 4] : List ℚ).sum) ∧
    (∀ tol, 0 < tol →
      detail.check_table 1 (fun x => x) [1, 2, 3, 4]
        (detail.fill_ft2009 [1, 2, 3, 4] []).2 tol = true)) :=
  have hv : ValidWeights [1, 2, 3, 4] :=
    ⟨by simp, by
      intro x hx
      simp only [List.mem_cons, List.mem_singleton, List.not_mem_nil, or_false] at hx
      rcases hx with rfl | rfl | rfl | rfl <;> norm_num, by norm_num⟩
  ⟨hv, fill_ft2009_reproduces_distribution [1, 2, 3, 4] [] hv⟩

end walker

namespace walker.detail

/-! ## `random_choice_bsearch::operator()` -/

theorem getD_mono_of_sorted (accum : List ℚ) (hs : accum.Sorted (· ≤ ·)) (i j : ℕ)
    (hij : i ≤ j) (hj : j < accum.length) : accum.getD i 0 ≤ accum.getD j 0 := by
  rw [List.getD_eq_getElem _ _ (by omega), List.getD_eq_getElem _ _ hj]
  exact hs.rel_get_of_le (a := ⟨i, by omega⟩) (b := ⟨j, hj⟩) hij

theorem bsearch_loop_spec (accum : List ℚ) (p : ℚ) (hs : accum.Sorted (· ≤ ·)) :
    ∀ (fuel : ℕ) (first last : ℤ), 0 ≤ first → last ≤ accum.length → 2 ≤ last - first →
      last - first ≤ fuel →
      (∀ i : ℕ, (i : ℤ) < first → accum.getD i 0 ≤ p) →
      (∀ i : ℕ, last ≤ (i : ℤ) → i < accum.length → p < accum.getD i 0) →
      ∃ r : ℤ, bsearch_loop accum p fuel first last (first + ((last - first) >>> (1 : ℕ)))
          = some r ∧ first ≤ r ∧ r ≤ last ∧
        (∀ i : ℕ, (i : ℤ) < r → accum.getD i 0 ≤ p) ∧
        (∀ i : ℕ, (i : ℤ) = r → i < accum.length → p < accum.getD i 0) := by
  intro fuel
  induction fuel with
  | zero =>
    intro first last _ _ h2 hf
    simp at hf
    omega
  | succ fuel ih =>
    intro first last h0 hn h2 hf hlo hhi
    have hsh : ∀ x : ℤ, x >>> (1 : ℕ) = x / 2 := by
      intro x
      rw [Int.shiftRight_eq_div_pow]
      simp
    unfold bsearch_loop
    by_cases hw : last - first > 3
    · rw [if_pos hw]
      have hc0 : 0 ≤ first + (last - first) >>> (1 : ℕ) := by
        rw [hsh]
        omega
      by_cases hp : p < accum.getD (first + (last - first) >>> (1 : ℕ)).toNat 0
      · rw [if_pos hp]
        have e : first + (last - first) >>> (1 : ℕ) - first = (last - first) >>> (1 : ℕ) := by
          ring
        rw [e]
        have e2 : (last - first) >>> (1 : ℕ) = first + (last - first) >>> (1 : ℕ) - first := by
          ring
        obtain ⟨r, hr, h1, h3, h4, h5⟩ := ih first (first + (last - first) >>> (1 : ℕ)) h0
          (by rw [hsh]; omega) (by rw [hsh]; omega) (by rw [hsh]; push_cast at hf; omega) hlo
          (by
            intro i hi hin
            refine lt_of_lt_of_le hp (getD_mono_of_sorted accum hs _ _ ?_ hin)
            omega)
        rw [← e2] at hr
        exact ⟨r, hr, h1, by rw [hsh] at h3; omega, h4, h5⟩
      · rw [if_neg hp]
        have e : last - (first + (last - first) >>> (1 : ℕ))
            = last - (first + (last - first) >>> (1 : ℕ)) := rfl
        obtain ⟨r, hr, h1, h3, h4, h5⟩ := ih (first + (last - first) >>> (1 : ℕ)) last hc0 hn
          (by rw [hsh]; omega) (by rw [hsh]; push_cast at hf; omega)
          (by
            intro i hi
            refine le_trans (getD_mono_of_sorted accum hs _ _ ?_ ?_) (not_lt.mp hp)
            · omega
            · rw [hsh] at hi ⊢
              omega)
          hhi
        exact ⟨r, hr, by rw [hsh] at h1; omega, h3, h4, h5⟩
    · rw [if_neg hw]
      have hf0 : first.toNat = first := Int.toNat_of_nonneg h0
      by_cases h3 : last - first = 3
      · rw [if_pos h3]
        by_cases q0 : p < accum.getD first.toNat 0
        · rw [if_pos q0]
          refine ⟨first, rfl, le_rfl, by omega, hlo, ?_⟩
          intro i hi _
          have : i = first.toNat := by omega
          rw [this]
          exact q0
        · rw [if_neg q0]
          by_cases q1 : p < accum.getD (first + 1).toNat 0
          · rw [if_pos q1]
            refine ⟨first + 1, rfl, by omega, by omega, ?_, ?_⟩
            · intro i hi
              by_cases hi' : (i : ℤ) < first
              · exact hlo i hi'
              · have : i = first.toNat := by omega
                rw [this]
                exact not_lt.mp q0
            · intro i hi _
              have : i = (first + 1).toNat := by omega
              rw [this]
              exact q1
          · rw [if_neg q1]
            by_cases q2 : p < accum.getD (first + 2).toNat 0
            · rw [if_pos q2]
              refine ⟨first + 2, rfl, by omega, by omega, ?_, ?_⟩
              · intro i hi
                by_cases hi' : (i : ℤ) < first
                · exact hlo i hi'
                · by_cases hi2 : (i : ℤ) = first
                  · have : i = first.toNat := by omega
                    rw [this]
                    exact not_lt.mp q0
                  · have : i = (first + 1).toNat := by omega
                    rw [this]
                    exact not_lt.mp q1
              · intro i hi _
                have : i = (first + 2).toNat := by omega
                rw [this]
                exact q2
            · rw [if_neg q2]
              refine ⟨first + 3, rfl, by omega, by omega, ?_, ?_⟩
              · intro i hi
                by_cases hi' : (i : ℤ) < first
                · exact hlo i hi'
                · by_cases hi2 : (i : ℤ) = first
                  · have : i = first.toNat := by omega
                    rw [this]
                    exact not_lt.mp q0
                  · by_cases hi3 : (i : ℤ) = first + 1
                    · have : i = (first + 1).toNat := by omega
                      rw [this]
                      exact not_lt.mp q1
                    · have : i = (first + 2).toNat := by omega
                      rw [this]
                      exact not_lt.mp q2
              · intro i hi hin
                exact hhi i (by omega) hin
      · rw [if_neg h3]
        have h2' : last - first = 2 := by omega
        rw [if_pos h2']
        by_cases q0 : p < accum.getD first.toNat 0
        · rw [if_pos q0]
          refine ⟨first, rfl, le_rfl, by omega, hlo, ?_⟩
          intro i hi _
          have : i = first.toNat := by omega
          rw [this]
          exact q0
        · rw [if_neg q0]
          by_cases q1 : p < accum.getD (first + 1).toNat 0
          · rw [if_pos q1]
            refine ⟨first + 1, rfl, by omega, by omega, ?_, ?_⟩
            · intro i hi
              by_cases hi' : (i : ℤ) < first
              · exact hlo i hi'
              · have : i = first.toNat := by omega
                rw [this]
                exact not_lt.mp q0
            · intro i hi _
              have : i = (first + 1).toNat := by omega
              rw [this]
              exact q1
          · rw [if_neg q1]
            refine ⟨first + 2, rfl, by omega, by omega, ?_, ?_⟩
            · intro i hi
              by_cases hi' : (i : ℤ) < first
              · exact hlo i hi'
              · by_cases hi2 : (i : ℤ) = first
                · have : i = first.toNat := by omega
                  rw [this]
                  exact not_lt.mp q0
                · have : i = (first + 1).toNat := by omega
                  rw [this]
                  exact not_lt.mp q1
            · intro i hi hin
              exact hhi i (by omega) hin

end walker.detail

namespace walker

end walker

namespace walker.detail

/-! ## The integral `fill_ft2009` as a quantisation of the exact loop -/

theorem to_uint_natCast (c : ℕ) : to_uint (c : ℚ) = c := by
  simp [to_uint]

theorem uint_max_pos : (0 : ℚ) < (uint_max : ℚ) := by
  norm_num [uint_max]

theorem quantize_dequantize (e : ℕ × ℕ) : quantize (dequantize e) = e := by
  have h := ne_of_gt uint_max_pos
  unfold quantize dequantize
  simp only []
  rw [mul_div_cancel₀ _ h, to_uint_natCast]

theorem assign_step_quantize (st : FillState ℚ) (q : ℕ) :
    assign_step (fun x => to_uint ((uint_max : ℚ) * x)) (to_uint (uint_max : ℚ))
        (quantize_state st) q
      = quantize_state (assign_step (fun x => x) 1 st q) := by
  by_cases hp : st.pos_p = st.array.length
  · rw [assign_step_end _ _ _ _ hp,
      assign_step_end _ _ _ _ (show (quantize_state st).pos_p = (quantize_state st).array.length
        from hp)]
    simp [quantize_state, List.map_set, quantize]
  · have hp' : (quantize_state st).pos_p ≠ (quantize_state st).array.length := hp
    by_cases hle : excess_at st.array st.pos_p + excess_at st.array q ≤ 0
    · rw [assign_step_adv _ _ _ _ hp hle, assign_step_adv _ _ _ _ hp' hle]
      simp [quantize_state, List.map_set, quantize]
    · rw [assign_step_stay _ _ _ _ hp hle, assign_step_stay _ _ _ _ hp' hle]
      simp [quantize_state, List.map_set, quantize]

theorem assign_fold_quantize (l : List ℕ) (st : FillState ℚ) :
    l.foldl (assign_step (fun x => to_uint ((uint_max : ℚ) * x)) (to_uint (uint_max : ℚ)))
        (quantize_state st)
      = quantize_state (l.foldl (assign_step (fun x => x) 1) st) := by
  induction l generalizing st with
  | nil => rfl
  | cons q l ih => rw [List.foldl_cons, List.foldl_cons, assign_step_quantize, ih]

theorem assign_aliases_quantize (st : FillState ℚ) :
    assign_aliases (fun x => to_uint ((uint_max : ℚ) * x)) (to_uint (uint_max : ℚ))
        (quantize_state st)
      = quantize_state (assign_aliases (fun x => x) 1 st) := by
  unfold assign_aliases
  exact assign_fold_quantize _ st

theorem fill_ft2009_integral_valid (w : List ℚ) (t : Table ℕ) (hw : ValidWeights w) :
    fill_ft2009_integral w t = (none, (exact_table w t).map quantize) := by
  have hn := length_pos_of_valid w hw
  unfold fill_ft2009_integral
  rw [if_neg (by omega), accumulate_checked_valid w hw]
  simp only []
  rw [if_neg (not_le.mpr hw.2.2), partition_excess_eq]
  have e : (resize t (grow_pow2 w.length 2 (by decide)))
      = ((resize t (grow_pow2 w.length 2 (by decide))).map dequantize).map quantize := by
    rw [List.map_map]
    conv_lhs => rw [← List.map_id (resize t (grow_pow2 w.length 2 (by decide)))]
    apply List.map_congr_left
    intro e _
    simp [quantize_dequantize]
  rw [e]
  exact congrArg (fun s => (none, s.table)) (assign_aliases_quantize
    { array := negs (padded_excess w (grow_pow2 w.length 2 (by decide)))
          (grow_pow2 w.length 2 (by decide))
        ++ (poss (padded_excess w (grow_pow2 w.length 2 (by decide)))
          (grow_pow2 w.length 2 (by decide))).reverse,
      pos_p := (negs (padded_excess w (grow_pow2 w.length 2 (by decide)))
          (grow_pow2 w.length 2 (by decide))).length,
      table := (resize t (grow_pow2 w.length 2 (by decide))).map dequantize })

end walker.detail

namespace walker.detail
theorem grow_pow2_spec (n : ℕ) : ∀ (d m : ℕ) (hm : 0 < m), n - m ≤ d →
    ∃ j, grow_pow2 n m hm = m * 2 ^ j ∧ n ≤ m * 2 ^ j ∧
      ∀ j', n ≤ m * 2 ^ j' → j ≤ j' := by
  intro d
  induction d with
  | zero =>
    intro m hm hd
    refine ⟨0, ?_, by omega, fun j' _ => Nat.zero_le _⟩
    rw [grow_pow2, dif_neg (by omega)]
    simp
  | succ d ih =>
    intro m hm hd
    by_cases h : m < n
    · obtain ⟨j, h1, h2, h3⟩ := ih (m <<< 1) (by rw [Nat.shiftLeft_eq]; omega)
        (by rw [Nat.shiftLeft_eq]; omega)
      have e : m <<< 1 = m * 2 ^ 1 := Nat.shiftLeft_eq m 1
      rw [e] at h2 h3
      refine ⟨j + 1, ?_, ?_, ?_⟩
      · rw [grow_pow2, dif_pos h, h1, e]
        ring
      · rw [pow_succ]
        calc n ≤ m * 2 ^ 1 * 2 ^ j := h2
          _ = m * (2 ^ j * 2) := by ring
      · intro j' hj'
        cases j' with
        | zero => simp at hj'; omega
        | succ j' =>
          have := h3 j' (by rw [pow_succ] at hj'; calc n ≤ m * (2 ^ j' * 2) := hj'
            _ = m * 2 ^ 1 * 2 ^ j' := by ring)
          omega
    · refine ⟨0, ?_, by omega, fun j' _ => Nat.zero_le _⟩
      rw [grow_pow2, dif_neg h]
      simp

/-- The table length chosen by the integral builder: a power of two, at least
`2`, at least `n`, and the least such. -/
theorem grow_pow2_two (n : ℕ) :
    ∃ k, 1 ≤ k ∧ grow_pow2 n 2 (by decide) = 2 ^ k ∧ n ≤ 2 ^ k ∧
      ∀ k', 1 ≤ k' → n ≤ 2 ^ k' → k ≤ k' := by
  obtain ⟨j, h1, h2, h3⟩ := grow_pow2_spec n (n - 2) 2 (by decide) le_rfl
  refine ⟨j + 1, by omega, ?_, ?_, ?_⟩
  · rw [h1, pow_succ]
    ring
  · rw [pow_succ]
    omega
  · intro k' hk' hn
    obtain ⟨j', rfl⟩ : ∃ j', k' = j' + 1 := ⟨k' - 1, by omega⟩
    have := h3 j' (by rw [pow_succ] at hn; omega)
    omega

end walker.detail

namespace walker.detail

/-! ## Entries of the exact table -/

theorem assign_aliases_entry (b : ℕ → ℚ) (n : ℕ) (hb1 : ∀ i, i < n → -1 ≤ b i)
    (hb0 : ∑ i in Finset.range n, b i = 0) (T : Table ℚ) (hT : T.length = n) (i : ℕ)
    (hi : i < n) :
    0 ≤ ((assign_aliases (fun x => x) 1
        { array := negs b n ++ (poss b n).reverse, pos_p := (negs b n).length,
          table := T }).table.getD i default).1 ∧
    ((assign_aliases (fun x => x) 1
        { array := negs b n ++ (poss b n).reverse, pos_p := (negs b n).length,
          table := T }).table.getD i default).1 ≤ 1 ∧
    ((assign_aliases (fun x => x) 1
        { array := negs b n ++ (poss b n).reverse, pos_p := (negs b n).length,
          table := T }).table.getD i default).2 < n ∧
    0 ≤ b ((assign_aliases (fun x => x) 1
        { array := negs b n ++ (poss b n).reverse, pos_p := (negs b n).length,
          table := T }).table.getD i default).2 ∧
    (b i < 0 → ((assign_aliases (fun x => x) 1
        { array := negs b n ++ (poss b n).reverse, pos_p := (negs b n).length,
          table := T }).table.getD i default).1 = 1 + b i) := by
  have hP := partitioned_of_excess b n hb1 hb0
  have hl := partitioned_length b n
  have inv := assign_aliases_inv _ _ hP T (by rw [hT, hl])
  obtain ⟨s, hs, rfl⟩ := exists_offset _ _ hP i (by rw [hl]; exact hi)
  obtain ⟨t, ht1, ht2, h1, h2, h3, h4⟩ := inv.written s hs
  rw [hl] at hs ht2
  have et := partitioned_entry b n t ht2
  have es := partitioned_entry b n s hs
  refine ⟨h2, h3, ?_, ?_, ?_⟩
  · rw [h1]
    exact et.1
  · rw [h1, ← et.2]
    exact hP.pos0 t ht1 (by rw [hl]; exact ht2)
  · intro hneg
    rw [← es.2] at hneg ⊢
    apply h4
    by_contra hk
    have := hP.pos0 s (by omega) (by rw [hl]; exact hs)
    linarith

theorem assign_aliases_implied_mass (b : ℕ → ℚ) (n : ℕ) (hb1 : ∀ i, i < n → -1 ≤ b i)
    (hb0 : ∑ i in Finset.range n, b i = 0) (T : Table ℚ) (hT : T.length = n) (i : ℕ)
    (hi : i < n) :
    implied_mass 1 (fun x => x) (assign_aliases (fun x => x) 1
        { array := negs b n ++ (poss b n).reverse, pos_p := (negs b n).length,
          table := T }).table i = 1 + b i := by
  have hP := partitioned_of_excess b n hb1 hb0
  have hl := partitioned_length b n
  obtain ⟨s, hs, rfl⟩ := exists_offset _ _ hP i (by rw [hl]; exact hi)
  rw [assign_aliases_mass _ _ hP T (by rw [hT, hl]) s hs,
    (partitioned_entry b n s (by rw [hl] at hs; exact hs)).2]

theorem assign_aliases_table_length (b : ℕ → ℚ) (n : ℕ) (hb1 : ∀ i, i < n → -1 ≤ b i)
    (hb0 : ∑ i in Finset.range n, b i = 0) (T : Table ℚ) (hT : T.length = n) :
    (assign_aliases (fun x => x) 1
        { array := negs b n ++ (poss b n).reverse, pos_p := (negs b n).length,
          table := T }).table.length = n := by
  have hP := partitioned_of_excess b n hb1 hb0
  have hl := partitioned_length b n
  rw [assign_aliases_length _ _ hP T (by rw [hT, hl]), hl]

/-! ## The padded excesses of the integral builder -/

theorem padded_excess_eq (w : List ℚ) (m i : ℕ) :
    padded_excess w m i = (m : ℚ) / w.sum * w.getD i 0 - 1 := by
  unfold padded_excess
  by_cases h : i < w.length
  · rw [if_pos h]
  · rw [if_neg h, List.getD_eq_default _ _ (by omega)]

theorem sum_range_getD_of_le (w : List ℚ) (m : ℕ) (h : w.length ≤ m) :
    ∑ i in Finset.range m, w.getD i 0 = w.sum := by
  obtain ⟨d, rfl⟩ : ∃ d, m = w.length + d := ⟨m - w.length, by omega⟩
  rw [Finset.sum_range_add, sum_range_getD]
  have : ∀ x ∈ Finset.range d, w.getD (w.length + x) 0 = 0 := by
    intro x _
    rw [List.getD_eq_default _ _ (by omega)]
  rw [Finset.sum_eq_zero this, add_zero]

theorem padded_excess_ge (w : List ℚ) (hw : ValidWeights w) (m i : ℕ) :
    -1 ≤ padded_excess w m i := by
  rw [padded_excess_eq]
  exact excess_ge_neg_one w hw _ (Nat.cast_nonneg _) i

theorem padded_excess_sum (w : List ℚ) (hw : ValidWeights w) (m : ℕ) (h : w.length ≤ m) :
    ∑ i in Finset.range m, padded_excess w m i = 0 := by
  simp only [padded_excess_eq]
  rw [Finset.sum_sub_distrib, ← Finset.mul_sum, sum_range_getD_of_le w m h]
  have := ne_of_gt hw.2.2
  simp
  field_simp

theorem padded_excess_padding (w : List ℚ) (m i : ℕ) (hi : w.length ≤ i) :
    padded_excess w m i = -1 := by
  rw [padded_excess_eq, List.getD_eq_default _ _ hi]
  simp

theorem grow_pow2_ge (n : ℕ) : n ≤ grow_pow2 n 2 (by decide) := by
  obtain ⟨k, _, h2, h3, _⟩ := grow_pow2_two n
  omega

theorem grow_pow2_pos (n : ℕ) : 0 < grow_pow2 n 2 (by decide) := by
  obtain ⟨k, _, h2, _, _⟩ := grow_pow2_two n
  rw [h2]
  positivity

theorem exact_table_length (w : List ℚ) (t : Table ℕ) (hw : ValidWeights w) :
    (exact_table w t).length = grow_pow2 w.length 2 (by decide) := by
  unfold exact_table
  exact assign_aliases_table_length _ _ (fun i _ => padded_excess_ge w hw _ i)
    (padded_excess_sum w hw _ (grow_pow2_ge _)) _ (by rw [List.length_map, length_resize])

theorem exact_table_entry (w : List ℚ) (t : Table ℕ) (hw : ValidWeights w) (i : ℕ)
    (hi : i < grow_pow2 w.length 2 (by decide)) :
    0 ≤ ((exact_table w t).getD i default).1 ∧
    ((exact_table w t).getD i default).1 ≤ 1 ∧
    ((exact_table w t).getD i default).2 < w.length ∧
    (w.length ≤ i → ((exact_table w t).getD i default).1 = 0) := by
  have h := assign_aliases_entry (padded_excess w (grow_pow2 w.length 2 (by decide))) _
    (fun i _ => padded_excess_ge w hw _ i)
    (padded_excess_sum w hw _ (grow_pow2_ge _))
    ((resize t (grow_pow2 w.length 2 (by decide))).map dequantize)
    (by rw [List.length_map, length_resize]) i hi
  obtain ⟨h1, h2, _, h4, h5⟩ := h
  refine ⟨h1, h2, ?_, ?_⟩
  · by_contra hge
    have e := padded_excess_padding w (grow_pow2 w.length 2 (by decide)) _ (not_lt.mp hge)
    have : (0 : ℚ) ≤ -1 := by
      rw [← e]
      exact h4
    norm_num at this
  · intro hpad
    have e := padded_excess_padding w (grow_pow2 w.length 2 (by decide)) i hpad
    have := h5 (by rw [e]; norm_num)
    rw [e] at this
    rw [show ((exact_table w t).getD i default).1 = 1 + -1 from this]
    norm_num

theorem exact_table_implied_mass (w : List ℚ) (t : Table ℕ) (hw : ValidWeights w) (i : ℕ)
    (hi : i < grow_pow2 w.length 2 (by decide)) :
    implied_mass 1 (fun x => x) (exact_table w t) i
      = (grow_pow2 w.length 2 (by decide) : ℚ) / w.sum * w.getD i 0 := by
  unfold exact_table
  simp only []
  rw [assign_aliases_implied_mass _ _ (fun i _ => padded_excess_ge w hw _ i)
    (padded_excess_sum w hw _ (grow_pow2_ge _)) _ (by rw [List.length_map, length_resize]) i hi,
    padded_excess_eq]
  ring

end walker.detail

namespace walker.detail

/-! ## Quantisation error of the integral table -/

theorem to_uint_le (x : ℚ) (hx : 0 ≤ x) : (to_uint x : ℚ) ≤ x := by
  unfold to_uint
  have h0 : 0 ≤ ⌊x⌋ := Int.floor_nonneg.mpr hx
  have e : ((⌊x⌋.toNat : ℕ) : ℚ) = ((⌊x⌋ : ℤ) : ℚ) := by
    have := Int.toNat_of_nonneg h0
    exact_mod_cast this
  rw [e]
  exact Int.floor_le x

theorem lt_to_uint_add_one (x : ℚ) (hx : 0 ≤ x) : x < (to_uint x : ℚ) + 1 := by
  unfold to_uint
  have h0 : 0 ≤ ⌊x⌋ := Int.floor_nonneg.mpr hx
  have e : ((⌊x⌋.toNat : ℕ) : ℚ) = ((⌊x⌋ : ℤ) : ℚ) := by
    have := Int.toNat_of_nonneg h0
    exact_mod_cast this
  rw [e]
  exact Int.lt_floor_add_one x

/-- Loss of the cutoff `c` under quantisation and de-quantisation. -/
theorem quantize_loss (c : ℚ) (hc : 0 ≤ c) :
    0 ≤ c - 1 / (uint_max : ℚ) * (to_uint ((uint_max : ℚ) * c) : ℚ) ∧
    c - 1 / (uint_max : ℚ) * (to_uint ((uint_max : ℚ) * c) : ℚ) < 1 / (uint_max : ℚ) := by
  have hm := uint_max_pos
  have h1 := to_uint_le ((uint_max : ℚ) * c) (mul_nonneg (le_of_lt hm) hc)
  have h2 := lt_to_uint_add_one ((uint_max : ℚ) * c) (mul_nonneg (le_of_lt hm) hc)
  constructor
  · rw [sub_nonneg, one_div, inv_mul_le_iff₀ hm]
    exact h1
  · rw [sub_lt_iff_lt_add, ← mul_one_add, one_div, lt_inv_mul_iff₀ hm]
    linarith

theorem getD_map_quantize (E : Table ℚ) (j : ℕ) :
    (E.map quantize).getD j default = quantize (E.getD j default) := by
  by_cases h : j < E.length
  · rw [List.getD_eq_getElem _ _ (by rw [List.length_map]; exact h),
      List.getD_eq_getElem _ _ h, List.getElem_map]
  · rw [List.getD_eq_default _ _ (by rw [List.length_map]; omega),
      List.getD_eq_default _ _ (by omega)]
    show ((0 : ℕ), (0 : ℕ)) = quantize ((0 : ℚ), (0 : ℕ))
    simp [quantize, to_uint]

/-- The de-quantised mass of the integral table differs from the mass of the
exact table by less than one quantisation step per table entry. -/
theorem quantized_mass_error (E : Table ℚ) (hE0 : 0 < E.length)
    (hE : ∀ j, j < E.length → 0 ≤ (E.getD j default).1) (i : ℕ) (hi : i < E.length) :
    |implied_mass (1 / (uint_max : ℚ)) (fun c : ℕ => (c : ℚ)) (E.map quantize) i
        - implied_mass 1 (fun x => x) E i| < (E.length : ℚ) / uint_max := by
  have hm := uint_max_pos
  rw [implied_mass_eq_sum, implied_mass_eq_sum, List.length_map]
  simp only [getD_map_quantize]
  have hloss : ∀ j, j < E.length →
      0 ≤ (E.getD j default).1 - 1 / (uint_max : ℚ) * ((quantize (E.getD j default)).1 : ℚ) ∧
      (E.getD j default).1 - 1 / (uint_max : ℚ) * ((quantize (E.getD j default)).1 : ℚ)
        < 1 / (uint_max : ℚ) :=
    fun j hj => quantize_loss _ (hE j hj)
  have hdiff : 1 / (uint_max : ℚ) * ((quantize (E.getD i default)).1 : ℚ)
        + ∑ j in Finset.range E.length,
            (if (quantize (E.getD j default)).2 = i
              then 1 - 1 / (uint_max : ℚ) * ((quantize (E.getD j default)).1 : ℚ) else 0)
        - (1 * (E.getD i default).1
            + ∑ j in Finset.range E.length,
                (if (E.getD j default).2 = i then 1 - 1 * (E.getD j default).1 else 0))
      = ∑ j in Finset.range E.length,
            (if (E.getD j default).2 = i
              then (E.getD j default).1
                - 1 / (uint_max : ℚ) * ((quantize (E.getD j default)).1 : ℚ) else 0)
        - ((E.getD i default).1
            - 1 / (uint_max : ℚ) * ((quantize (E.getD i default)).1 : ℚ)) := by
    have e : ∀ j, (quantize (E.getD j default)).2 = (E.getD j default).2 := fun j => rfl
    simp only [e]
    rw [add_sub_add_comm, ← Finset.sum_sub_distrib]
    rw [show (∑ j in Finset.range E.length,
          ((if (E.getD j default).2 = i
              then 1 - 1 / (uint_max : ℚ) * ((quantize (E.getD j default)).1 : ℚ) else 0)
            - (if (E.getD j default).2 = i then 1 - 1 * (E.getD j default).1 else 0)))
        = ∑ j in Finset.range E.length,
            (if (E.getD j default).2 = i
              then (E.getD j default).1
                - 1 / (uint_max : ℚ) * ((quantize (E.getD j default)).1 : ℚ) else 0) from
      Finset.sum_congr rfl (fun j _ => by
        by_cases h : (E.getD j default).2 = i
        · rw [if_pos h, if_pos h, if_pos h]
          ring
        · rw [if_neg h, if_neg h, if_neg h]
          ring)]
    ring
  rw [hdiff]
  have hsum0 : 0 ≤ ∑ j in Finset.range E.length,
      (if (E.getD j default).2 = i
        then (E.getD j default).1
          - 1 / (uint_max : ℚ) * ((quantize (E.getD j default)).1 : ℚ) else 0) := by
    apply Finset.sum_nonneg
    intro j hj
    by_cases h : (E.getD j default).2 = i
    · rw [if_pos h]
      exact (hloss j (Finset.mem_range.mp hj)).1
    · rw [if_neg h]
  have hsum1 : ∑ j in Finset.range E.length,
      (if (E.getD j default).2 = i
        then (E.getD j default).1
          - 1 / (uint_max : ℚ) * ((quantize (E.getD j default)).1 : ℚ) else 0)
      < (E.length : ℚ) / uint_max := by
    have hlt : ∑ j in Finset.range E.length,
        (if (E.getD j default).2 = i
          then (E.getD j default).1
            - 1 / (uint_max : ℚ) * ((quantize (E.getD j default)).1 : ℚ) else 0)
        < ∑ _j in Finset.range E.length, 1 / (uint_max : ℚ) := by
      apply Finset.sum_lt_sum_of_nonempty
      · exact Finset.nonempty_range_iff.mpr (by omega)
      · intro j hj
        by_cases h : (E.getD j default).2 = i
        · rw [if_pos h]
          exact (hloss j (Finset.mem_range.mp hj)).2
        · rw [if_neg h]
          positivity
    rw [Finset.sum_const, Finset.card_range, nsmul_eq_mul] at hlt
    calc _ < (E.length : ℚ) * (1 / (uint_max : ℚ)) := hlt
      _ = (E.length : ℚ) / uint_max := by ring
  have hi1 := (hloss i hi).1
  have hi2 := (hloss i hi).2
  have hM : (1 : ℚ) / uint_max ≤ (E.length : ℚ) / uint_max := by
    apply div_le_div_of_nonneg_right _ (le_of_lt hm)
    exact_mod_cast hE0
  rw [abs_lt]
  constructor <;> linarith

end walker.detail

namespace walker

/-- C2 (as stated) fails: for the valid weights `[1, 9000000000]` the integral
`fill_ft2009` returns normally, yet `check_table` with the default tolerance
`1e-10` (scaled by `N = 2`) rejects the table it built. -/
theorem integral_table_rejected_at_default_tolerance :
    (detail.fill_ft2009_integral [1, 9000000000] []).1 = none ∧
    detail.check_table (1 / detail.uint_max) (fun c : ℕ => (c : ℚ)) [1, 9000000000]
      (detail.fill_ft2009_integral [1, 9000000000] []).2 (1 / 10 ^ 10) = false := by
  decide!

/-- C2 (amended): in exact arithmetic, for every valid weight vector the integral
`fill_ft2009` returns normally with a table of length `M` whose de-quantised implied mass
differs, at every index `i < N`, from `M * w_i / sum w` by less than
`M / (2^32 - 1)`; hence `check_table` accepts it for every tolerance `tol` with
`M / (2^32 - 1) ≤ tol * N`. -/
theorem integral_table_within_quantisation_error (w : List ℚ) (t : Table ℕ)
    (hw : ValidWeights w) :
    (detail.fill_ft2009_integral w t).1 = none ∧
    (∀ i, i < w.length →
      |detail.implied_mass (1 / detail.uint_max) (fun c : ℕ => (c : ℚ))
          (detail.fill_ft2009_integral w t).2 i
        - ((detail.fill_ft2009_integral w t).2.length : ℚ) * w.getD i 0 / w.sum|
        < ((detail.fill_ft2009_integral w t).2.length : ℚ) / (2 ^ 32 - 1)) ∧
    (∀ tol : ℚ,
      ((detail.fill_ft2009_integral w t).2.length : ℚ) / (2 ^ 32 - 1) ≤ tol * w.length →
      detail.check_table (1 / detail.uint_max) (fun c : ℕ => (c : ℚ)) w
        (detail.fill_ft2009_integral w t).2 tol = true) := by
  have hval := detail.fill_ft2009_integral_valid w t hw
  have hlen := detail.exact_table_length w t hw
  have hpos := detail.grow_pow2_pos w.length
  have hge := detail.grow_pow2_ge w.length
  have hum : ((detail.uint_max : ℕ) : ℚ) = 2 ^ 32 - 1 := by
    norm_num [detail.uint_max]
  have hbound : ∀ i, i < w.length →
      |detail.implied_mass (1 / detail.uint_max) (fun c : ℕ => (c : ℚ))
          ((detail.exact_table w t).map detail.quantize) i
        - ((detail.exact_table w t).length : ℚ) * w.getD i 0 / w.sum|
        < ((detail.exact_table w t).length : ℚ) / (2 ^ 32 - 1) := by
    intro i hi
    have h1 := detail.quantized_mass_error (detail.exact_table w t) (by omega)
      (fun j hj => (detail.exact_table_entry w t hw j (by omega)).1) i (by omega)
    rw [detail.exact_table_implied_mass w t hw i (by omega), ← hlen] at h1
    have e : ((detail.exact_table w t).length : ℚ) / w.sum * w.getD i 0
        = ((detail.exact_table w t).length : ℚ) * w.getD i 0 / w.sum := by
      ring
    rw [← e, ← hum]
    exact h1
  rw [hval]
  refine ⟨rfl, ?_, ?_⟩
  · intro i hi
    simpa using hbound i hi
  · intro tol htol
    rw [detail.check_table_iff]
    intro i hi
    have h := hbound i hi
    simp only [List.length_map] at htol ⊢
    have e : ((detail.exact_table w t).length : ℚ) / w.sum * w.getD i 0
        = ((detail.exact_table w t).length : ℚ) * w.getD i 0 / w.sum := by
      ring
    rw [e]
    exact lt_of_lt_of_le h htol

theorem integral_table_within_quantisation_error_witness :
    ValidWeights [1, 9000000000] ∧
    ((detail.fill_ft2009_integral [1, 9000000000] []).1 = none ∧
    (∀ i, i < ([1, 9000000000] : List ℚ).length →
      |detail.implied_mass (1 / detail.uint_max) (fun c : ℕ => (c : ℚ))
          (detail.fill_ft2009_integral [1, 9000000000] []).2 i
        - ((detail.fill_ft2009_integral [1, 9000000000] []).2.length : ℚ)
            * ([1, 9000000000] : List ℚ).getD i 0 / ([1, 9000000000] : List ℚ).sum|
        < ((detail.fill_ft2009_integral [1, 9000000000] []).2.length : ℚ) / (2 ^ 32 - 1)) ∧
    (∀ tol : ℚ,
      ((detail.fill_ft2009_integral [1, 9000000000] []).2.length : ℚ) / (2 ^ 32 - 1)
        ≤ tol * ([1, 9000000000] : List ℚ).length →
      detail.check_table (1 / detail.uint_max) (fun c : ℕ => (c : ℚ)) [1, 9000000000]
        (detail.fill_ft2009_integral [1, 9000000000] []).2 tol = true)) :=
  have hv : ValidWeights [1, 9000000000] :=
    ⟨by simp, by
      intro x hx
      simp only [List.mem_cons, List.mem_singleton, List.not_mem_nil, or_false] at hx
      rcases hx with rfl | rfl <;> norm_num, by norm_num⟩
  ⟨hv, integral_table_within_quantisation_error [1, 9000000000] [] hv⟩

end walker

namespace walker.detail

/-! ## The samplers -/

theorem fill_ft2009_entry (w : List ℚ) (t : Table ℚ) (hw : ValidWeights w) (i : ℕ)
    (hi : i < w.length) :
    0 ≤ ((fill_ft2009 w t).2.getD i default).1 ∧
    ((fill_ft2009 w t).2.getD i default).1 ≤ 1 ∧
    ((fill_ft2009 w t).2.getD i default).2 < w.length := by
  rw [fill_ft2009_valid w t hw]
  have h := assign_aliases_entry (fun i => (w.length : ℚ) / w.sum * w.getD i 0 - 1) w.length
    (fun i _ => excess_ge_neg_one w hw _ (Nat.cast_nonneg _) i) (excess_sum_zero w hw)
    (resize t w.length) (length_resize _ _) i hi
  exact ⟨h.1, h.2.1, h.2.2.1⟩

theorem to_uint_lt_of_lt (x : ℚ) (n : ℕ) (h0 : 0 ≤ x) (h : x < n) : to_uint x < n := by
  have h1 := to_uint_le x h0
  have : (to_uint x : ℚ) < n := lt_of_le_of_lt h1 h
  exact_mod_cast this

end walker.detail

namespace walker

end walker

namespace walker.detail

theorem int_log_pow_sub_half (k : ℕ) (hk : 1 ≤ k) :
    Int.log 2 (((2 ^ k : ℕ) : ℚ) - 1 / 2) = (k : ℤ) - 1 := by
  have h2k : (2 : ℚ) ≤ ((2 ^ k : ℕ) : ℚ) := by
    have : 2 ^ 1 ≤ 2 ^ k := Nat.pow_le_pow_right (by norm_num) hk
    exact_mod_cast this
  have h1 : (1 : ℚ) ≤ ((2 ^ k : ℕ) : ℚ) - 1 / 2 := by linarith
  have hpos : 0 < 2 ^ k := by positivity
  have hfloor : ⌊((2 ^ k : ℕ) : ℚ) - 1 / 2⌋₊ = 2 ^ k - 1 := by
    rw [Nat.floor_eq_iff (by linarith)]
    constructor
    · have : ((2 ^ k - 1 : ℕ) : ℚ) = ((2 ^ k : ℕ) : ℚ) - 1 := by
        rw [Nat.cast_sub (by omega)]
        simp
      rw [this]
      linarith
    · have : ((2 ^ k - 1 : ℕ) : ℚ) = ((2 ^ k : ℕ) : ℚ) - 1 := by
        rw [Nat.cast_sub (by omega)]
        simp
      rw [this]
      linarith
  rw [Int.log_of_one_le_right 2 h1, hfloor]
  obtain ⟨j, rfl⟩ : ∃ j, k = j + 1 := ⟨k - 1, by omega⟩
  have hlog : Nat.log 2 (2 ^ (j + 1) - 1) = j := by
    apply Nat.log_eq_of_pow_le_of_lt_pow
    · rw [pow_succ]
      have : 0 < 2 ^ j := by positivity
      omega
    · omega
  rw [hlog]
  push_cast
  ring

/-- The shift count stored by the integral constructor for a table of length
`2 ^ k`, `1 ≤ k ≤ 32`. -/
theorem bits_of_pow (k : ℕ) (hk : 1 ≤ k) (hk32 : k ≤ 32) :
    (((31 : ℤ) - Int.log 2 (((2 ^ k : ℕ) : ℚ) - 1 / 2)) % 2 ^ 32).toNat = 32 - k := by
  rw [int_log_pow_sub_half k hk]
  omega

theorem shift_lt_pow (r k : ℕ) (hr : r < 2 ^ 32) (hk32 : k ≤ 32) :
    r >>> (32 - k) < 2 ^ k := by
  rw [Nat.shiftRight_eq_div_pow, Nat.div_lt_iff_lt_mul (by positivity), ← pow_add]
  have : k + (32 - k) = 32 := by omega
  rw [this]
  exact hr

theorem fill_ft2009_integral_entry (w : List ℚ) (t : Table ℕ) (hw : ValidWeights w) (i : ℕ)
    (hi : i < grow_pow2 w.length 2 (by decide)) :
    ((fill_ft2009_integral w t).2.getD i default).2 < w.length ∧
    (w.length ≤ i → ((fill_ft2009_integral w t).2.getD i default).1 = 0) := by
  rw [fill_ft2009_integral_valid w t hw]
  simp only [getD_map_quantize]
  have h := exact_table_entry w t hw i hi
  refine ⟨h.2.2.1, ?_⟩
  intro hpad
  show to_uint ((uint_max : ℚ) * ((exact_table w t).getD i default).1) = 0
  rw [h.2.2.2 hpad]
  simp [to_uint]

theorem fill_ft2009_integral_length (w : List ℚ) (t : Table ℕ) (hw : ValidWeights w) :
    (fill_ft2009_integral w t).2.length = grow_pow2 w.length 2 (by decide) := by
  rw [fill_ft2009_integral_valid w t hw]
  simp only [List.length_map]
  exact exact_table_length w t hw

end walker.detail

namespace walker

/-- C5: for every valid weight vector of length `N` the integral sampler is
constructed with a table of length `M ≥ N`; every padding entry `j` in `[N, M)`
has cutoff `0` and an alias below `N`; and for every raw 32-bit first draw `r1`
(and any second draw) the bucket `r1 >> bits_` is a valid table index and the
returned index is below `N`. -/
theorem integral_sampler_never_returns_padding (w : List ℚ) (hw : ValidWeights w)
    (eng : ℕ → ℕ) (pos : ℕ) (hr : eng pos < 2 ^ 32) :
    ∃ s, detail.random_choice_walker_integral.construct w = .ok s ∧
      w.length ≤ s.table_.length ∧
      (∀ j, w.length ≤ j → j < s.table_.length → s.cutoff j = 0 ∧ s.alias j < w.length) ∧
      eng pos >>> s.bits_ < s.table_.length ∧
      (s.call eng pos).1 < w.length := by
  have hval := detail.fill_ft2009_integral_valid w [] hw
  have hlen := detail.fill_ft2009_integral_length w [] hw
  obtain ⟨k, hk1, hk2, hk3, hk4⟩ := detail.grow_pow2_two w.length
  have hent := detail.fill_ft2009_integral_entry w [] hw
  obtain ⟨bits, hbits⟩ : ∃ bits : ℕ, bits = (((31 : ℤ) - Int.log 2
      ((((detail.fill_ft2009_integral w []).2.length : ℕ) : ℚ) - 1 / 2)) % 2 ^ 32).toNat :=
    ⟨_, rfl⟩
  have hx : eng pos >>> bits < detail.grow_pow2 w.length 2 (by decide) := by
    rw [hbits, hlen, hk2]
    by_cases hk32 : k ≤ 32
    · rw [detail.bits_of_pow k hk1 hk32]
      exact detail.shift_lt_pow _ _ hr hk32
    · calc eng pos >>> _ ≤ eng pos := by
            rw [Nat.shiftRight_eq_div_pow]
            exact Nat.div_le_self _ _
        _ < 2 ^ 32 := hr
        _ ≤ 2 ^ k := Nat.pow_le_pow_right (by norm_num) (by omega)
  refine ⟨{ bits_ := bits, table_ := (detail.fill_ft2009_integral w []).2 }, ?_, ?_, ?_, ?_,
    ?_⟩
  · unfold detail.random_choice_walker_integral.construct
    rw [hbits, hval]
  · show w.length ≤ (detail.fill_ft2009_integral w []).2.length
    rw [hlen]
    exact detail.grow_pow2_ge _
  · intro j hj hjm
    have hjm' : j < (detail.fill_ft2009_integral w []).2.length := hjm
    rw [hlen] at hjm'
    exact ⟨(hent j hjm').2 hj, (hent j hjm').1⟩
  · show eng pos >>> _ < (detail.fill_ft2009_integral w []).2.length
    rw [hlen]
    exact hx
  · simp only [detail.random_choice_walker_integral.call,
      detail.random_choice_walker_integral.cutoff, detail.random_choice_walker_integral.alias]
    split_ifs with hc
    · by_contra hge
      have := (hent _ hx).2 (not_lt.mp hge)
      rw [this] at hc
      exact absurd hc (Nat.not_lt_zero _)
    · exact (hent _ hx).1

theorem integral_sampler_never_returns_padding_witness :
    ValidWeights [1, 2, 3] ∧ (fun _ : ℕ => 4000000000) 0 < 2 ^ 32 ∧
    ∃ s, detail.random_choice_walker_integral.construct [1, 2, 3] = .ok s ∧
      ([1, 2, 3] : List ℚ).length ≤ s.table_.length ∧
      (∀ j, ([1, 2, 3] : List ℚ).length ≤ j → j < s.table_.length →
        s.cutoff j = 0 ∧ s.alias j < ([1, 2, 3] : List ℚ).length) ∧
      (fun _ : ℕ => 4000000000) 0 >>> s.bits_ < s.table_.length ∧
      (s.call (fun _ : ℕ => 4000000000) 0).1 < ([1, 2, 3] : List ℚ).length :=
  have hv : ValidWeights [1, 2, 3] :=
    ⟨by simp, by
      intro x hx
      simp only [List.mem_cons, List.mem_singleton, List.not_mem_nil, or_false] at hx
      rcases hx with rfl | rfl | rfl <;> norm_num, by norm_num⟩
  ⟨hv, by norm_num,
    integral_sampler_never_returns_padding [1, 2, 3] hv (fun _ => 4000000000) 0
      (by norm_num)⟩

end walker

namespace walker.detail

/-! ## `fill_walker1977` never reads an uninitialised position -/

theorem valid_iff_not_invalid (w : List ℚ) : ValidWeights w ↔ ¬ InvalidWeights w := by
  unfold ValidWeights InvalidWeights
  constructor
  · rintro ⟨h1, h2, h3⟩ (h | ⟨x, hx, hx0⟩ | h)
    · exact h1 h
    · exact absurd (h2 x hx) (not_le.mpr hx0)
    · exact absurd h3 (not_lt.mpr h)
  · intro h
    refine ⟨fun e => h (Or.inl e), ?_, ?_⟩
    · intro x hx
      by_contra hx0
      exact h (Or.inr (Or.inl ⟨x, hx, not_le.mp hx0⟩))
    · by_contra h3
      exact h (Or.inr (Or.inr (not_lt.mp h3)))

theorem sum_set (l : List ℚ) (i : ℕ) (x : ℚ) (hi : i < l.length) :
    (l.set i x).sum = l.sum - l.getD i 0 + x := by
  induction l generalizing i with
  | nil => simp at hi
  | cons a l ih =>
    cases i with
    | zero =>
      simp
      ring
    | succ i =>
      simp only [List.set_cons_succ, List.sum_cons, List.getD_cons_succ]
      rw [ih i (by simpa using hi)]
      ring

theorem sum_pos_of_all_pos (l : List ℚ) (hl : l ≠ []) (h : ∀ i, i < l.length → 0 < l.getD i 0) :
    0 < l.sum := by
  apply List.sum_pos _ _ hl
  intro x hx
  obtain ⟨i, hi, rfl⟩ := List.getElem_of_mem hx
  have := h i hi
  rw [List.getD_eq_getElem _ _ hi] at this
  exact this

theorem sum_neg_of_all_neg (l : List ℚ) (hl : l ≠ []) (h : ∀ i, i < l.length → l.getD i 0 < 0) :
    l.sum < 0 := by
  have h1 : 0 < (l.map (fun x => -x)).sum := by
    apply List.sum_pos _ _ (by simpa using hl)
    intro x hx
    rw [List.mem_map] at hx
    obtain ⟨y, hy, rfl⟩ := hx
    obtain ⟨i, hi, rfl⟩ := List.getElem_of_mem hy
    have := h i hi
    rw [List.getD_eq_getElem _ _ hi] at this
    linarith
  have h2 : (l.map (fun x => -x)).sum = - l.sum := by
    clear h1 h hl
    induction l with
    | nil => simp
    | cons a l ih =>
      simp only [List.map_cons, List.sum_cons, ih]
      ring
  rw [h2] at h1
  linarith

/-- What the inner scan has established after `j` elements. -/
theorem scan_fold_spec (b : List ℚ) (j : ℕ) :
    let s := (List.range j).foldl (scan_step b)
      { sum := 0, minval := 0, maxval := 0, minpos := none, maxpos := none }
    (s.minpos = none → ∀ i, i < j → 0 < b.getD i 0) ∧
    (∀ m, s.minpos = some m → m < j ∧ b.getD m 0 = s.minval ∧ s.minval ≤ 0) ∧
    (s.maxpos = none → ∀ i, i < j → b.getD i 0 < 0) ∧
    (∀ m, s.maxpos = some m → m < j ∧ b.getD m 0 = s.maxval ∧ 0 ≤ s.maxval) ∧
    (s.minpos = none → s.minval = 0) ∧ (s.maxpos = none → s.maxval = 0) := by
  induction j with
  | zero =>
    simp
  | succ j ih =>
    rw [List.range_succ, List.foldl_append]
    simp only [List.foldl_cons, List.foldl_nil]
    generalize (List.range j).foldl (scan_step b)
      { sum := 0, minval := 0, maxval := 0, minpos := none, maxpos := none } = s at ih
    obtain ⟨h1, h2, h3, h4, h5, h6⟩ := ih
    unfold scan_step
    simp only []
    by_cases hmin : b.getD j 0 ≤ s.minval <;> by_cases hmax : b.getD j 0 ≥ s.maxval
    · rw [if_pos hmin, if_pos hmax]
      have hmin0 : b.getD j 0 ≤ 0 := by
        cases hm : s.minpos with
        | none => rw [h5 hm] at hmin; exact hmin
        | some m => exact le_trans hmin (h2 m hm).2.2
      have hmax0 : 0 ≤ b.getD j 0 := by
        cases hm : s.maxpos with
        | none => rw [h6 hm] at hmax; exact hmax
        | some m => exact le_trans (h4 m hm).2.2 hmax
      refine ⟨fun h => by simp at h, ?_, fun h => by simp at h, ?_, fun h => by simp at h,
        fun h => by simp at h⟩
      · intro m hm
        simp only [Option.some.injEq] at hm
        subst hm
        exact ⟨by omega, rfl, hmin0⟩
      · intro m hm
        simp only [Option.some.injEq] at hm
        subst hm
        exact ⟨by omega, rfl, hmax0⟩
    · rw [if_pos hmin, if_neg hmax]
      have hmin0 : b.getD j 0 ≤ 0 := by
        cases hm : s.minpos with
        | none => rw [h5 hm] at hmin; exact hmin
        | some m => exact le_trans hmin (h2 m hm).2.2
      refine ⟨fun h => by simp at h, ?_, ?_, ?_, fun h => by simp at h, h6⟩
      · intro m hm
        simp only [Option.some.injEq] at hm
        subst hm
        exact ⟨by omega, rfl, hmin0⟩
      · intro hn i hi
        rcases Nat.lt_succ_iff_lt_or_eq.mp hi with h | rfl
        · exact h3 hn i h
        · have := h6 hn
          simp only [ge_iff_le, not_le] at hmax
          rw [this] at hmax
          exact hmax
      · intro m hm
        have := h4 m hm
        exact ⟨by omega, this.2.1, this.2.2⟩
    · rw [if_neg hmin, if_pos hmax]
      have hmax0 : 0 ≤ b.getD j 0 := by
        cases hm : s.maxpos with
        | none => rw [h6 hm] at hmax; exact hmax
        | some m => exact le_trans (h4 m hm).2.2 hmax
      refine ⟨?_, ?_, fun h => by simp at h, ?_, h5, fun h => by simp at h⟩
      · intro hn i hi
        rcases Nat.lt_succ_iff_lt_or_eq.mp hi with h | rfl
        · exact h1 hn i h
        · have := h5 hn
          simp only [not_le] at hmin
          rw [this] at hmin
          exact hmin
      · intro m hm
        have := h2 m hm
        exact ⟨by omega, this.2.1, this.2.2⟩
      · intro m hm
        simp only [Option.some.injEq] at hm
        subst hm
        exact ⟨by omega, rfl, hmax0⟩
    · rw [if_neg hmin, if_neg hmax]
      refine ⟨?_, ?_, ?_, ?_, h5, h6⟩
      · intro hn i hi
        rcases Nat.lt_succ_iff_lt_or_eq.mp hi with h | rfl
        · exact h1 hn i h
        · have := h5 hn
          simp only [not_le] at hmin
          rw [this] at hmin
          exact hmin
      · intro m hm
        have := h2 m hm
        exact ⟨by omega, this.2.1, this.2.2⟩
      · intro hn i hi
        rcases Nat.lt_succ_iff_lt_or_eq.mp hi with h | rfl
        · exact h3 hn i h
        · have := h6 hn
          simp only [ge_iff_le, not_le] at hmax
          rw [this] at hmax
          exact hmax
      · intro m hm
        have := h4 m hm
        exact ⟨by omega, this.2.1, this.2.2⟩

/-- On a non-empty array of excesses that sum to zero the scan assigns both
`minpos` and `maxpos`. -/
theorem scan_positions (b : List ℚ) (hb : b ≠ []) (hsum : b.sum = 0) :
    ∃ mn mx, (scan b).minpos = some mn ∧ (scan b).maxpos = some mx ∧
      mn < b.length ∧ mx < b.length ∧
      b.getD mn 0 = (scan b).minval ∧ b.getD mx 0 = (scan b).maxval ∧
      (scan b).minval ≤ 0 ∧ 0 ≤ (scan b).maxval := by
  have h := scan_fold_spec b b.length
  simp only [] at h
  obtain ⟨h1, h2, h3, h4, _, _⟩ := h
  cases hmin : (scan b).minpos with
  | none =>
    exfalso
    have := sum_pos_of_all_pos b hb (h1 hmin)
    linarith
  | some mn =>
    cases hmax : (scan b).maxpos with
    | none =>
      exfalso
      have := sum_neg_of_all_neg b hb (h3 hmax)
      linarith
    | some mx =>
      have a := h2 mn hmin
      have c := h4 mx hmax
      exact ⟨mn, mx, rfl, rfl, a.1, c.1, a.2.1, c.2.1, a.2.2, c.2.2⟩

theorem walker1977_passes_some (tol : ℚ) (n : ℕ) (hn : 0 < n) :
    ∀ (k : ℕ) (table : Table ℚ) (b : List ℚ), b.length = n → b.sum = 0 → table.length = n →
      ∃ T, walker1977_passes tol k table b = some T ∧ T.length = n := by
  intro k
  induction k with
  | zero =>
    intro table b _ _ ht
    exact ⟨table, rfl, ht⟩
  | succ k ih =>
    intro table b hb hsum ht
    unfold walker1977_passes
    simp only []
    by_cases hbrk : (scan b).sum < tol
    · rw [if_pos hbrk]
      exact ⟨table, rfl, ht⟩
    · rw [if_neg hbrk]
      have hne : b ≠ [] := by
        intro e
        rw [e] at hb
        simp at hb
        omega
      obtain ⟨mn, mx, e1, e2, h1, h2, h3, h4, h5, h6⟩ := scan_positions b hne hsum
      rw [e1, e2]
      simp only []
      apply ih
      · simp [hb]
      · rw [sum_set _ _ _ (by simp; exact h1)]
        by_cases hmm : mx = mn
        · subst hmm
          rw [getD_set_self _ _ _ _ h2, sum_set _ _ _ h2, hsum]
          have : b.getD mx 0 = 0 := by
            have a := h3
            have c := h4
            linarith
          rw [this]
          ring
        · rw [getD_set_of_ne _ _ _ _ _ hmm, sum_set _ _ _ h2, hsum, h3, h4]
          ring
      · simp [ht]

theorem init_table_length (table : Table ℚ) (n : ℕ) :
    (init_table table n).length = table.length := by
  unfold init_table
  induction n with
  | zero => simp
  | succ n ih =>
    rw [List.range_succ, List.foldl_append]
    simp [ih]

theorem list_sum_range_map (f : ℕ → ℚ) (n : ℕ) :
    ((List.range n).map f).sum = ∑ i in Finset.range n, f i := by
  induction n with
  | zero => simp
  | succ n ih => rw [List.sum_range_succ, Finset.sum_range_succ, ih]

theorem fill_walker1977_valid (w : List ℚ) (t : Table ℚ) (tol : ℚ) (hw : ValidWeights w) :
    ∃ T, fill_walker1977 w t tol = some (none, T) ∧ T.length = w.length := by
  have hn := length_pos_of_valid w hw
  obtain ⟨T, hT, hlen⟩ := walker1977_passes_some tol w.length hn w.length
    (init_table (resize t w.length) w.length)
    ((List.range w.length).map (fun i => (w.length : ℚ) / w.sum * w.getD i 0 - 1))
    (by simp) (by rw [list_sum_range_map]; exact excess_sum_zero w hw)
    (by rw [init_table_length, length_resize])
  refine ⟨T, ?_, hlen⟩
  unfold fill_walker1977
  rw [if_neg (by omega), accumulate_checked_valid w hw]
  simp only []
  rw [if_neg (not_le.mpr hw.2.2), hT]

end walker.detail

namespace walker.detail

/-! ## Behaviour on invalid weights -/

theorem accumulate_checked_invalid (w : List ℚ) (hne : w ≠ []) (hw : InvalidWeights w) :
    accumulate_checked w 0 = .error .invalid_argument ∨
    (accumulate_checked w 0 = .ok w.sum ∧ w.sum ≤ 0) := by
  rw [accumulate_checked_eq, zero_add]
  by_cases h : ∃ x ∈ w, x < 0
  · left
    rw [if_pos h]
  · right
    rw [if_neg h]
    rcases hw with h1 | h1 | h1
    · exact absurd h1 hne
    · exact absurd h1 h
    · exact ⟨rfl, h1⟩

theorem fill_ft2009_invalid (w : List ℚ) (t : Table ℚ) (hw : InvalidWeights w) :
    fill_ft2009 w t = (some .invalid_argument, t) := by
  unfold fill_ft2009
  by_cases hne : w = []
  · rw [if_pos (by rw [hne]; rfl)]
  · rw [if_neg (by simpa using hne)]
    rcases accumulate_checked_invalid w hne hw with h | ⟨h, hs⟩
    · rw [h]
    · rw [h]
      simp only []
      rw [if_pos hs]

theorem fill_ft2009_integral_invalid (w : List ℚ) (t : Table ℕ) (hw : InvalidWeights w) :
    fill_ft2009_integral w t
      = (some (if w = [] then .range_error else .invalid_argument), t) := by
  unfold fill_ft2009_integral
  by_cases hne : w = []
  · rw [if_pos (by rw [hne]; rfl), if_pos hne]
  · rw [if_neg (by simpa using hne), if_neg hne]
    rcases accumulate_checked_invalid w hne hw with h | ⟨h, hs⟩
    · rw [h]
    · rw [h]
      simp only []
      rw [if_pos hs]

theorem fill_walker1977_invalid (w : List ℚ) (t : Table ℚ) (tol : ℚ) (hw : InvalidWeights w) :
    fill_walker1977 w t tol = some (some .invalid_argument, t) := by
  unfold fill_walker1977
  by_cases hne : w = []
  · rw [if_pos (by rw [hne]; rfl)]
  · rw [if_neg (by simpa using hne)]
    rcases accumulate_checked_invalid w hne hw with h | ⟨h, hs⟩
    · rw [h]
    · rw [h]
      simp only []
      rw [if_pos hs]

theorem bsearch_init_invalid (w : List ℚ) (a : List ℚ) (hw : InvalidWeights w) :
    random_choice_bsearch_init w a = (some .invalid_argument, a) := by
  unfold random_choice_bsearch_init
  by_cases hne : w = []
  · rw [if_pos (by rw [hne]; rfl)]
  · rw [if_neg (by simpa using hne)]
    rcases accumulate_checked_invalid w hne hw with h | ⟨h, hs⟩
    · rw [h]
    · rw [h]
      simp only []
      rw [if_pos hs]

theorem lsearch_init_invalid (w : List ℚ) (a : List ℚ) (hw : InvalidWeights w) :
    random_choice_lsearch_init w a = (some .invalid_argument, a) := by
  unfold random_choice_lsearch_init
  by_cases hne : w = []
  · rw [if_pos (by rw [hne]; rfl)]
  · rw [if_neg (by simpa using hne)]
    rcases accumulate_checked_invalid w hne hw with h | ⟨h, hs⟩
    · rw [h]
    · rw [h]
      simp only []
      rw [if_pos hs]

/-! ## The cumulative array -/

theorem push_cumulative_length (norm : ℚ) (ws : List ℚ) (a : ℚ) (acc : List ℚ) :
    (push_cumulative norm ws a acc).length = acc.length + ws.length := by
  induction ws generalizing a acc with
  | nil => simp [push_cumulative]
  | cons w ws ih =>
    unfold push_cumulative
    rw [ih]
    simp
    omega

theorem resize_zero {α : Type} [Inhabited α] (v : List α) : resize v 0 = [] := by
  simp [resize]

theorem bsearch_init_valid (w : List ℚ) (a : List ℚ) (hw : ValidWeights w) :
    random_choice_bsearch_init w a = (none, push_cumulative w.sum w 0 []) := by
  have hn := length_pos_of_valid w hw
  unfold random_choice_bsearch_init
  rw [if_neg (by omega), accumulate_checked_valid w hw]
  simp only []
  rw [if_neg (not_le.mpr hw.2.2), resize_zero]

theorem lsearch_init_valid (w : List ℚ) (a : List ℚ) (hw : ValidWeights w) :
    random_choice_lsearch_init w a = (none, push_cumulative w.sum w 0 []) := by
  have hn := length_pos_of_valid w hw
  unfold random_choice_lsearch_init
  rw [if_neg (by omega), accumulate_checked_valid w hw]
  simp only []
  rw [if_neg (not_le.mpr hw.2.2), resize_zero]

end walker.detail

namespace walker

/-- In exact arithmetic, each of the floating-point `fill_ft2009`, `fill_walker1977`,
`random_choice_bsearch::init` and `random_choice_lsearch::init` throws
`std::invalid_argument` exactly when the weight vector is empty, or contains a
negative weight, or has a non-positive sum; exactly in the other cases it
returns normally, with a table / array of length `N`. -/
theorem builders_reject_exactly_invalid_weights (w : List ℚ) (t : Table ℚ) (a : List ℚ)
    (tol : ℚ) :
    ((detail.fill_ft2009 w t).1 = some Exn.invalid_argument ↔ InvalidWeights w) ∧
    ((detail.fill_ft2009 w t).1 = none ∧ (detail.fill_ft2009 w t).2.length = w.length
      ↔ ¬ InvalidWeights w) ∧
    ((∃ T, detail.fill_walker1977 w t tol = some (some Exn.invalid_argument, T))
      ↔ InvalidWeights w) ∧
    ((∃ T, detail.fill_walker1977 w t tol = some (none, T) ∧ T.length = w.length)
      ↔ ¬ InvalidWeights w) ∧
    ((detail.random_choice_bsearch_init w a).1 = some Exn.invalid_argument
      ↔ InvalidWeights w) ∧
    ((detail.random_choice_bsearch_init w a).1 = none ∧
        (detail.random_choice_bsearch_init w a).2.length = w.length ↔ ¬ InvalidWeights w) ∧
    ((detail.random_choice_lsearch_init w a).1 = some Exn.invalid_argument
      ↔ InvalidWeights w) ∧
    ((detail.random_choice_lsearch_init w a).1 = none ∧
        (detail.random_choice_lsearch_init w a).2.length = w.length ↔ ¬ InvalidWeights w) := by
  by_cases hw : InvalidWeights w
  · have h1 := detail.fill_ft2009_invalid w t hw
    have h2 := detail.fill_walker1977_invalid w t tol hw
    have h3 := detail.bsearch_init_invalid w a hw
    have h4 := detail.lsearch_init_invalid w a hw
    rw [h1, h2, h3, h4]
    simp [hw]
  · have hv := (detail.valid_iff_not_invalid w).mpr hw
    have h1 := detail.fill_ft2009_valid w t hv
    have h1' := detail.fill_ft2009_length w t hv
    obtain ⟨T, h2, h2'⟩ := detail.fill_walker1977_valid w t tol hv
    have h3 := detail.bsearch_init_valid w a hv
    have h4 := detail.lsearch_init_valid w a hv
    have h5 : (detail.push_cumulative w.sum w 0 []).length = w.length := by
      rw [detail.push_cumulative_length]
      simp
    refine ⟨?_, ?_, ?_, ?_, ?_, ?_, ?_, ?_⟩
    · rw [h1]
      simp [hw]
    · rw [h1'] 
      rw [h1]
      simp [hw]
    · rw [h2]
      simp [hw]
    · rw [h2]
      simp [hw, h2']
    · rw [h3]
      simp [hw]
    · rw [h3]
      simp [hw, h5]
    · rw [h4]
      simp [hw]
    · rw [h4]
      simp [hw, h5]

/-- C7 (failing input): on the empty weight vector the integral `fill_ft2009`
throws `std::range_error`, which is not `std::invalid_argument`, whereas the
floating-point `fill_ft2009` throws `std::invalid_argument` on the same input
and the integral builder itself throws `std::invalid_argument` for a negative
weight and for a non-positive sum. -/
theorem integral_builder_empty_input_throws_range_error (t : Table ℕ) (t' : Table ℚ) :
    (detail.fill_ft2009_integral [] t).1 = some Exn.range_error ∧
    Exn.range_error ≠ Exn.invalid_argument ∧
    (detail.fill_ft2009 [] t').1 = some Exn.invalid_argument ∧
    (detail.fill_ft2009_integral [1, -1] t).1 = some Exn.invalid_argument ∧
    (detail.fill_ft2009_integral [0, 0] t).1 = some Exn.invalid_argument := by
  refine ⟨rfl, by decide, rfl, ?_, ?_⟩
  · rw [detail.fill_ft2009_integral_invalid [1, -1] t
      (Or.inr (Or.inl ⟨-1, by simp, by norm_num⟩))]
    simp
  · rw [detail.fill_ft2009_integral_invalid [0, 0] t (Or.inr (Or.inr (by norm_num)))]
    simp

/-- C8 (as stated) fails: the `tower_sampling` constructor returns a sampler,
and raises nothing, for the weights `[1, -1, 2]` (a negative weight) and for the
weights `[0, 0]` (all zero). -/
theorem tower_sampling_accepts_invalid_weights :
    (∃ s, tower_sampling.construct [1, -1, 2] = .ok s) ∧
    (∃ s, tower_sampling.construct [0, 0] = .ok s) :=
  ⟨⟨_, rfl⟩, ⟨_, rfl⟩⟩

theorem tower_push_length (sum_ : ℚ) (ws : List ℚ) (s : ℚ) (acc : List ℚ) :
    (tower_push sum_ ws s acc).length = acc.length + ws.length := by
  induction ws generalizing s acc with
  | nil => simp [tower_push]
  | cons w ws ih =>
    unfold tower_push
    rw [ih]
    simp
    omega

/-- C8 (amended): the `tower_sampling` constructor performs no validation and
never raises: for every weight range, also one with a negative weight or with
all weights zero, it returns a sampler holding the sum of the weights and a
table with one entry per weight. -/
theorem tower_sampling_never_raises (w : List ℚ) :
    ∃ s, tower_sampling.construct w = .ok s ∧ s.sum_ = w.sum ∧
      s.table_.length = w.length := by
  refine ⟨_, rfl, rfl, ?_⟩
  show (tower_push w.sum w 0 []).length = w.length
  rw [tower_push_length]
  simp

end walker

namespace walker

/-- C9: construction is atomic on failure.  Whenever `fill_ft2009` (floating or
integral cutoff), `fill_walker1977`, `random_choice_bsearch::init` or
`random_choice_lsearch::init` throws, the table / cumulative array it was given
is exactly what it was before the call. -/
theorem builders_leave_table_untouched_on_failure (w : List ℚ) (t : Table ℚ) (ti : Table ℕ)
    (a : List ℚ) (tol : ℚ) :
    ((detail.fill_ft2009 w t).1 ≠ none → (detail.fill_ft2009 w t).2 = t) ∧
    ((detail.fill_ft2009_integral w ti).1 ≠ none → (detail.fill_ft2009_integral w ti).2 = ti) ∧
    (∀ r, detail.fill_walker1977 w t tol = some r → r.1 ≠ none → r.2 = t) ∧
    ((detail.random_choice_bsearch_init w a).1 ≠ none →
      (detail.random_choice_bsearch_init w a).2 = a) ∧
    ((detail.random_choice_lsearch_init w a).1 ≠ none →
      (detail.random_choice_lsearch_init w a).2 = a) := by
  by_cases hw : InvalidWeights w
  · rw [detail.fill_ft2009_invalid w t hw, detail.fill_ft2009_integral_invalid w ti hw,
      detail.fill_walker1977_invalid w t tol hw, detail.bsearch_init_invalid w a hw,
      detail.lsearch_init_invalid w a hw]
    refine ⟨fun _ => rfl, fun _ => rfl, ?_, fun _ => rfl, fun _ => rfl⟩
    intro r hr _
    simp only [Option.some.injEq] at hr
    rw [← hr]
  · have hv := (detail.valid_iff_not_invalid w).mpr hw
    obtain ⟨T, h2, _⟩ := detail.fill_walker1977_valid w t tol hv
    rw [detail.fill_ft2009_valid w t hv, detail.fill_ft2009_integral_valid w ti hv, h2,
      detail.bsearch_init_valid w a hv, detail.lsearch_init_valid w a hv]
    refine ⟨fun h => absurd rfl h, fun h => absurd rfl h, ?_, fun h => absurd rfl h,
      fun h => absurd rfl h⟩
    intro r hr hne
    simp only [Option.some.injEq] at hr
    rw [← hr] at hne
    exact absurd rfl hne

theorem builders_leave_table_untouched_on_failure_witness :
    (detail.fill_ft2009 [1, -1] [(1 / 2, 7)]).1 ≠ none ∧
    (detail.fill_ft2009 [1, -1] [(1 / 2, 7)]).2 = [(1 / 2, 7)] ∧
    (detail.fill_ft2009_integral [1, -1] [(5, 7)]).1 ≠ none ∧
    (detail.fill_ft2009_integral [1, -1] [(5, 7)]).2 = [(5, 7)] ∧
    (∃ r, detail.fill_walker1977 [1, -1] [(1 / 2, 7)] (1 / 10 ^ 10) = some r ∧ r.1 ≠ none ∧
      r.2 = [(1 / 2, 7)]) ∧
    (detail.random_choice_bsearch_init [1, -1] [1 / 3, 1]).1 ≠ none ∧
    (detail.random_choice_bsearch_init [1, -1] [1 / 3, 1]).2 = [1 / 3, 1] ∧
    (detail.random_choice_lsearch_init [1, -1] [1 / 3, 1]).1 ≠ none ∧
    (detail.random_choice_lsearch_init [1, -1] [1 / 3, 1]).2 = [1 / 3, 1] :=
  have h := builders_leave_table_untouched_on_failure [1, -1] [(1 / 2, 7)] [(5, 7)]
    [1 / 3, 1] (1 / 10 ^ 10)
  have hinv : InvalidWeights [1, -1] := Or.inr (Or.inl ⟨-1, by simp, by norm_num⟩)
  have h1 : (detail.fill_ft2009 [1, -1] [(1 / 2, 7)]).1 ≠ none := by
    rw [detail.fill_ft2009_invalid _ _ hinv]
    simp
  have h2 : (detail.fill_ft2009_integral [1, -1] [(5, 7)]).1 ≠ none := by
    rw [detail.fill_ft2009_integral_invalid _ _ hinv]
    simp
  have h3 := detail.fill_walker1977_invalid [1, -1] [(1 / 2, 7)] (1 / 10 ^ 10) hinv
  have h4 : (detail.random_choice_bsearch_init [1, -1] [1 / 3, 1]).1 ≠ none := by
    rw [detail.bsearch_init_invalid _ _ hinv]
    simp
  have h5 : (detail.random_choice_lsearch_init [1, -1] [1 / 3, 1]).1 ≠ none := by
    rw [detail.lsearch_init_invalid _ _ hinv]
    simp
  ⟨h1, h.1 h1, h2, h.2.1 h2, ⟨_, h3, by simp, h.2.2.1 _ h3 (by simp)⟩,
    h4, h.2.2.2.1 h4, h5, h.2.2.2.2 h5⟩

/-- C10 (as stated) fails: for the valid one-element weight vector `[1]` the
integral `fill_ft2009` builds a table of length `2`, although `2^0 = 1` is a
smaller power of two that is `≥ N = 1`. -/
theorem integral_table_length_not_least_power_of_two :
    (detail.fill_ft2009_integral [1] []).1 = none ∧
    (detail.fill_ft2009_integral [1] []).2.length = 2 ∧
    ([1] : List ℚ).length ≤ 2 ^ 0 ∧
    2 ^ 0 < (detail.fill_ft2009_integral [1] []).2.length := by
  decide!

/-- C10 (amended): for every valid weight vector of length `N ≥ 1` the table
built by the integral `fill_ft2009` has length `M = 2^k` with `k ≥ 1`, `M ≥ N`,
and `M` is the smallest power of two that is both `≥ N` and `≥ 2`; in
particular `M` is the smallest power of two `≥ N` whenever `N ≥ 2`. -/
theorem integral_table_length_least_power_of_two_from_two (w : List ℚ) (t : Table ℕ)
    (hw : ValidWeights w) :
    ∃ k, 1 ≤ k ∧ (detail.fill_ft2009_integral w t).2.length = 2 ^ k ∧
      w.length ≤ 2 ^ k ∧
      (∀ k', 2 ≤ 2 ^ k' → w.length ≤ 2 ^ k' → 2 ^ k ≤ 2 ^ k') ∧
      (2 ≤ w.length → ∀ k', w.length ≤ 2 ^ k' → 2 ^ k ≤ 2 ^ k') := by
  obtain ⟨k, hk1, hk2, hk3, hk4⟩ := detail.grow_pow2_two w.length
  have hmin : ∀ k', 2 ≤ 2 ^ k' → w.length ≤ 2 ^ k' → 2 ^ k ≤ 2 ^ k' := by
    intro k' h2 hn
    have hk' : 1 ≤ k' := by
      rcases Nat.eq_zero_or_pos k' with h | h
      · rw [h] at h2
        norm_num at h2
      · exact h
    exact Nat.pow_le_pow_right (by norm_num) (hk4 k' hk' hn)
  refine ⟨k, hk1, ?_, hk3, hmin, ?_⟩
  · rw [detail.fill_ft2009_integral_length w t hw, hk2]
  · intro hN k' hn
    exact hmin k' (by omega) hn

theorem integral_table_length_least_power_of_two_from_two_witness :
    ValidWeights [1, 2, 3] ∧
    ∃ k, 1 ≤ k ∧ (detail.fill_ft2009_integral [1, 2, 3] []).2.length = 2 ^ k ∧
      ([1, 2, 3] : List ℚ).length ≤ 2 ^ k ∧
      (∀ k', 2 ≤ 2 ^ k' → ([1, 2, 3] : List ℚ).length ≤ 2 ^ k' → 2 ^ k ≤ 2 ^ k') ∧
      (2 ≤ ([1, 2, 3] : List ℚ).length →
        ∀ k', ([1, 2, 3] : List ℚ).length ≤ 2 ^ k' → 2 ^ k ≤ 2 ^ k') :=
  have hv : ValidWeights [1, 2, 3] :=
    ⟨by simp, by
      intro x hx
      simp only [List.mem_cons, List.mem_singleton, List.not_mem_nil, or_false] at hx
      rcases hx with rfl | rfl | rfl <;> norm_num, by norm_num⟩
  ⟨hv, integral_table_length_least_power_of_two_from_two [1, 2, 3] [] hv⟩

end walker

namespace walker.detail

/-! ## The shift count of the integral sampler -/

theorem construct_integral_bits (w : List ℚ) (s : random_choice_walker_integral)
    (hs : random_choice_walker_integral.construct w = .ok s) :
    s.bits_ = (((31 : ℤ) - Int.log 2 ((s.table_.length : ℚ) - 1 / 2)) % 2 ^ 32).toNat := by
  unfold random_choice_walker_integral.construct at hs
  generalize fill_ft2009_integral w [] = res at hs
  obtain ⟨o, t⟩ := res
  cases o with
  | none =>
    simp only [Except.ok.injEq] at hs
    rw [← hs]
  | some e =>
    simp at hs

end walker.detail

namespace walker.detail

theorem construct_integral_valid (w : List ℚ) (hw : ValidWeights w) :
    ∃ s, random_choice_walker_integral.construct w = .ok s ∧
      s.table_ = (fill_ft2009_integral w []).2 := by
  have h := fill_ft2009_integral_valid w [] hw
  unfold random_choice_walker_integral.construct
  rw [h]
  exact ⟨_, rfl, rfl⟩

end walker.detail

namespace walker

end walker

namespace walker

/-- C12 (as stated) fails: the integral sampler built on the weights `[1, 3]`,
given two engines whose first raw output is the same (`0`) and whose second
outputs differ (`0` and `4000000000`), returns different indices (`0` and `1`),
and each call has advanced the engine by two outputs: the accept/reject value is
a second draw, not the low-order bits of the first. -/
theorem integral_sampler_uses_second_draw :
    (detail.random_choice_walker_integral.construct [1, 3]).toOption.map
        (fun s => s.call (fun i => if i = 0 then 0 else 0) 0) = some (0, 2) ∧
    (detail.random_choice_walker_integral.construct [1, 3]).toOption.map
        (fun s => s.call (fun i => if i = 0 then 0 else 4000000000) 0) = some (1, 2) := by
  decide!

/-- C12 (amended): the integral sampler consumes exactly two raw integers of the
random source per sample.  The bucket index is the first draw shifted right by
`bits_` (its high-order bits; the low-order bits are discarded), the
accept/reject value is the whole second draw, and the result depends on no
other output of the source. -/
theorem integral_sampler_consumes_two_draws (s : detail.random_choice_walker_integral)
    (eng eng' : ℕ → ℕ) (pos : ℕ) (h1 : eng pos = eng' pos)
    (h2 : eng (pos + 1) = eng' (pos + 1)) :
    s.call eng pos = s.call eng' pos ∧
    (s.call eng pos).2 = pos + 2 ∧
    (s.call eng pos).1
      = if eng (pos + 1) < s.cutoff (eng pos >>> s.bits_) then eng pos >>> s.bits_
        else s.alias (eng pos >>> s.bits_) := by
  refine ⟨?_, rfl, rfl⟩
  unfold detail.random_choice_walker_integral.call
  rw [h1, h2]

theorem integral_sampler_consumes_two_draws_witness :
    (fun i : ℕ => if i < 2 then 5 else 7) 0 = (fun i : ℕ => if i < 2 then 5 else 9) 0 ∧
    (fun i : ℕ => if i < 2 then 5 else 7) (0 + 1)
      = (fun i : ℕ => if i < 2 then 5 else 9) (0 + 1) ∧
    (({ bits_ := 31, table_ := [(2147483647, 1), (4294967295, 1)] } :
        detail.random_choice_walker_integral).call (fun i : ℕ => if i < 2 then 5 else 7) 0
      = ({ bits_ := 31, table_ := [(2147483647, 1), (4294967295, 1)] } :
        detail.random_choice_walker_integral).call (fun i : ℕ => if i < 2 then 5 else 9) 0 ∧
    (({ bits_ := 31, table_ := [(2147483647, 1), (4294967295, 1)] } :
        detail.random_choice_walker_integral).call
          (fun i : ℕ => if i < 2 then 5 else 7) 0).2 = 0 + 2 ∧
    (({ bits_ := 31, table_ := [(2147483647, 1), (4294967295, 1)] } :
        detail.random_choice_walker_integral).call
          (fun i : ℕ => if i < 2 then 5 else 7) 0).1
      = if (fun i : ℕ => if i < 2 then 5 else 7) (0 + 1)
            < ({ bits_ := 31, table_ := [(2147483647, 1), (4294967295, 1)] } :
                detail.random_choice_walker_integral).cutoff
              ((fun i : ℕ => if i < 2 then 5 else 7) 0
                >>> ({ bits_ := 31, table_ := [(2147483647, 1), (4294967295, 1)] } :
                  detail.random_choice_walker_integral).bits_)
        then (fun i : ℕ => if i < 2 then 5 else 7) 0
              >>> ({ bits_ := 31, table_ := [(2147483647, 1), (4294967295, 1)] } :
                detail.random_choice_walker_integral).bits_
        else ({ bits_ := 31, table_ := [(2147483647, 1), (4294967295, 1)] } :
                detail.random_choice_walker_integral).alias
              ((fun i : ℕ => if i < 2 then 5 else 7) 0
                >>> ({ bits_ := 31, table_ := [(2147483647, 1), (4294967295, 1)] } :
                  detail.random_choice_walker_integral).bits_)) :=
  ⟨by decide, by decide,
    integral_sampler_consumes_two_draws
      { bits_ := 31, table_ := [(2147483647, 1), (4294967295, 1)] }
      (fun i => if i < 2 then 5 else 7) (fun i => if i < 2 then 5 else 9) 0
      (by decide) (by decide)⟩

end walker

namespace walker.detail

/-! ## The cumulative arrays -/

theorem push_cumulative_eq (norm : ℚ) (ws : List ℚ) (a : ℚ) (acc : List ℚ) :
    push_cumulative norm ws a acc
      = acc ++ (List.range ws.length).map (fun i => a + (ws.take (i + 1)).sum / norm) := by
  induction ws generalizing a acc with
  | nil => simp [push_cumulative]
  | cons w ws ih =>
    unfold push_cumulative
    rw [ih, List.length_cons, List.range_succ_eq_map, List.map_cons, List.map_map,
      List.append_assoc]
    congr 1
    simp only [List.singleton_append, zero_add, List.take_succ_cons, List.take_zero,
      List.sum_cons, List.sum_nil, add_zero, List.cons.injEq, true_and]
    apply List.map_congr_left
    intro i _
    simp only [Function.comp_apply, List.take_succ_cons, List.sum_cons]
    ring

theorem tower_push_eq (sum_ : ℚ) (ws : List ℚ) (s : ℚ) (acc : List ℚ) :
    tower_push sum_ ws s acc
      = acc ++ (List.range ws.length).map (fun i => (s + (ws.take (i + 1)).sum) / sum_) := by
  induction ws generalizing s acc with
  | nil => simp [tower_push]
  | cons w ws ih =>
    unfold tower_push
    rw [ih, List.length_cons, List.range_succ_eq_map, List.map_cons, List.map_map,
      List.append_assoc]
    congr 1
    simp only [List.singleton_append, zero_add, List.take_succ_cons, List.take_zero,
      List.sum_cons, List.sum_nil, add_zero, List.cons.injEq, true_and]
    apply List.map_congr_left
    intro i _
    simp only [Function.comp_apply, List.take_succ_cons, List.sum_cons]
    ring

theorem push_cumulative_eq_cumulative (w : List ℚ) :
    push_cumulative w.sum w 0 [] = cumulative w := by
  rw [push_cumulative_eq]
  simp [cumulative]

theorem tower_push_eq_cumulative (w : List ℚ) :
    tower_push w.sum w 0 [] = cumulative w := by
  rw [tower_push_eq]
  simp [cumulative]

theorem cumulative_length (w : List ℚ) : (cumulative w).length = w.length := by
  simp [cumulative]

theorem cumulative_getD (w : List ℚ) (i : ℕ) (hi : i < w.length) :
    (cumulative w).getD i 0 = (w.take (i + 1)).sum / w.sum := by
  rw [List.getD_eq_getElem _ _ (by rw [cumulative_length]; exact hi)]
  simp [cumulative]

theorem sum_nonneg_of_nonneg (l : List ℚ) (h : ∀ x ∈ l, 0 ≤ x) : 0 ≤ l.sum :=
  List.sum_nonneg h

theorem take_sum_mono (w : List ℚ) (hw : ∀ x ∈ w, 0 ≤ x) (i j : ℕ) (hij : i ≤ j) :
    (w.take i).sum ≤ (w.take j).sum := by
  have h1 := List.sum_take_add_sum_drop (w.take j) i
  rw [List.take_take, min_eq_left hij] at h1
  have h2 : 0 ≤ ((w.take j).drop i).sum := by
    apply List.sum_nonneg
    intro x hx
    exact hw x (List.mem_of_mem_take (List.mem_of_mem_drop hx))
  linarith

theorem take_sum_le_sum (w : List ℚ) (hw : ∀ x ∈ w, 0 ≤ x) (i : ℕ) :
    (w.take i).sum ≤ w.sum := by
  have h1 := List.sum_take_add_sum_drop w i
  have h2 : 0 ≤ (w.drop i).sum := by
    apply List.sum_nonneg
    intro x hx
    exact hw x (List.mem_of_mem_drop hx)
  linarith

theorem cumulative_sorted (w : List ℚ) (hw : ValidWeights w) :
    (cumulative w).Sorted (· ≤ ·) := by
  unfold cumulative List.Sorted
  rw [List.pairwise_map]
  apply List.Pairwise.imp _ (List.pairwise_lt_range w.length)
  intro i j hij
  apply div_le_div_of_nonneg_right _ (le_of_lt hw.2.2)
  exact take_sum_mono w hw.2.1 _ _ (by omega)

theorem cumulative_last (w : List ℚ) (hw : ValidWeights w) :
    (cumulative w).getD (w.length - 1) 0 = 1 := by
  have hn := length_pos_of_valid w hw
  rw [cumulative_getD w _ (by omega)]
  have : w.length - 1 + 1 = w.length := by omega
  rw [this, List.take_length]
  exact div_self (ne_of_gt hw.2.2)

theorem cumulative_bounds (w : List ℚ) (hw : ValidWeights w) (i : ℕ) (hi : i < w.length) :
    0 ≤ (cumulative w).getD i 0 ∧ (cumulative w).getD i 0 ≤ 1 := by
  rw [cumulative_getD w i hi]
  constructor
  · exact div_nonneg (List.sum_nonneg (fun x hx => hw.2.1 x (List.mem_of_mem_take hx)))
      (le_of_lt hw.2.2)
  · rw [div_le_one hw.2.2]
    exact take_sum_le_sum w hw.2.1 _

theorem sum_pos_iff_exists_pos (l : List ℚ) (h : ∀ x ∈ l, 0 ≤ x) :
    0 < l.sum ↔ ∃ x ∈ l, 0 < x := by
  induction l with
  | nil => simp
  | cons a l ih =>
    have ha : 0 ≤ a := h a (List.mem_cons_self _ _)
    have hl : ∀ x ∈ l, 0 ≤ x := fun x hx => h x (List.mem_cons_of_mem _ hx)
    have hs := List.sum_nonneg hl
    rw [List.sum_cons]
    constructor
    · intro hpos
      by_cases ha0 : 0 < a
      · exact ⟨a, List.mem_cons_self _ _, ha0⟩
      · have : 0 < l.sum := by linarith
        obtain ⟨x, hx, hx0⟩ := (ih hl).mp this
        exact ⟨x, List.mem_cons_of_mem _ hx, hx0⟩
    · rintro ⟨x, hx, hx0⟩
      rcases List.mem_cons.mp hx with rfl | hx
      · linarith
      · have := (ih hl).mpr ⟨x, hx, hx0⟩
        linarith

theorem cumulative_pos_iff (w : List ℚ) (hw : ValidWeights w) (i : ℕ) (hi : i < w.length) :
    0 < (cumulative w).getD i 0 ↔ ∃ j, j ≤ i ∧ 0 < w.getD j 0 := by
  rw [cumulative_getD w i hi, div_pos_iff_of_pos_right hw.2.2,
    sum_pos_iff_exists_pos _ (fun x hx => hw.2.1 x (List.mem_of_mem_take hx))]
  constructor
  · rintro ⟨x, hx, hx0⟩
    obtain ⟨j, hj, rfl⟩ := List.getElem_of_mem hx
    rw [List.length_take] at hj
    refine ⟨j, by omega, ?_⟩
    rw [List.getElem_take] at hx0
    rw [List.getD_eq_getElem _ _ (by omega)]
    exact hx0
  · rintro ⟨j, hj, hj0⟩
    rw [List.getD_eq_getElem _ _ (by omega)] at hj0
    refine ⟨w[j], ?_, hj0⟩
    rw [List.mem_take_iff_getElem]
    exact ⟨j, by rw [Nat.lt_min]; omega, rfl⟩

end walker.detail

namespace walker.detail

theorem valid_pair_zero_one : ValidWeights [0, 1] :=
  ⟨by simp, by
    intro x hx
    simp only [List.mem_cons, List.mem_singleton, List.not_mem_nil, or_false] at hx
    rcases hx with rfl | rfl <;> norm_num, by norm_num⟩

theorem valid_one_two_three_four : ValidWeights [1, 2, 3, 4] :=
  ⟨by simp, by
    intro x hx
    simp only [List.mem_cons, List.mem_singleton, List.not_mem_nil, or_false] at hx
    rcases hx with rfl | rfl | rfl | rfl <;> norm_num, by norm_num⟩

end walker.detail

namespace walker

/-- C13: in exact arithmetic, for every valid weight vector `w` of length `N`
the array built by `random_choice_bsearch::init`, by
`random_choice_lsearch::init` and by the `tower_sampling` constructor is the
same array; it has length `N`, its entry `i` is `(w_0 + ... + w_i) / sum w`, it is
non-decreasing and its last entry is `1`. -/
theorem cumulative_arrays_are_normalized_prefix_sums (w : List ℚ) (a : List ℚ)
    (hw : ValidWeights w) :
    detail.random_choice_bsearch_init w a = (none, cumulative w) ∧
    detail.random_choice_lsearch_init w a = (none, cumulative w) ∧
    tower_sampling.construct w = .ok { sum_ := w.sum, table_ := cumulative w } ∧
    (cumulative w).length = w.length ∧
    (∀ i, i < w.length → (cumulative w).getD i 0 = (w.take (i + 1)).sum / w.sum) ∧
    (cumulative w).Sorted (· ≤ ·) ∧
    (cumulative w).getD (w.length - 1) 0 = 1 := by
  refine ⟨?_, ?_, ?_, detail.cumulative_length w, detail.cumulative_getD w,
    detail.cumulative_sorted w hw, detail.cumulative_last w hw⟩
  · rw [detail.bsearch_init_valid w a hw, detail.push_cumulative_eq_cumulative]
  · rw [detail.lsearch_init_valid w a hw, detail.push_cumulative_eq_cumulative]
  · unfold tower_sampling.construct
    simp only []
    rw [detail.tower_push_eq_cumulative]

theorem cumulative_arrays_are_normalized_prefix_sums_witness :
    ValidWeights [1, 2, 3, 4] ∧
    (detail.random_choice_bsearch_init [1, 2, 3, 4] [7] = (none, cumulative [1, 2, 3, 4]) ∧
    detail.random_choice_lsearch_init [1, 2, 3, 4] [7] = (none, cumulative [1, 2, 3, 4]) ∧
    tower_sampling.construct [1, 2, 3, 4]
      = .ok { sum_ := ([1, 2, 3, 4] : List ℚ).sum, table_ := cumulative [1, 2, 3, 4] } ∧
    (cumulative [1, 2, 3, 4]).length = ([1, 2, 3, 4] : List ℚ).length ∧
    (∀ i, i < ([1, 2, 3, 4] : List ℚ).length →
      (cumulative [1, 2, 3, 4]).getD i 0
        = (([1, 2, 3, 4] : List ℚ).take (i + 1)).sum / ([1, 2, 3, 4] : List ℚ).sum) ∧
    (cumulative [1, 2, 3, 4]).Sorted (· ≤ ·) ∧
    (cumulative [1, 2, 3, 4]).getD (([1, 2, 3, 4] : List ℚ).length - 1) 0 = 1) :=
  ⟨detail.valid_one_two_three_four,
    cumulative_arrays_are_normalized_prefix_sums [1, 2, 3, 4] [7]
      detail.valid_one_two_three_four⟩

/-- C14 (as stated) fails: for the valid weight vector `[0, 1]` both `init`
functions return normally and build the array `[0, 1]`, whose first entry `0`
is not in the half-open interval `(0, 1]`. -/
theorem cumulative_entry_can_be_zero :
    detail.random_choice_bsearch_init [0, 1] [] = (none, [0, 1]) ∧
    detail.random_choice_lsearch_init [0, 1] [] = (none, [0, 1]) ∧
    ¬ (0 < ([0, 1] : List ℚ).getD 0 0 ∧ ([0, 1] : List ℚ).getD 0 0 ≤ 1) := by
  decide!

/-- C14 (amended): in exact arithmetic, for every valid weight vector, every
entry of the cumulative array built by `random_choice_bsearch::init` / `random_choice_lsearch::init`
lies in the closed interval `[0, 1]`, and entry `i` is positive exactly when one
of the weights `w_0, ..., w_i` is positive (so every entry is in `(0, 1]` when
`w_0 > 0`). -/
theorem cumulative_entries_in_unit_interval (w : List ℚ) (a : List ℚ) (hw : ValidWeights w) :
    (detail.random_choice_bsearch_init w a).1 = none ∧
    (detail.random_choice_lsearch_init w a).2 = (detail.random_choice_bsearch_init w a).2 ∧
    (detail.random_choice_bsearch_init w a).2.length = w.length ∧
    ∀ i, i < w.length →
      0 ≤ (detail.random_choice_bsearch_init w a).2.getD i 0 ∧
      (detail.random_choice_bsearch_init w a).2.getD i 0 ≤ 1 ∧
      (0 < (detail.random_choice_bsearch_init w a).2.getD i 0
        ↔ ∃ j, j ≤ i ∧ 0 < w.getD j 0) := by
  rw [detail.bsearch_init_valid w a hw, detail.lsearch_init_valid w a hw,
    detail.push_cumulative_eq_cumulative]
  refine ⟨rfl, rfl, detail.cumulative_length w, ?_⟩
  intro i hi
  exact ⟨(detail.cumulative_bounds w hw i hi).1, (detail.cumulative_bounds w hw i hi).2,
    detail.cumulative_pos_iff w hw i hi⟩

theorem cumulative_entries_in_unit_interval_witness :
    ValidWeights [0, 1] ∧
    ((detail.random_choice_bsearch_init [0, 1] []).1 = none ∧
    (detail.random_choice_lsearch_init [0, 1] []).2
      = (detail.random_choice_bsearch_init [0, 1] []).2 ∧
    (detail.random_choice_bsearch_init [0, 1] []).2.length = ([0, 1] : List ℚ).length ∧
    ∀ i, i < ([0, 1] : List ℚ).length →
      0 ≤ (detail.random_choice_bsearch_init [0, 1] []).2.getD i 0 ∧
      (detail.random_choice_bsearch_init [0, 1] []).2.getD i 0 ≤ 1 ∧
      (0 < (detail.random_choice_bsearch_init [0, 1] []).2.getD i 0
        ↔ ∃ j, j ≤ i ∧ 0 < ([0, 1] : List ℚ).getD j 0)) :=
  ⟨detail.valid_pair_zero_one,
    cumulative_entries_in_unit_interval [0, 1] [] detail.valid_pair_zero_one⟩

end walker

namespace walker.detail

/-! ## The three cumulative samplers -/

theorem bsearch_call_spec (accum : List ℚ) (p : ℚ)
    (hs : accum.Sorted (· ≤ ·)) :
    ∃ r, (∀ fuel, accum.length ≤ fuel →
        random_choice_bsearch_call accum p fuel = some r) ∧
      ((r < accum.length ∧ accum.getD r 0 > p ∧ ∀ i, i < r → ¬ accum.getD i 0 > p) ∨
       (r = accum.length ∧ ∀ i, i < accum.length → ¬ accum.getD i 0 > p)) := by
  have hsh : ∀ x : ℤ, x >>> (1 : ℕ) = x / 2 := by
    intro x
    rw [Int.shiftRight_eq_div_pow]
    simp
  rcases Nat.lt_or_ge accum.length 2 with hlt | hge
  · rcases Nat.eq_zero_or_pos accum.length with h0 | h1
    · refine ⟨0, ?_, Or.inr ⟨h0.symm, fun i hi => by omega⟩⟩
      intro fuel _
      simp [random_choice_bsearch_call, h0]
    · have h1' : accum.length = 1 := by omega
      by_cases q0 : p < accum.getD 0 0
      · refine ⟨0, ?_, Or.inl ⟨by omega, q0, fun i hi => by omega⟩⟩
        intro fuel _
        unfold random_choice_bsearch_call
        simp only [h1', Int.toNat_zero]
        rw [if_neg (by norm_num), if_pos (by norm_num), if_pos q0]
      · refine ⟨1, ?_, Or.inr ⟨h1'.symm, ?_⟩⟩
        · intro fuel _
          unfold random_choice_bsearch_call
          simp only [h1', Int.toNat_zero]
          rw [if_neg (by norm_num), if_pos (by norm_num), if_neg q0]
          rfl
        · intro i hi
          have : i = 0 := by omega
          rw [this]
          exact q0
  · have key : ∀ fuel, accum.length ≤ fuel → ∃ r : ℤ,
        bsearch_loop accum p fuel 0 accum.length
          (0 + (((accum.length : ℤ) - 0) >>> (1 : ℕ))) = some r ∧ 0 ≤ r ∧
        r ≤ accum.length ∧
        (∀ i : ℕ, (i : ℤ) < r → accum.getD i 0 ≤ p) ∧
        (∀ i : ℕ, (i : ℤ) = r → i < accum.length → p < accum.getD i 0) := by
      intro fuel hf
      exact bsearch_loop_spec accum p hs fuel 0 accum.length le_rfl le_rfl
        (by omega) (by omega) (fun i hi => by omega) (fun i hi hin => by omega)
    obtain ⟨r, hr, hr0, hrn, hlo, hhi⟩ := key accum.length le_rfl
    have hcall : ∀ fuel, accum.length ≤ fuel →
        random_choice_bsearch_call accum p fuel = some r.toNat := by
      intro fuel hf
      obtain ⟨r', hr', _, _, hlo', hhi'⟩ := key fuel hf
      have hrr : r' = r := by
        rcases lt_trichotomy r' r with h | h | h
        · exfalso
          have h1 := hlo r'.toNat (by omega)
          have h2 := hhi' r'.toNat (by omega) (by omega)
          exact absurd h2 (not_lt.mpr h1)
        · exact h
        · exfalso
          have h1 := hlo' r.toNat (by omega)
          have h2 := hhi r.toNat (by omega) (by omega)
          exact absurd h2 (not_lt.mpr h1)
      unfold random_choice_bsearch_call
      simp only []
      rw [if_neg (by omega), if_neg (by omega), hr', hrr]
      rfl
    refine ⟨r.toNat, hcall, ?_⟩
    by_cases hlt : r.toNat < accum.length
    · exact Or.inl ⟨hlt, hhi r.toNat (by omega) hlt,
        fun i hi => not_lt.mpr (hlo i (by omega))⟩
    · exact Or.inr ⟨by omega, fun i hi => not_lt.mpr (hlo i (by omega))⟩

theorem leastAbove_unique (a : List ℚ) (p : ℚ) (r r' : ℕ) (h : LeastAbove a p r)
    (h' : LeastAbove a p r') : r = r' := by
  obtain ⟨h1, h2, h3⟩ := h
  obtain ⟨h1', h2', h3'⟩ := h'
  rcases Nat.lt_trichotomy r r' with hlt | heq | hgt
  · exact absurd (h3 (by omega)) (h2' r hlt)
  · exact heq
  · exact absurd (h3' (by omega)) (h2 r' hgt)

theorem bsearch_call_leastAbove (accum : List ℚ) (p : ℚ) (hs : accum.Sorted (· ≤ ·)) :
    ∃ r, LeastAbove accum p r ∧
      ∀ fuel, accum.length ≤ fuel → random_choice_bsearch_call accum p fuel = some r := by
  obtain ⟨r, hr, h | h⟩ := bsearch_call_spec accum p hs
  · exact ⟨r, ⟨by omega, h.2.2, fun _ => h.2.1⟩, hr⟩
  · exact ⟨r, ⟨by omega, by rw [h.1]; exact h.2, fun hlt => by omega⟩, hr⟩

theorem lsearch_scan_spec (a : List ℚ) (x : ℚ) :
    ∀ (k r r0 : ℕ), r ≤ r0 → r0 < r + k → a.getD r0 0 > x →
      (∀ i, r ≤ i → i < r0 → ¬ a.getD i 0 > x) → lsearch_scan a x k r = r0 := by
  intro k
  induction k with
  | zero =>
    intro r r0 h1 h2
    omega
  | succ k ih =>
    intro r r0 h1 h2 h3 h4
    unfold lsearch_scan
    by_cases hr : r = r0
    · subst hr
      rw [if_pos h3]
    · rw [if_neg (h4 r le_rfl (by omega))]
      exact ih (r + 1) r0 (by omega) (by omega) h3 (fun i hi hi' => h4 i (by omega) hi')

theorem lsearch_call_leastAbove (a : List ℚ) (p : ℚ) (r : ℕ) (h : LeastAbove a p r)
    (hr : r < a.length) : random_choice_lsearch_call a p = r := by
  unfold random_choice_lsearch_call
  exact lsearch_scan_spec a p a.length 0 r (Nat.zero_le _) (by omega) (h.2.2 hr)
    (fun i _ hi => h.2.1 i hi)

end walker.detail

namespace walker

theorem upper_bound_loop_spec (a : List ℚ) (p : ℚ) (hs : a.Sorted (· ≤ ·)) :
    ∀ (len first : ℕ), first + len ≤ a.length → (∀ i, i < first → a.getD i 0 ≤ p) →
      (∀ i, first + len ≤ i → i < a.length → p < a.getD i 0) →
      first ≤ upper_bound_loop a p first len ∧
      upper_bound_loop a p first len ≤ first + len ∧
      (∀ i, i < upper_bound_loop a p first len → a.getD i 0 ≤ p) ∧
      (∀ i, upper_bound_loop a p first len ≤ i → i < a.length → p < a.getD i 0) := by
  intro len
  induction len using Nat.strong_induction_on with
  | _ len ih =>
    intro first hlen hlo hhi
    rw [upper_bound_loop]
    by_cases hpos : len > 0
    · rw [dif_pos hpos]
      simp only []
      have hhalf : len >>> 1 = len / 2 := by
        rw [Nat.shiftRight_eq_div_pow]
      rw [hhalf]
      by_cases hp : p < a.getD (first + len / 2) 0
      · rw [if_pos hp]
        have := ih (len / 2) (by omega) first (by omega) hlo (by
          intro i hi hin
          exact lt_of_lt_of_le hp (detail.getD_mono_of_sorted a hs _ _ hi hin))
        exact ⟨this.1, by omega, this.2.2.1, this.2.2.2⟩
      · rw [if_neg hp]
        have := ih (len - len / 2 - 1) (by omega) (first + len / 2 + 1) (by omega) (by
          intro i hi
          exact le_trans (detail.getD_mono_of_sorted a hs _ _ (by omega) (by omega))
            (not_lt.mp hp)) (by
          intro i hi hin
          exact hhi i (by omega) hin)
        exact ⟨by omega, by omega, this.2.2.1, this.2.2.2⟩
    · rw [dif_neg hpos]
      have : len = 0 := by omega
      subst this
      exact ⟨le_rfl, by omega, hlo, fun i hi hin => hhi i (by omega) hin⟩

theorem upper_bound_leastAbove (a : List ℚ) (p : ℚ) (hs : a.Sorted (· ≤ ·)) :
    LeastAbove a p (upper_bound a p) := by
  have h := upper_bound_loop_spec a p hs a.length 0 (by omega) (fun i hi => by omega)
    (fun i hi hin => by omega)
  unfold upper_bound
  refine ⟨by omega, fun i hi => not_lt.mpr (h.2.2.1 i hi), fun hlt => h.2.2.2 _ le_rfl hlt⟩

end walker

namespace walker

/-- The three cumulative samplers on the cumulative array of a valid weight
vector, for a draw below `1`. -/
theorem cumulative_samplers_on_cumulative (w : List ℚ) (hw : ValidWeights w) (p : ℚ)
    (hp : p < 1) :
    ∃ r, r < w.length ∧ LeastAbove (cumulative w) p r ∧
      (∀ fuel, w.length ≤ fuel →
        detail.random_choice_bsearch_call (cumulative w) p fuel = some r) ∧
      detail.random_choice_lsearch_call (cumulative w) p = r ∧
      upper_bound (cumulative w) p = r := by
  have hs := detail.cumulative_sorted w hw
  have hl := detail.cumulative_length w
  have hn := detail.length_pos_of_valid w hw
  obtain ⟨r, hr, hcall⟩ := detail.bsearch_call_leastAbove (cumulative w) p hs
  have hrn : r < w.length := by
    by_contra hge
    have h1 := hr.2.1 (w.length - 1) (by omega)
    rw [detail.cumulative_last w hw] at h1
    exact h1 hp
  refine ⟨r, hrn, hr, ?_, ?_, ?_⟩
  · intro fuel hf
    exact hcall fuel (by omega)
  · exact detail.lsearch_call_leastAbove _ _ _ hr (by omega)
  · exact detail.leastAbove_unique _ _ _ _ (upper_bound_leastAbove _ _ hs) hr

/-- C15: in exact arithmetic, for every valid weight vector `w` of length `N`
and every draw `p < 1`, `random_choice_bsearch` (allowed `N` loop iterations or
more), `random_choice_lsearch` and `tower_sampling` return the same index `r`,
which is below `N` and is the smallest `i` with `(w_0 + ... + w_i) / sum w > p`. -/
theorem cumulative_samplers_agree (w : List ℚ) (a : List ℚ) (hw : ValidWeights w) (p : ℚ)
    (hp : p < 1) :
    ∃ r, r < w.length ∧ (w.take (r + 1)).sum / w.sum > p ∧
      (∀ i, i < r → ¬ (w.take (i + 1)).sum / w.sum > p) ∧
      (∀ fuel, w.length ≤ fuel →
        detail.random_choice_bsearch_call (detail.random_choice_bsearch_init w a).2 p fuel
          = some r) ∧
      detail.random_choice_lsearch_call (detail.random_choice_lsearch_init w a).2 p = r ∧
      ∃ s, tower_sampling.construct w = .ok s ∧ s.call p = r := by
  obtain ⟨r, hrn, hr, h1, h2, h3⟩ := cumulative_samplers_on_cumulative w hw p hp
  rw [detail.bsearch_init_valid w a hw, detail.lsearch_init_valid w a hw,
    detail.push_cumulative_eq_cumulative]
  refine ⟨r, hrn, ?_, ?_, h1, h2, ?_⟩
  · have := hr.2.2 (by rw [detail.cumulative_length]; exact hrn)
    rw [detail.cumulative_getD w r hrn] at this
    exact this
  · intro i hi
    have := hr.2.1 i hi
    rw [detail.cumulative_getD w i (by omega)] at this
    exact this
  · refine ⟨{ sum_ := w.sum, table_ := cumulative w }, ?_, h3⟩
    unfold tower_sampling.construct
    simp only []
    rw [detail.tower_push_eq_cumulative]

theorem cumulative_samplers_agree_witness :
    ValidWeights [1, 2, 3, 4] ∧ (1 / 2 : ℚ) < 1 ∧
    ∃ r, r < ([1, 2, 3, 4] : List ℚ).length ∧
      (([1, 2, 3, 4] : List ℚ).take (r + 1)).sum / ([1, 2, 3, 4] : List ℚ).sum > 1 / 2 ∧
      (∀ i, i < r →
        ¬ (([1, 2, 3, 4] : List ℚ).take (i + 1)).sum / ([1, 2, 3, 4] : List ℚ).sum > 1 / 2) ∧
      (∀ fuel, ([1, 2, 3, 4] : List ℚ).length ≤ fuel →
        detail.random_choice_bsearch_call
          (detail.random_choice_bsearch_init [1, 2, 3, 4] []).2 (1 / 2) fuel = some r) ∧
      detail.random_choice_lsearch_call
        (detail.random_choice_lsearch_init [1, 2, 3, 4] []).2 (1 / 2) = r ∧
      ∃ s, tower_sampling.construct [1, 2, 3, 4] = .ok s ∧ s.call (1 / 2) = r :=
  ⟨detail.valid_one_two_three_four, by norm_num,
    cumulative_samplers_agree [1, 2, 3, 4] [] detail.valid_one_two_three_four (1 / 2)
      (by norm_num)⟩

end walker

namespace walker.detail

/-! ## Range of the alias samplers -/

theorem construct_float_valid (w : List ℚ) (hw : ValidWeights w) :
    random_choice_walker_float.construct w = .ok { table_ := (fill_ft2009 w []).2 } := by
  have h := fill_ft2009_valid w [] hw
  unfold random_choice_walker_float.construct
  rw [h]

theorem float_call_lt (w : List ℚ) (hw : ValidWeights w) (eng : ℕ → ℚ) (pos : ℕ)
    (h0 : 0 ≤ eng pos) (h1 : eng pos < 1) :
    (({ table_ := (fill_ft2009 w []).2 } : random_choice_walker_float).call eng pos).1
      < w.length := by
  have hlen := fill_ft2009_length w [] hw
  have hn : (0 : ℚ) < w.length := by exact_mod_cast length_pos_of_valid w hw
  have hx : to_uint ((w.length : ℚ) * eng pos) < w.length := by
    apply to_uint_lt_of_lt _ _ (mul_nonneg (le_of_lt hn) h0)
    calc (w.length : ℚ) * eng pos < (w.length : ℚ) * 1 := mul_lt_mul_of_pos_left h1 hn
      _ = w.length := mul_one _
  have hent := fill_ft2009_entry w [] hw _ hx
  simp only [random_choice_walker_float.call, random_choice_walker_float.size,
    random_choice_walker_float.cutoff, random_choice_walker_float.alias, hlen]
  split_ifs
  · exact hx
  · exact hent.2.2

theorem integral_call_lt (w : List ℚ) (hw : ValidWeights w) (eng : ℕ → ℕ) (pos : ℕ)
    (hr : eng pos < 2 ^ 32) :
    ∃ s, random_choice_walker_integral.construct w = .ok s ∧
      s.table_.length = grow_pow2 w.length 2 (by decide) ∧
      (s.call eng pos).1 < w.length := by
  obtain ⟨s, hs, ht⟩ := construct_integral_valid w hw
  have hlen := fill_ft2009_integral_length w [] hw
  obtain ⟨k, hk1, hk2, hk3, hk4⟩ := grow_pow2_two w.length
  have hent := fill_ft2009_integral_entry w [] hw
  have hx : eng pos >>> s.bits_ < grow_pow2 w.length 2 (by decide) := by
    rw [construct_integral_bits w s hs, ht, hlen, hk2]
    by_cases hk32 : k ≤ 32
    · rw [bits_of_pow k hk1 hk32]
      exact shift_lt_pow _ _ hr hk32
    · calc eng pos >>> _ ≤ eng pos := by
            rw [Nat.shiftRight_eq_div_pow]
            exact Nat.div_le_self _ _
        _ < 2 ^ 32 := hr
        _ ≤ 2 ^ k := Nat.pow_le_pow_right (by norm_num) (by omega)
  refine ⟨s, hs, by rw [ht, hlen], ?_⟩
  simp only [random_choice_walker_integral.call, random_choice_walker_integral.cutoff,
    random_choice_walker_integral.alias, ht]
  split_ifs with hc
  · by_contra hge
    have := (hent _ hx).2 (not_lt.mp hge)
    rw [this] at hc
    exact absurd hc (Nat.not_lt_zero _)
  · exact (hent _ hx).1

theorem valid_singleton (x : ℚ) (hx : 0 < x) : ValidWeights [x] :=
  ⟨by simp, by
    intro y hy
    simp only [List.mem_singleton] at hy
    rw [hy]
    exact le_of_lt hx, by simpa using hx⟩

end walker.detail

namespace walker

/-- In exact arithmetic, for a single-element weight vector `[x]` with `x > 0`
every sampler returns index `0`: the floating-point alias sampler for every first draw in
`[0, 1)`, the integral alias sampler (whose table has two entries) for every
32-bit first raw draw, and `random_choice_bsearch`, `random_choice_lsearch` and
`tower_sampling` for every draw `p < 1`; the second draws are arbitrary. -/
theorem single_weight_always_returns_zero (x : ℚ) (hx : 0 < x) (eng : ℕ → ℚ)
    (engi : ℕ → ℕ) (pos : ℕ) (p : ℚ) (a : List ℚ) (fuel : ℕ)
    (h0 : 0 ≤ eng pos) (h1 : eng pos < 1) (hr : engi pos < 2 ^ 32) (hp : p < 1) :
    (∃ s, detail.random_choice_walker_float.construct [x] = .ok s ∧
      (s.call eng pos).1 = 0) ∧
    (∃ s, detail.random_choice_walker_integral.construct [x] = .ok s ∧
      s.table_.length = 2 ∧ (s.call engi pos).1 = 0) ∧
    detail.random_choice_bsearch_call (detail.random_choice_bsearch_init [x] a).2 p fuel
      = some 0 ∧
    detail.random_choice_lsearch_call (detail.random_choice_lsearch_init [x] a).2 p = 0 ∧
    (∃ s, tower_sampling.construct [x] = .ok s ∧ s.call p = 0) := by
  have hv := detail.valid_singleton x hx
  obtain ⟨r, hrn, hr0, hb, hl, hu⟩ := cumulative_samplers_on_cumulative [x] hv p hp
  have hr0' : r = 0 := by
    simp only [List.length_singleton] at hrn
    omega
  subst hr0'
  refine ⟨?_, ?_, ?_, ?_, ?_⟩
  · refine ⟨_, detail.construct_float_valid [x] hv, ?_⟩
    have := detail.float_call_lt [x] hv eng pos h0 h1
    simp only [List.length_singleton] at this
    omega
  · obtain ⟨s, hs, hlen, hlt⟩ := detail.integral_call_lt [x] hv engi pos hr
    refine ⟨s, hs, ?_, ?_⟩
    · rw [hlen]
      show detail.grow_pow2 1 2 (by decide) = 2
      decide!
    · simp only [List.length_singleton] at hlt
      omega
  · rw [detail.bsearch_init_valid [x] a hv, detail.push_cumulative_eq_cumulative]
    have hlen : (cumulative [x]).length = 1 := by
      rw [detail.cumulative_length]
      rfl
    have h00 := hr0.2.2 (by rw [hlen]; norm_num)
    unfold detail.random_choice_bsearch_call
    simp only [hlen, Int.toNat_zero]
    rw [if_neg (by norm_num), if_pos (by norm_num), if_pos h00]
  · rw [detail.lsearch_init_valid [x] a hv, detail.push_cumulative_eq_cumulative]
    exact hl
  · refine ⟨{ sum_ := ([x] : List ℚ).sum, table_ := cumulative [x] }, ?_, hu⟩
    unfold tower_sampling.construct
    simp only []
    rw [detail.tower_push_eq_cumulative]

theorem single_weight_always_returns_zero_witness :
    (0 : ℚ) < 5 ∧ (0 : ℚ) ≤ (fun _ : ℕ => (9 / 10 : ℚ)) 0 ∧
    (fun _ : ℕ => (9 / 10 : ℚ)) 0 < 1 ∧ (fun _ : ℕ => 4294967295) 0 < 2 ^ 32 ∧
    (9 / 10 : ℚ) < 1 ∧
    ((∃ s, detail.random_choice_walker_float.construct [5] = .ok s ∧
      (s.call (fun _ : ℕ => (9 / 10 : ℚ)) 0).1 = 0) ∧
    (∃ s, detail.random_choice_walker_integral.construct [5] = .ok s ∧
      s.table_.length = 2 ∧ (s.call (fun _ : ℕ => 4294967295) 0).1 = 0) ∧
    detail.random_choice_bsearch_call (detail.random_choice_bsearch_init [5] []).2 (9 / 10) 0
      = some 0 ∧
    detail.random_choice_lsearch_call (detail.random_choice_lsearch_init [5] []).2 (9 / 10)
      = 0 ∧
    (∃ s, tower_sampling.construct [5] = .ok s ∧ s.call (9 / 10) = 0)) :=
  ⟨by norm_num, by norm_num, by norm_num, by norm_num, by norm_num,
    single_weight_always_returns_zero 5 (by norm_num) (fun _ => 9 / 10)
      (fun _ => 4294967295) 0 (9 / 10) [] 0 (by norm_num) (by norm_num) (by norm_num)
      (by norm_num)⟩

end walker

namespace walker

end walker

namespace walker.detail

/-! ## Independence of the previous contents of the table -/

theorem assign_step_table_indep {C : Type} (cut : ℚ → C) (full : C) (a : List (ℚ × ℕ))
    (p : ℕ) (T1 T2 : Table C) (q : ℕ) :
    ∃ a' p' e, assign_step cut full { array := a, pos_p := p, table := T1 } q
        = { array := a', pos_p := p', table := T1.set (index_at a q) e } ∧
      assign_step cut full { array := a, pos_p := p, table := T2 } q
        = { array := a', pos_p := p', table := T2.set (index_at a q) e } ∧
      (∀ s, index_at a' s = index_at a s) ∧ a'.length = a.length := by
  by_cases hp : p = a.length
  · refine ⟨a, p, (full, index_at a q), ?_, ?_, fun _ => rfl, rfl⟩
    · rw [assign_step_end _ _ _ _ (show (FillState.mk a p T1).pos_p
        = (FillState.mk a p T1).array.length from hp)]
    · rw [assign_step_end _ _ _ _ (show (FillState.mk a p T2).pos_p
        = (FillState.mk a p T2).array.length from hp)]
  · by_cases hle : excess_at a p + excess_at a q ≤ 0
    · refine ⟨a.set p (excess_at a p + excess_at a q, index_at a p), p + 1,
        (cut (1 + excess_at a q), index_at a p), ?_, ?_,
        fun s => index_at_set_same a p s _, by simp⟩
      · exact assign_step_adv cut full (FillState.mk a p T1) q hp hle
      · exact assign_step_adv cut full (FillState.mk a p T2) q hp hle
    · refine ⟨a.set p (excess_at a p + excess_at a q, index_at a p), p,
        (cut (1 + excess_at a q), index_at a p), ?_, ?_,
        fun s => index_at_set_same a p s _, by simp⟩
      · exact assign_step_stay cut full (FillState.mk a p T1) q hp hle
      · exact assign_step_stay cut full (FillState.mk a p T2) q hp hle

theorem assign_fold_table_indep {C : Type} [Inhabited C] (cut : ℚ → C) (full : C)
    (A : List (ℚ × ℕ)) (k : ℕ) (T1 T2 : Table C) (hT : T1.length = T2.length) (q : ℕ) :
    ∃ a' p' T1' T2',
      (List.range q).foldl (assign_step cut full) { array := A, pos_p := k, table := T1 }
        = { array := a', pos_p := p', table := T1' } ∧
      (List.range q).foldl (assign_step cut full) { array := A, pos_p := k, table := T2 }
        = { array := a', pos_p := p', table := T2' } ∧
      (∀ s, index_at a' s = index_at A s) ∧ a'.length = A.length ∧
      T1'.length = T1.length ∧ T2'.length = T2.length ∧
      ∀ s, s < q → index_at A s < T1.length →
        T1'.getD (index_at A s) default = T2'.getD (index_at A s) default := by
  induction q with
  | zero =>
    exact ⟨A, k, T1, T2, rfl, rfl, fun _ => rfl, rfl, rfl, rfl,
      fun s hs => absurd hs (Nat.not_lt_zero s)⟩
  | succ q ih =>
    obtain ⟨a', p', T1', T2', h1, h2, hidx, hlen, hl1, hl2, hag⟩ := ih
    obtain ⟨a'', p'', e, g1, g2, gidx, glen⟩ :=
      assign_step_table_indep cut full a' p' T1' T2' q
    refine ⟨a'', p'', T1'.set (index_at a' q) e, T2'.set (index_at a' q) e, ?_, ?_, ?_, ?_,
      ?_, ?_, ?_⟩
    · rw [List.range_succ, List.foldl_append, h1]
      exact g1
    · rw [List.range_succ, List.foldl_append, h2]
      exact g2
    · intro s
      rw [gidx, hidx]
    · rw [glen, hlen]
    · simp [hl1]
    · simp [hl2]
    · intro s hs hb
      by_cases he : index_at a' q = index_at A s
      · rw [he, getD_set_self _ _ _ _ (by omega), getD_set_self _ _ _ _ (by omega)]
      · rw [getD_set_of_ne _ _ _ _ _ he, getD_set_of_ne _ _ _ _ _ he]
        have hsq : s ≠ q := by
          intro hsq
          rw [hsq, hidx] at he
          exact he rfl
        exact hag s (by omega) hb

theorem assign_aliases_table_indep {C : Type} [Inhabited C] (cut : ℚ → C) (full : C)
    (A : List (ℚ × ℕ)) (k : ℕ) (hP : Partitioned A k) (T1 T2 : Table C)
    (h1 : T1.length = A.length) (h2 : T2.length = A.length) :
    (assign_aliases cut full { array := A, pos_p := k, table := T1 }).table
      = (assign_aliases cut full { array := A, pos_p := k, table := T2 }).table := by
  obtain ⟨a', p', T1', T2', g1, g2, _, _, hl1, hl2, hag⟩ :=
    assign_fold_table_indep cut full A k T1 T2 (by rw [h1, h2]) A.length
  unfold assign_aliases
  simp only []
  rw [g1, g2]
  simp only []
  apply List.ext_getElem (by rw [hl1, hl2, h1, h2])
  intro i hi1 hi2
  have hi : i < A.length := by rw [hl1, h1] at hi1; exact hi1
  obtain ⟨s, hs, rfl⟩ := exists_offset A k hP i hi
  have := hag s hs (by rw [h1]; exact hi)
  rw [List.getD_eq_getElem _ _ hi1, List.getD_eq_getElem _ _ hi2] at this
  exact this

theorem init_table_fold_getD (T : Table ℚ) (q i : ℕ) (hi : i < T.length) :
    ((List.range q).foldl (fun t j => t.set j ((1 : ℚ), j)) T).getD i default
      = if i < q then ((1 : ℚ), i) else T.getD i default := by
  induction q with
  | zero => simp
  | succ q ih =>
    rw [List.range_succ, List.foldl_append]
    simp only [List.foldl_cons, List.foldl_nil]
    have hlen : ((List.range q).foldl (fun t j => t.set j ((1 : ℚ), j)) T).length = T.length :=
      init_table_length T q
    by_cases hq : q = i
    · subst hq
      rw [getD_set_self _ _ _ _ (by rw [hlen]; exact hi), if_pos (by omega)]
    · rw [getD_set_of_ne _ _ _ _ _ hq, ih]
      by_cases h : i < q
      · rw [if_pos h, if_pos (by omega)]
      · rw [if_neg h, if_neg (by omega)]

theorem init_table_indep (T1 T2 : Table ℚ) (n : ℕ) (h1 : T1.length = n) (h2 : T2.length = n) :
    init_table T1 n = init_table T2 n := by
  apply List.ext_getElem (by rw [init_table_length, init_table_length, h1, h2])
  intro i hi1 hi2
  have hi : i < n := by rw [init_table_length, h1] at hi1; exact hi1
  have e1 := init_table_fold_getD T1 n i (by omega)
  have e2 := init_table_fold_getD T2 n i (by omega)
  rw [if_pos hi] at e1 e2
  have g1 : (init_table T1 n).getD i default = ((1 : ℚ), i) := e1
  have g2 : (init_table T2 n).getD i default = ((1 : ℚ), i) := e2
  rw [List.getD_eq_getElem _ _ hi1] at g1
  rw [List.getD_eq_getElem _ _ hi2] at g2
  rw [g1, g2]

theorem fill_ft2009_indep (w : List ℚ) (t t' : Table ℚ) (hw : ValidWeights w) :
    fill_ft2009 w t = fill_ft2009 w t' := by
  rw [fill_ft2009_valid w t hw, fill_ft2009_valid w t' hw]
  have hP := fill_ft2009_partitioned w hw
  have hl := partitioned_length (fun i => (w.length : ℚ) / w.sum * w.getD i 0 - 1) w.length
  rw [assign_aliases_table_indep _ _ _ _ hP (resize t w.length) (resize t' w.length)
    (by rw [length_resize, hl]) (by rw [length_resize, hl])]

theorem exact_table_indep (w : List ℚ) (t t' : Table ℕ) (hw : ValidWeights w) :
    exact_table w t = exact_table w t' := by
  unfold exact_table
  simp only []
  have hP := partitioned_of_excess (padded_excess w (grow_pow2 w.length 2 (by decide)))
    (grow_pow2 w.length 2 (by decide)) (fun i _ => padded_excess_ge w hw _ i)
    (padded_excess_sum w hw _ (grow_pow2_ge _))
  have hl := partitioned_length (padded_excess w (grow_pow2 w.length 2 (by decide)))
    (grow_pow2 w.length 2 (by decide))
  exact assign_aliases_table_indep _ _ _ _ hP _ _
    (by rw [List.length_map, length_resize, hl]) (by rw [List.length_map, length_resize, hl])

theorem fill_ft2009_integral_indep (w : List ℚ) (t t' : Table ℕ) (hw : ValidWeights w) :
    fill_ft2009_integral w t = fill_ft2009_integral w t' := by
  rw [fill_ft2009_integral_valid w t hw, fill_ft2009_integral_valid w t' hw,
    exact_table_indep w t t' hw]

theorem fill_walker1977_valid_eq (w : List ℚ) (t : Table ℚ) (tol : ℚ) (hw : ValidWeights w) :
    fill_walker1977 w t tol
      = (walker1977_passes tol w.length (init_table (resize t w.length) w.length)
          ((List.range w.length).map (fun i => (w.length : ℚ) / w.sum * w.getD i 0 - 1))).map
          (fun table => (none, table)) := by
  have hn := length_pos_of_valid w hw
  unfold fill_walker1977
  rw [if_neg (by omega), accumulate_checked_valid w hw]
  simp only []
  rw [if_neg (not_le.mpr hw.2.2)]
  cases walker1977_passes tol w.length (init_table (resize t w.length) w.length)
    ((List.range w.length).map (fun i => (w.length : ℚ) / w.sum * w.getD i 0 - 1)) <;> rfl

theorem fill_walker1977_indep (w : List ℚ) (t t' : Table ℚ) (tol : ℚ) (hw : ValidWeights w) :
    fill_walker1977 w t tol = fill_walker1977 w t' tol := by
  rw [fill_walker1977_valid_eq w t tol hw, fill_walker1977_valid_eq w t' tol hw,
    init_table_indep (resize t w.length) (resize t' w.length) w.length
      (length_resize _ _) (length_resize _ _)]

end walker.detail

namespace walker

/-- In exact arithmetic, construction does not depend on the prior state.  For every valid
weight vector `w` the results of `fill_ft2009` (floating-point and integral),
`fill_walker1977`, `random_choice_bsearch::init` and `random_choice_lsearch::init`
are the same whatever table / array (of whatever length and contents) is passed
in; the table / array has exactly `N` (integral: `M`) entries; and rebuilding
from the same `w` on the table / array just built yields the identical result. -/
theorem construction_independent_of_prior_state (w : List ℚ) (t t' : Table ℚ)
    (ti ti' : Table ℕ) (a a' : List ℚ) (tol : ℚ) (hw : ValidWeights w) :
    (detail.fill_ft2009 w t = detail.fill_ft2009 w t' ∧
      (detail.fill_ft2009 w t).2.length = w.length ∧
      detail.fill_ft2009 w (detail.fill_ft2009 w t).2 = detail.fill_ft2009 w t) ∧
    (detail.fill_ft2009_integral w ti = detail.fill_ft2009_integral w ti' ∧
      (detail.fill_ft2009_integral w ti).2.length = detail.grow_pow2 w.length 2 (by decide) ∧
      detail.fill_ft2009_integral w (detail.fill_ft2009_integral w ti).2
        = detail.fill_ft2009_integral w ti) ∧
    (detail.fill_walker1977 w t tol = detail.fill_walker1977 w t' tol ∧
      ∃ T, detail.fill_walker1977 w t tol = some (none, T) ∧ T.length = w.length ∧
        detail.fill_walker1977 w T tol = some (none, T)) ∧
    (detail.random_choice_bsearch_init w a = detail.random_choice_bsearch_init w a' ∧
      (detail.random_choice_bsearch_init w a).2.length = w.length ∧
      detail.random_choice_bsearch_init w (detail.random_choice_bsearch_init w a).2
        = detail.random_choice_bsearch_init w a) ∧
    (detail.random_choice_lsearch_init w a = detail.random_choice_lsearch_init w a' ∧
      (detail.random_choice_lsearch_init w a).2.length = w.length ∧
      detail.random_choice_lsearch_init w (detail.random_choice_lsearch_init w a).2
        = detail.random_choice_lsearch_init w a) := by
  refine ⟨⟨detail.fill_ft2009_indep w t t' hw, detail.fill_ft2009_length w t hw,
      detail.fill_ft2009_indep w _ t hw⟩,
    ⟨detail.fill_ft2009_integral_indep w ti ti' hw,
      detail.fill_ft2009_integral_length w ti hw,
      detail.fill_ft2009_integral_indep w _ ti hw⟩,
    ⟨detail.fill_walker1977_indep w t t' tol hw, ?_⟩, ?_, ?_⟩
  · obtain ⟨T, hT, hlen⟩ := detail.fill_walker1977_valid w t tol hw
    refine ⟨T, hT, hlen, ?_⟩
    rw [detail.fill_walker1977_indep w T t tol hw]
    exact hT
  · rw [detail.bsearch_init_valid w a hw, detail.bsearch_init_valid w a' hw,
      detail.bsearch_init_valid w _ hw, detail.push_cumulative_eq_cumulative]
    exact ⟨rfl, detail.cumulative_length w, rfl⟩
  · rw [detail.lsearch_init_valid w a hw, detail.lsearch_init_valid w a' hw,
      detail.lsearch_init_valid w _ hw, detail.push_cumulative_eq_cumulative]
    exact ⟨rfl, detail.cumulative_length w, rfl⟩

theorem construction_independent_of_prior_state_witness :
    ValidWeights [1, 2, 3, 4] ∧
    detail.fill_ft2009 [1, 2, 3, 4] []
      = detail.fill_ft2009 [1, 2, 3, 4] [(7, 7), (7, 7), (7, 7), (7, 7), (7, 7), (7, 7)] ∧
    detail.fill_ft2009_integral [1, 2, 3, 4] []
      = detail.fill_ft2009_integral [1, 2, 3, 4] [(7, 7), (7, 7), (7, 7), (7, 7), (7, 7)] ∧
    detail.fill_walker1977 [1, 2, 3, 4] [] (1 / 10 ^ 10)
      = detail.fill_walker1977 [1, 2, 3, 4] [(7, 7), (7, 7), (7, 7), (7, 7), (7, 7), (7, 7)]
          (1 / 10 ^ 10) ∧
    detail.random_choice_bsearch_init [1, 2, 3, 4] []
      = detail.random_choice_bsearch_init [1, 2, 3, 4] [5, 5, 5, 5, 5, 5, 5] ∧
    detail.random_choice_lsearch_init [1, 2, 3, 4] []
      = detail.random_choice_lsearch_init [1, 2, 3, 4] [5, 5, 5, 5, 5, 5, 5] :=
  have h := construction_independent_of_prior_state [1, 2, 3, 4] []
    [(7, 7), (7, 7), (7, 7), (7, 7), (7, 7), (7, 7)] []
    [(7, 7), (7, 7), (7, 7), (7, 7), (7, 7)] [] [5, 5, 5, 5, 5, 5, 5] (1 / 10 ^ 10)
    detail.valid_one_two_three_four
  ⟨detail.valid_one_two_three_four, h.1.1, h.2.1.1, h.2.2.1.1, h.2.2.2.1.1, h.2.2.2.2.1⟩

end walker

namespace walker.detail

/-! ## Termination of the unrolled binary search -/

end walker.detail

namespace walker

end walker

namespace walker.detail

/-! ## The reference builder `fill_walker1977` -/

theorem scan_fold_bounds (b : List ℚ) (j : ℕ) :
    ((List.range j).foldl (scan_step b)
        { sum := 0, minval := 0, maxval := 0, minpos := none, maxpos := none }).sum
      = ∑ i in Finset.range j, |b.getD i 0| ∧
    (∀ i, i < j → ((List.range j).foldl (scan_step b)
        { sum := 0, minval := 0, maxval := 0, minpos := none, maxpos := none }).minval
          ≤ b.getD i 0) ∧
    (∀ i, i < j → b.getD i 0 ≤ ((List.range j).foldl (scan_step b)
        { sum := 0, minval := 0, maxval := 0, minpos := none, maxpos := none }).maxval) := by
  induction j with
  | zero => simp
  | succ j ih =>
    rw [List.range_succ, List.foldl_append]
    simp only [List.foldl_cons, List.foldl_nil]
    generalize (List.range j).foldl (scan_step b)
      { sum := 0, minval := 0, maxval := 0, minpos := none, maxpos := none } = s at ih
    obtain ⟨h1, h2, h3⟩ := ih
    unfold scan_step
    simp only []
    by_cases hmin : b.getD j 0 ≤ s.minval <;> by_cases hmax : b.getD j 0 ≥ s.maxval
    · rw [if_pos hmin, if_pos hmax]
      refine ⟨by simp [h1, Finset.sum_range_succ], ?_, ?_⟩
      · intro i hi
        rcases Nat.lt_succ_iff_lt_or_eq.mp hi with h | rfl
        · exact le_trans hmin (h2 i h)
        · exact le_rfl
      · intro i hi
        rcases Nat.lt_succ_iff_lt_or_eq.mp hi with h | rfl
        · exact le_trans (h3 i h) hmax
        · exact le_rfl
    · rw [if_pos hmin, if_neg hmax]
      refine ⟨by simp [h1, Finset.sum_range_succ], ?_, ?_⟩
      · intro i hi
        rcases Nat.lt_succ_iff_lt_or_eq.mp hi with h | rfl
        · exact le_trans hmin (h2 i h)
        · exact le_rfl
      · intro i hi
        rcases Nat.lt_succ_iff_lt_or_eq.mp hi with h | rfl
        · exact h3 i h
        · exact le_of_lt (not_le.mp hmax)
    · rw [if_neg hmin, if_pos hmax]
      refine ⟨by simp [h1, Finset.sum_range_succ], ?_, ?_⟩
      · intro i hi
        rcases Nat.lt_succ_iff_lt_or_eq.mp hi with h | rfl
        · exact h2 i h
        · exact le_of_lt (not_le.mp hmin)
      · intro i hi
        rcases Nat.lt_succ_iff_lt_or_eq.mp hi with h | rfl
        · exact le_trans (h3 i h) hmax
        · exact le_rfl
    · rw [if_neg hmin, if_neg hmax]
      refine ⟨by simp [h1, Finset.sum_range_succ], ?_, ?_⟩
      · intro i hi
        rcases Nat.lt_succ_iff_lt_or_eq.mp hi with h | rfl
        · exact h2 i h
        · exact le_of_lt (not_le.mp hmin)
      · intro i hi
        rcases Nat.lt_succ_iff_lt_or_eq.mp hi with h | rfl
        · exact h3 i h
        · exact le_of_lt (not_le.mp hmax)

theorem scan_sum (b : List ℚ) : (scan b).sum = ∑ i in Finset.range b.length, |b.getD i 0| :=
  (scan_fold_bounds b b.length).1

theorem scan_minval_le (b : List ℚ) (i : ℕ) (hi : i < b.length) :
    (scan b).minval ≤ b.getD i 0 :=
  (scan_fold_bounds b b.length).2.1 i hi

theorem scan_le_maxval (b : List ℚ) (i : ℕ) (hi : i < b.length) :
    b.getD i 0 ≤ (scan b).maxval :=
  (scan_fold_bounds b b.length).2.2 i hi

/-- When the excesses sum to zero and the scan does not stop the loop, the
smallest excess is negative and the largest positive. -/
theorem scan_strict (b : List ℚ) (hsum : b.sum = 0) (tol : ℚ) (htol : 0 < tol)
    (hbrk : ¬ (scan b).sum < tol) : (scan b).minval < 0 ∧ 0 < (scan b).maxval := by
  have hS : ∑ i in Finset.range b.length, b.getD i 0 = 0 := by
    rw [sum_range_getD, hsum]
  have hne : ¬ ∀ i ∈ Finset.range b.length, b.getD i 0 = 0 := by
    intro hall
    apply hbrk
    rw [scan_sum, Finset.sum_eq_zero (fun i hi => by rw [hall i hi, abs_zero])]
    exact htol
  constructor
  · by_contra hge
    apply hne
    have hnn : ∀ i ∈ Finset.range b.length, 0 ≤ b.getD i 0 := fun i hi =>
      le_trans (not_lt.mp hge) (scan_minval_le b i (Finset.mem_range.mp hi))
    exact (Finset.sum_eq_zero_iff_of_nonneg hnn).mp hS
  · by_contra hle
    apply hne
    have hnp : ∀ i ∈ Finset.range b.length, b.getD i 0 ≤ 0 := fun i hi =>
      le_trans (scan_le_maxval b i (Finset.mem_range.mp hi)) (not_lt.mp hle)
    exact (Finset.sum_eq_zero_iff_of_nonpos hnp).mp hS

theorem implied_mass_eq_sum_contrib (T : Table ℚ) (i : ℕ) (hi : i < T.length) :
    implied_mass 1 (fun x => x) T i
      = ∑ j in Finset.range T.length, contrib (T.getD j default) j i := by
  rw [implied_mass_eq_sum]
  simp only [contrib]
  rw [Finset.sum_add_distrib, Finset.sum_ite_eq' (Finset.range T.length) i
    (fun j => (T.getD j default).1), if_pos (Finset.mem_range.mpr hi)]
  simp

theorem implied_mass_set (T : Table ℚ) (m : ℕ) (e : ℚ × ℕ) (i : ℕ) (hm : m < T.length)
    (hi : i < T.length) :
    implied_mass 1 (fun x => x) (T.set m e) i
      = implied_mass 1 (fun x => x) T i - contrib (T.getD m default) m i + contrib e m i := by
  rw [implied_mass_eq_sum_contrib _ i (by simpa using hi), implied_mass_eq_sum_contrib T i hi,
    List.length_set]
  have hmem : m ∈ Finset.range T.length := Finset.mem_range.mpr hm
  rw [← Finset.add_sum_erase _ _ hmem, ← Finset.add_sum_erase _ (fun j =>
    contrib (T.getD j default) j i) hmem, getD_set_self _ _ _ _ hm]
  have hrest : ∑ j in (Finset.range T.length).erase m,
      contrib ((T.set m e).getD j default) j i
      = ∑ j in (Finset.range T.length).erase m, contrib (T.getD j default) j i := by
    apply Finset.sum_congr rfl
    intro j hj
    rw [getD_set_of_ne _ _ _ _ _ (Finset.ne_of_mem_erase hj).symm]
  rw [hrest]
  ring

end walker.detail

namespace walker.detail

theorem walker_pass_getD (b : List ℚ) (mn mx : ℕ) (β : ℚ) (hmn : mn < b.length)
    (hmx : mx < b.length) (hne : mx ≠ mn) (i : ℕ) :
    ((b.set mx (b.getD mx 0 + β)).set mn 0).getD i 0
      = if i = mn then 0 else if i = mx then b.getD mx 0 + β else b.getD i 0 := by
  by_cases h1 : i = mn
  · subst h1
    rw [if_pos rfl, getD_set_self _ _ _ _ (by simpa using hmn)]
  · rw [if_neg h1, getD_set_of_ne _ _ _ _ _ (fun h => h1 h.symm)]
    by_cases h2 : i = mx
    · subst h2
      rw [if_pos rfl, getD_set_self _ _ _ _ hmx]
    · rw [if_neg h2, getD_set_of_ne _ _ _ _ _ (fun h => h2 h.symm)]

theorem walker_pass_inv (b0 : List ℚ) (T : Table ℚ) (b : List ℚ) (h : Walker77Inv b0 T b)
    (mn mx : ℕ) (β : ℚ) (hmn : mn < b0.length) (hmx : mx < b0.length)
    (hβ : b.getD mn 0 = β) (hneg : β < 0) (hpos : 0 < b.getD mx 0) :
    Walker77Inv b0 (T.set mn (1 + β, mx)) ((b.set mx (b.getD mx 0 + β)).set mn 0) ∧
    nonzero_count ((b.set mx (b.getD mx 0 + β)).set mn 0) + 1 ≤ nonzero_count b := by
  have hne : mx ≠ mn := by
    intro e
    rw [e, hβ] at hpos
    linarith
  have hmn' : mn < b.length := by rw [h.len_b]; exact hmn
  have hmx' : mx < b.length := by rw [h.len_b]; exact hmx
  have hget := walker_pass_getD b mn mx β hmn' hmx' hne
  have hfresh_mn : T.getD mn default = (1, mn) :=
    h.fresh mn hmn (by rw [hβ]; exact ne_of_lt hneg)
  constructor
  · refine ⟨by simp [h.len_b], by simp [h.len_t], ?_, ?_, ?_⟩
    · rw [sum_set _ _ _ (by simpa using hmn'), getD_set_of_ne _ _ _ _ _ hne,
        sum_set _ _ _ hmx', h.sum, hβ]
      ring
    · intro i hi hnz
      rw [hget] at hnz
      by_cases h1 : i = mn
      · rw [if_pos h1] at hnz
        exact absurd rfl hnz
      · rw [if_neg h1] at hnz
        rw [getD_set_of_ne _ _ _ _ _ (fun e => h1 e.symm)]
        by_cases h2 : i = mx
        · rw [h2]
          exact h.fresh mx hmx (ne_of_gt hpos)
        · rw [if_neg h2] at hnz
          exact h.fresh i hi hnz
    · intro i hi
      rw [implied_mass_set T mn _ i (by rw [h.len_t]; exact hmn) (by rw [h.len_t]; exact hi),
        hfresh_mn, h.mass i hi, hget]
      simp only [contrib]
      by_cases h1 : i = mn
      · subst h1
        rw [if_pos rfl, if_pos rfl, if_pos rfl, if_pos rfl, if_neg hne, hβ]
        ring
      · rw [if_neg (fun e => h1 e.symm), if_neg (fun e => h1 e.symm),
          if_neg (fun e => h1 e.symm), if_neg h1]
        by_cases h2 : i = mx
        · subst h2
          rw [if_pos rfl, if_pos rfl]
          ring
        · rw [if_neg (fun e => h2 e.symm), if_neg h2]
          ring
  · unfold nonzero_count
    have hlen : ((b.set mx (b.getD mx 0 + β)).set mn 0).length = b.length := by simp
    rw [hlen]
    have hsub : (Finset.range b.length).filter
        (fun i => ((b.set mx (b.getD mx 0 + β)).set mn 0).getD i 0 ≠ 0)
        ⊆ ((Finset.range b.length).filter (fun i => b.getD i 0 ≠ 0)).erase mn := by
      intro i hi
      rw [Finset.mem_filter, hget] at hi
      rw [Finset.mem_erase, Finset.mem_filter]
      by_cases h1 : i = mn
      · rw [if_pos h1] at hi
        exact absurd rfl hi.2
      · rw [if_neg h1] at hi
        refine ⟨h1, hi.1, ?_⟩
        by_cases h2 : i = mx
        · rw [h2]
          exact ne_of_gt hpos
        · rw [if_neg h2] at hi
          exact hi.2
    have hmem : mn ∈ (Finset.range b.length).filter (fun i => b.getD i 0 ≠ 0) := by
      rw [Finset.mem_filter, Finset.mem_range]
      exact ⟨hmn', by rw [hβ]; exact ne_of_lt hneg⟩
    have hc := Finset.card_le_card hsub
    rw [Finset.card_erase_of_mem hmem] at hc
    have hpos' : 0 < ((Finset.range b.length).filter (fun i => b.getD i 0 ≠ 0)).card :=
      Finset.card_pos.mpr ⟨mn, hmem⟩
    omega

theorem walker1977_passes_mass (b0 : List ℚ) (tol : ℚ) (htol : 0 < tol) :
    ∀ (k : ℕ) (T : Table ℚ) (b : List ℚ), Walker77Inv b0 T b → nonzero_count b ≤ k →
      ∃ T', walker1977_passes tol k T b = some T' ∧ T'.length = b0.length ∧
        ∀ i, i < b0.length →
          |implied_mass 1 (fun x => x) T' i - (1 + b0.getD i 0)| < tol := by
  intro k
  induction k with
  | zero =>
    intro T b h hk
    refine ⟨T, rfl, h.len_t, ?_⟩
    intro i hi
    have hz : b.getD i 0 = 0 := by
      by_contra hnz
      have hmem : i ∈ (Finset.range b.length).filter (fun i => b.getD i 0 ≠ 0) := by
        rw [Finset.mem_filter, Finset.mem_range, h.len_b]
        exact ⟨hi, hnz⟩
      have := Finset.card_pos.mpr ⟨i, hmem⟩
      unfold nonzero_count at hk
      omega
    rw [h.mass i hi, hz]
    simp only [sub_zero, sub_self, abs_zero]
    exact htol
  | succ k ih =>
    intro T b h hk
    unfold walker1977_passes
    simp only []
    by_cases hbrk : (scan b).sum < tol
    · rw [if_pos hbrk]
      refine ⟨T, rfl, h.len_t, ?_⟩
      intro i hi
      rw [h.mass i hi]
      have e : 1 + b0.getD i 0 - b.getD i 0 - (1 + b0.getD i 0) = - b.getD i 0 := by ring
      rw [e, abs_neg]
      have hle : |b.getD i 0| ≤ ∑ j in Finset.range b.length, |b.getD j 0| :=
        Finset.single_le_sum (f := fun j => |b.getD j 0|) (fun j _ => abs_nonneg _)
          (Finset.mem_range.mpr (by rw [h.len_b]; exact hi))
      rw [← scan_sum] at hle
      exact lt_of_le_of_lt hle hbrk
    · rw [if_neg hbrk]
      have hne : b ≠ [] := by
        intro e
        apply hbrk
        rw [scan_sum, e]
        simpa using htol
      obtain ⟨mn, mx, e1, e2, h1, h2, h3, h4, _, _⟩ := scan_positions b hne h.sum
      obtain ⟨hneg, hpos⟩ := scan_strict b h.sum tol htol hbrk
      rw [e1, e2]
      simp only []
      obtain ⟨hinv, hcnt⟩ := walker_pass_inv b0 T b h mn mx (scan b).minval
        (by rw [← h.len_b]; exact h1) (by rw [← h.len_b]; exact h2) h3 hneg
        (by rw [h4]; exact hpos)
      exact ih _ _ hinv (by omega)

end walker.detail

namespace walker.detail

theorem init_table_getD (T : Table ℚ) (n i : ℕ) (hT : T.length = n) (hi : i < n) :
    (init_table T n).getD i default = (1, i) := by
  have h := init_table_fold_getD T n i (by omega)
  rw [if_pos hi] at h
  exact h

theorem walker_init_inv (w : List ℚ) (t : Table ℚ) (hw : ValidWeights w) :
    Walker77Inv ((List.range w.length).map (fun i => (w.length : ℚ) / w.sum * w.getD i 0 - 1))
      (init_table (resize t w.length) w.length)
      ((List.range w.length).map (fun i => (w.length : ℚ) / w.sum * w.getD i 0 - 1)) := by
  have hlen : ((List.range w.length).map
      (fun i => (w.length : ℚ) / w.sum * w.getD i 0 - 1)).length = w.length := by simp
  have hTl : (init_table (resize t w.length) w.length).length = w.length := by
    rw [init_table_length, length_resize]
  refine ⟨rfl, by rw [hTl, hlen], ?_, ?_, ?_⟩
  · rw [list_sum_range_map]
    exact excess_sum_zero w hw
  · intro i hi _
    rw [hlen] at hi
    exact init_table_getD _ _ _ (length_resize _ _) hi
  · intro i hi
    rw [hlen] at hi
    rw [implied_mass_eq_sum, hTl, init_table_getD _ _ _ (length_resize _ _) hi]
    have hz : ∀ j ∈ Finset.range w.length,
        (if ((init_table (resize t w.length) w.length).getD j default).2 = i
          then 1 - 1 * ((init_table (resize t w.length) w.length).getD j default).1
          else (0 : ℚ)) = 0 := by
      intro j hj
      rw [init_table_getD _ _ _ (length_resize _ _) (Finset.mem_range.mp hj)]
      simp
    rw [Finset.sum_eq_zero hz]
    ring

theorem nonzero_count_le (b : List ℚ) : nonzero_count b ≤ b.length := by
  unfold nonzero_count
  calc _ ≤ (Finset.range b.length).card := Finset.card_filter_le _ _
    _ = b.length := Finset.card_range _

theorem fill_walker1977_mass (w : List ℚ) (t : Table ℚ) (tol : ℚ) (hw : ValidWeights w)
    (htol : 0 < tol) :
    ∃ T, fill_walker1977 w t tol = some (none, T) ∧ T.length = w.length ∧
      ∀ i, i < w.length →
        |implied_mass 1 (fun x => x) T i - (w.length : ℚ) * w.getD i 0 / w.sum| < tol := by
  have hlen : ((List.range w.length).map
      (fun i => (w.length : ℚ) / w.sum * w.getD i 0 - 1)).length = w.length := by simp
  obtain ⟨T, hT, hTl, hm⟩ := walker1977_passes_mass _ tol htol w.length _ _
    (walker_init_inv w t hw) (by
      have := nonzero_count_le ((List.range w.length).map
        (fun i => (w.length : ℚ) / w.sum * w.getD i 0 - 1))
      rw [hlen] at this
      exact this)
  refine ⟨T, ?_, by rw [hTl, hlen], ?_⟩
  · rw [fill_walker1977_valid_eq w t tol hw, hT]
    rfl
  · intro i hi
    have := hm i (by rw [hlen]; exact hi)
    rw [List.getD_eq_getElem _ _ (by rw [hlen]; exact hi)] at this
    simp only [List.getElem_map, List.getElem_range] at this
    have e : (w.length : ℚ) * w.getD i 0 / w.sum
        = 1 + ((w.length : ℚ) / w.sum * w.getD i 0 - 1) := by ring
    rw [e]
    exact this

end walker.detail

namespace walker

/-- C19: in exact arithmetic, for every valid weight vector `w` of length `N`
and every termination tolerance `t > 0`, `fill_walker1977` returns normally
with a table of length `N` whose implied mass at every index `i` (its cutoff
plus the sum of `1 - cutoff_j` over the entries `j` aliased to `i`) differs from
`N * w_i / sum w` by less than `t`; hence `check_table` accepts the table for
every validator tolerance `≥ t`. -/
theorem fill_walker1977_within_tolerance (w : List ℚ) (t : Table ℚ) (tol : ℚ)
    (hw : ValidWeights w) (htol : 0 < tol) :
    ∃ T, detail.fill_walker1977 w t tol = some (none, T) ∧ T.length = w.length ∧
      (∀ i, i < w.length →
        |(T.getD i default).1
            + ∑ j in Finset.range T.length,
                (if (T.getD j default).2 = i then 1 - (T.getD j default).1 else 0)
            - (w.length : ℚ) * w.getD i 0 / w.sum| < tol) ∧
      (∀ vtol, tol ≤ vtol → detail.check_table 1 (fun x => x) w T vtol = true) := by
  obtain ⟨T, hT, hTl, hm⟩ := detail.fill_walker1977_mass w t tol hw htol
  have hn : (1 : ℚ) ≤ w.length := by
    exact_mod_cast detail.length_pos_of_valid w hw
  refine ⟨T, hT, hTl, ?_, ?_⟩
  · intro i hi
    have := hm i hi
    rw [detail.implied_mass_eq_sum] at this
    simpa using this
  · intro vtol hv
    rw [detail.check_table_iff]
    intro i hi
    have h1 := hm i hi
    have e : (T.length : ℚ) / w.sum * w.getD i 0 = (w.length : ℚ) * w.getD i 0 / w.sum := by
      rw [hTl]
      ring
    rw [e]
    have h2 : vtol ≤ vtol * w.length := by
      have hv0 : 0 ≤ vtol := le_trans (le_of_lt htol) hv
      calc vtol = vtol * 1 := (mul_one _).symm
        _ ≤ vtol * w.length := mul_le_mul_of_nonneg_left hn hv0
    linarith

theorem fill_walker1977_within_tolerance_witness :
    ValidWeights [1, 2, 3, 4] ∧ (0 : ℚ) < 1 / 10 ^ 10 ∧
    ∃ T, detail.fill_walker1977 [1, 2, 3, 4] [] (1 / 10 ^ 10) = some (none, T) ∧
      T.length = ([1, 2, 3, 4] : List ℚ).length ∧
      (∀ i, i < ([1, 2, 3, 4] : List ℚ).length →
        |(T.getD i default).1
            + ∑ j in Finset.range T.length,
                (if (T.getD j default).2 = i then 1 - (T.getD j default).1 else 0)
            - (([1, 2, 3, 4] : List ℚ).length : ℚ) * ([1, 2, 3, 4] : List ℚ).getD i 0
                / ([1, 2, 3, 4] : List ℚ).sum| < 1 / 10 ^ 10) ∧
      (∀ vtol, 1 / 10 ^ 10 ≤ vtol →
        detail.check_table 1 (fun x => x) [1, 2, 3, 4] T vtol = true) :=
  ⟨detail.valid_one_two_three_four, by norm_num,
    fill_walker1977_within_tolerance [1, 2, 3, 4] [] (1 / 10 ^ 10)
      detail.valid_one_two_three_four (by norm_num)⟩

end walker

namespace walker.detail

/-! ## The self-alias branches of `fill_ft2009` -/

/-- In exact arithmetic, when iteration `q` of the assignment loop takes a
self-alias branch (the surplus group is exhausted, or `neg_p` has met `pos_p`),
the excess of the entry at `neg_p` is zero. -/
theorem assign_inv_self_alias_zero (A : List (ℚ × ℕ)) (k : ℕ) (q : ℕ)
    (hq : q < A.length) (st : FillState ℚ) (h : AssignInv A k q st)
    (hself : st.pos_p = st.array.length ∨ st.pos_p = q) :
    excess_at st.array q = 0 := by
  rcases hself with hp | hp
  · have hall : ∀ s ∈ Finset.Ico q A.length, excess_at st.array s ≤ 0 := by
      intro s hs
      rw [Finset.mem_Ico] at hs
      exact (h.neg s hs.1 (by rw [hp, h.len_arr]; exact hs.2)).1
    exact (Finset.sum_eq_zero_iff_of_nonpos hall).mp h.sum q
      (Finset.mem_Ico.mpr ⟨le_rfl, hq⟩)
  · have hall : ∀ s ∈ Finset.Ico q A.length, 0 ≤ excess_at st.array s := by
      intro s hs
      rw [Finset.mem_Ico] at hs
      exact h.pos s (by rw [hp]; exact hs.1) hs.2
    exact (Finset.sum_eq_zero_iff_of_nonneg hall).mp h.sum q
      (Finset.mem_Ico.mpr ⟨le_rfl, hq⟩)

theorem fill_ft2009_eq_loop_state (w : List ℚ) (t : Table ℚ) (hw : ValidWeights w) :
    fill_ft2009 w t = (none, (fill_ft2009_loop_state w t w.length).table) := by
  rw [fill_ft2009_valid w t hw]
  unfold fill_ft2009_loop_state assign_aliases
  simp only []
  rw [partition_excess_eq, partitioned_length]

theorem loop_state_self_alias_zero (w : List ℚ) (t : Table ℚ) (hw : ValidWeights w) (q : ℕ)
    (hq : q < w.length)
    (hself : (fill_ft2009_loop_state w t q).pos_p = (fill_ft2009_loop_state w t q).array.length ∨
      (fill_ft2009_loop_state w t q).pos_p = q) :
    excess_at (fill_ft2009_loop_state w t q).array q = 0 := by
  have hP := fill_ft2009_partitioned w hw
  have hl := partitioned_length (fun i => (w.length : ℚ) / w.sum * w.getD i 0 - 1) w.length
  unfold fill_ft2009_loop_state at hself ⊢
  simp only [] at hself ⊢
  rw [partition_excess_eq] at hself ⊢
  exact assign_inv_self_alias_zero _ _ q (by rw [hl]; exact hq) _
    (assign_fold_inv _ _ hP (resize t w.length) (by rw [length_resize, hl]) q
      (by rw [hl]; omega)) hself

end walker.detail

namespace walker

/-- C21: in exact arithmetic, for every valid weight vector of length `N`, every
entry of the table built by the floating-point `fill_ft2009` has its cutoff in
`[0, 1]` and its alias below `N`; and at every iteration `q` of the assignment
loop (whose state after `N` iterations holds the table returned) at which the
entry at `neg_p` is aliased to itself, because the surplus group is exhausted
(`pos_p` is `array.end()`, the `else` branch) or because `neg_p` has met `pos_p`
(the `if` branch with `pos_p` equal to `neg_p`), the residual excess of the entry
at `neg_p` is exactly `0`. -/
theorem fill_ft2009_entries_in_range (w : List ℚ) (t : Table ℚ) (hw : ValidWeights w) :
    (∀ i, i < w.length →
      0 ≤ ((detail.fill_ft2009 w t).2.getD i default).1 ∧
      ((detail.fill_ft2009 w t).2.getD i default).1 ≤ 1 ∧
      ((detail.fill_ft2009 w t).2.getD i default).2 < w.length) ∧
    detail.fill_ft2009 w t = (none, (detail.fill_ft2009_loop_state w t w.length).table) ∧
    (∀ q, q < w.length →
      ((detail.fill_ft2009_loop_state w t q).pos_p
          = (detail.fill_ft2009_loop_state w t q).array.length ∨
        (detail.fill_ft2009_loop_state w t q).pos_p = q) →
      detail.excess_at (detail.fill_ft2009_loop_state w t q).array q = 0) :=
  ⟨detail.fill_ft2009_entry w t hw, detail.fill_ft2009_eq_loop_state w t hw,
    detail.loop_state_self_alias_zero w t hw⟩

theorem fill_ft2009_entries_in_range_witness :
    ValidWeights [1, 2, 3, 4] ∧
    (∀ i, i < ([1, 2, 3, 4] : List ℚ).length →
      0 ≤ ((detail.fill_ft2009 [1, 2, 3, 4] []).2.getD i default).1 ∧
      ((detail.fill_ft2009 [1, 2, 3, 4] []).2.getD i default).1 ≤ 1 ∧
      ((detail.fill_ft2009 [1, 2, 3, 4] []).2.getD i default).2
        < ([1, 2, 3, 4] : List ℚ).length) ∧
    (detail.fill_ft2009_loop_state [1, 2, 3, 4] [] 2).pos_p
      = (detail.fill_ft2009_loop_state [1, 2, 3, 4] [] 2).array.length ∧
    detail.excess_at (detail.fill_ft2009_loop_state [1, 2, 3, 4] [] 2).array 2 = 0 :=
  have h := fill_ft2009_entries_in_range [1, 2, 3, 4] [] detail.valid_one_two_three_four
  have hend : (detail.fill_ft2009_loop_state [1, 2, 3, 4] [] 2).pos_p
      = (detail.fill_ft2009_loop_state [1, 2, 3, 4] [] 2).array.length := by decide!
  ⟨detail.valid_one_two_three_four, h.1, hend, h.2.2 2 (by decide) (Or.inl hend)⟩

end walker

namespace walker.detail

/-! ## Zero-weight buckets are never returned -/

theorem pos_weight_of_excess_nonneg (w : List ℚ) (hw : ValidWeights w) (c : ℚ) (i : ℕ)
    (h : 0 ≤ c / w.sum * w.getD i 0 - 1) : 0 < w.getD i 0 := by
  by_contra hle
  have h0 : w.getD i 0 = 0 := le_antisymm (not_lt.mp hle) (getD_nonneg w hw.2.1 i)
  rw [h0] at h
  norm_num at h

theorem fill_ft2009_entry_weight (w : List ℚ) (t : Table ℚ) (hw : ValidWeights w) (i : ℕ)
    (hi : i < w.length) :
    0 < w.getD ((fill_ft2009 w t).2.getD i default).2 0 ∧
    (w.getD i 0 = 0 → ((fill_ft2009 w t).2.getD i default).1 = 0) := by
  rw [fill_ft2009_valid w t hw]
  have h := assign_aliases_entry (fun i => (w.length : ℚ) / w.sum * w.getD i 0 - 1) w.length
    (fun i _ => excess_ge_neg_one w hw _ (Nat.cast_nonneg _) i) (excess_sum_zero w hw)
    (resize t w.length) (length_resize _ _) i hi
  refine ⟨pos_weight_of_excess_nonneg w hw _ _ h.2.2.2.1, ?_⟩
  intro h0
  have hb : (w.length : ℚ) / w.sum * w.getD i 0 - 1 = -1 := by
    rw [h0]
    norm_num
  have h5 := h.2.2.2.2 (by
    show (w.length : ℚ) / w.sum * w.getD i 0 - 1 < 0
    rw [hb]
    norm_num)
  rw [h5]
  show 1 + ((w.length : ℚ) / w.sum * w.getD i 0 - 1) = 0
  rw [hb]
  norm_num

theorem exact_table_entry_weight (w : List ℚ) (t : Table ℕ) (hw : ValidWeights w) (i : ℕ)
    (hi : i < grow_pow2 w.length 2 (by decide)) :
    0 < w.getD ((exact_table w t).getD i default).2 0 ∧
    (w.getD i 0 = 0 → ((exact_table w t).getD i default).1 = 0) := by
  have h := assign_aliases_entry (padded_excess w (grow_pow2 w.length 2 (by decide))) _
    (fun i _ => padded_excess_ge w hw _ i)
    (padded_excess_sum w hw _ (grow_pow2_ge _))
    ((resize t (grow_pow2 w.length 2 (by decide))).map dequantize)
    (by rw [List.length_map, length_resize]) i hi
  obtain ⟨_, _, _, h4, h5⟩ := h
  refine ⟨?_, ?_⟩
  · rw [padded_excess_eq] at h4
    exact pos_weight_of_excess_nonneg w hw _ _ h4
  · intro h0
    have hb : padded_excess w (grow_pow2 w.length 2 (by decide)) i = -1 := by
      rw [padded_excess_eq, h0]
      norm_num
    have := h5 (by rw [hb]; norm_num)
    rw [hb] at this
    rw [show ((exact_table w t).getD i default).1 = 1 + -1 from this]
    norm_num

theorem fill_ft2009_integral_entry_weight (w : List ℚ) (t : Table ℕ) (hw : ValidWeights w)
    (i : ℕ) (hi : i < grow_pow2 w.length 2 (by decide)) :
    0 < w.getD ((fill_ft2009_integral w t).2.getD i default).2 0 ∧
    (w.getD i 0 = 0 → ((fill_ft2009_integral w t).2.getD i default).1 = 0) := by
  have h := exact_table_entry_weight w t hw i hi
  rw [fill_ft2009_integral_valid w t hw]
  show 0 < w.getD (((exact_table w t).map quantize).getD i default).2 0 ∧
    (w.getD i 0 = 0 → (((exact_table w t).map quantize).getD i default).1 = 0)
  rw [getD_map_quantize]
  refine ⟨h.1, ?_⟩
  intro h0
  show to_uint ((uint_max : ℚ) * ((exact_table w t).getD i default).1) = 0
  rw [h.2 h0, mul_zero]
  unfold to_uint
  simp

theorem float_call_pos_weight (w : List ℚ) (hw : ValidWeights w) (eng : ℕ → ℚ) (pos : ℕ)
    (h0 : 0 ≤ eng pos) (h1 : eng pos < 1) (h2 : 0 ≤ eng (pos + 1)) :
    0 < w.getD
      (({ table_ := (fill_ft2009 w []).2 } : random_choice_walker_float).call eng pos).1 0 := by
  have hlen := fill_ft2009_length w [] hw
  have hn : (0 : ℚ) < w.length := by exact_mod_cast length_pos_of_valid w hw
  have hx : to_uint ((w.length : ℚ) * eng pos) < w.length := by
    apply to_uint_lt_of_lt _ _ (mul_nonneg (le_of_lt hn) h0)
    calc (w.length : ℚ) * eng pos < (w.length : ℚ) * 1 := mul_lt_mul_of_pos_left h1 hn
      _ = w.length := mul_one _
  have hent := fill_ft2009_entry_weight w [] hw _ hx
  simp only [random_choice_walker_float.call, random_choice_walker_float.size,
    random_choice_walker_float.cutoff, random_choice_walker_float.alias, hlen]
  split_ifs with hc
  · by_contra hle
    have hz : w.getD (to_uint ((w.length : ℚ) * eng pos)) 0 = 0 :=
      le_antisymm (not_lt.mp hle) (getD_nonneg w hw.2.1 _)
    rw [hent.2 hz] at hc
    exact absurd h2 (not_le.mpr hc)
  · exact hent.1

theorem integral_call_pos_weight (w : List ℚ) (hw : ValidWeights w) (eng : ℕ → ℕ) (pos : ℕ)
    (hr : eng pos < 2 ^ 32) :
    ∃ s, random_choice_walker_integral.construct w = .ok s ∧
      0 < w.getD (s.call eng pos).1 0 := by
  obtain ⟨s, hs, ht⟩ := construct_integral_valid w hw
  have hlen := fill_ft2009_integral_length w [] hw
  obtain ⟨k, hk1, hk2, hk3, hk4⟩ := grow_pow2_two w.length
  have hent := fill_ft2009_integral_entry_weight w [] hw
  have hx : eng pos >>> s.bits_ < grow_pow2 w.length 2 (by decide) := by
    rw [construct_integral_bits w s hs, ht, hlen, hk2]
    by_cases hk32 : k ≤ 32
    · rw [bits_of_pow k hk1 hk32]
      exact shift_lt_pow _ _ hr hk32
    · calc eng pos >>> _ ≤ eng pos := by
            rw [Nat.shiftRight_eq_div_pow]
            exact Nat.div_le_self _ _
        _ < 2 ^ 32 := hr
        _ ≤ 2 ^ k := Nat.pow_le_pow_right (by norm_num) (by omega)
  refine ⟨s, hs, ?_⟩
  simp only [random_choice_walker_integral.call, random_choice_walker_integral.cutoff,
    random_choice_walker_integral.alias, ht]
  split_ifs with hc
  · by_contra hle
    have hz : w.getD (eng pos >>> s.bits_) 0 = 0 :=
      le_antisymm (not_lt.mp hle) (getD_nonneg w hw.2.1 _)
    rw [(hent _ hx).2 hz] at hc
    exact absurd hc (Nat.not_lt_zero _)
  · exact (hent _ hx).1

theorem leastAbove_cumulative_pos_weight (w : List ℚ) (hw : ValidWeights w) (p : ℚ)
    (hp0 : 0 ≤ p) (r : ℕ) (hrn : r < w.length) (hr : LeastAbove (cumulative w) p r) :
    0 < w.getD r 0 := by
  have hs : 0 < w.sum := hw.2.2
  have hup := hr.2.2 (by rw [cumulative_length]; exact hrn)
  rw [cumulative_getD w r hrn] at hup
  have hlow : (w.take r).sum / w.sum ≤ p := by
    rcases Nat.eq_zero_or_pos r with h0 | hpos
    · rw [h0]
      simpa using hp0
    · have := hr.2.1 (r - 1) (by omega)
      rw [cumulative_getD w (r - 1) (by omega)] at this
      rw [show r - 1 + 1 = r by omega] at this
      exact not_lt.mp this
  have hlt : (w.take r).sum / w.sum < (w.take (r + 1)).sum / w.sum := lt_of_le_of_lt hlow hup
  rw [div_lt_div_iff_of_pos_right hs, List.sum_take_succ w r hrn] at hlt
  rw [List.getD_eq_getElem _ _ hrn]
  linarith

theorem valid_zero_zero_thousand : ValidWeights [0, 0, 1000] :=
  ⟨by simp, by
    intro x hx
    simp only [List.mem_cons, List.mem_singleton, List.not_mem_nil, or_false] at hx
    rcases hx with rfl | rfl | rfl <;> norm_num, by norm_num⟩

theorem only_last_positive (i : ℕ) (h : 0 < ([0, 0, 1000] : List ℚ).getD i 0) : i = 2 := by
  match i, h with
  | 0, h => simp at h
  | 1, h => simp at h
  | 2, _ => rfl
  | n + 3, h => simp at h

end walker.detail

namespace walker

/-- C22: in exact arithmetic no sampler returns a zero-weight bucket.  For every
valid weight vector `w`, the floating-point alias sampler with draws `u1` in
`[0, 1)` and `u2 ≥ 0`, the integral alias sampler with a 32-bit first raw draw,
and `random_choice_bsearch` (allowed `N` loop iterations or more),
`random_choice_lsearch` and `tower_sampling` with a draw `p` in `[0, 1)` are all
constructed and each returns an index `i` with `w_i > 0`.  In particular, when
`k` is the only index with a positive weight, each of them returns `k`. -/
theorem no_sampler_returns_zero_weight (w : List ℚ) (a : List ℚ) (hw : ValidWeights w)
    (eng : ℕ → ℚ) (engi : ℕ → ℕ) (pos : ℕ) (p : ℚ)
    (h0 : 0 ≤ eng pos) (h1 : eng pos < 1) (h2 : 0 ≤ eng (pos + 1))
    (hr : engi pos < 2 ^ 32) (hp0 : 0 ≤ p) (hp1 : p < 1) :
    ∃ sf si st rb,
      detail.random_choice_walker_float.construct w = .ok sf ∧
      detail.random_choice_walker_integral.construct w = .ok si ∧
      tower_sampling.construct w = .ok st ∧
      (∀ fuel, w.length ≤ fuel →
        detail.random_choice_bsearch_call (detail.random_choice_bsearch_init w a).2 p fuel
          = some rb) ∧
      0 < w.getD (sf.call eng pos).1 0 ∧
      0 < w.getD (si.call engi pos).1 0 ∧
      0 < w.getD rb 0 ∧
      0 < w.getD
        (detail.random_choice_lsearch_call (detail.random_choice_lsearch_init w a).2 p) 0 ∧
      0 < w.getD (st.call p) 0 ∧
      ∀ k, (∀ i, 0 < w.getD i 0 → i = k) →
        (sf.call eng pos).1 = k ∧ (si.call engi pos).1 = k ∧ rb = k ∧
        detail.random_choice_lsearch_call (detail.random_choice_lsearch_init w a).2 p = k ∧
        st.call p = k := by
  obtain ⟨r, hrn, hlr, hb, hl, hu⟩ := cumulative_samplers_on_cumulative w hw p hp1
  have hpos := detail.leastAbove_cumulative_pos_weight w hw p hp0 r hrn hlr
  obtain ⟨si, hsi, hip⟩ := detail.integral_call_pos_weight w hw engi pos hr
  have hfp := detail.float_call_pos_weight w hw eng pos h0 h1 h2
  have hst : tower_sampling.construct w = .ok { sum_ := w.sum, table_ := cumulative w } := by
    unfold tower_sampling.construct
    simp only []
    rw [detail.tower_push_eq_cumulative]
  have htc : ({ sum_ := w.sum, table_ := cumulative w } : tower_sampling).call p = r := hu
  rw [detail.bsearch_init_valid w a hw, detail.lsearch_init_valid w a hw,
    detail.push_cumulative_eq_cumulative]
  refine ⟨_, si, _, r, detail.construct_float_valid w hw, hsi, hst, hb, hfp, hip, hpos, ?_, ?_,
    ?_⟩
  · rw [hl]
    exact hpos
  · rw [htc]
    exact hpos
  · intro k hk
    refine ⟨hk _ hfp, hk _ hip, hk _ hpos, ?_, ?_⟩
    · rw [hl]
      exact hk _ hpos
    · rw [htc]
      exact hk _ hpos

theorem no_sampler_returns_zero_weight_witness :
    ValidWeights [0, 0, 1000] ∧ (0 : ℚ) ≤ 1 / 2 ∧ (1 / 2 : ℚ) < 1 ∧ (12345 : ℕ) < 2 ^ 32 ∧
    ∃ sf si st rb,
      detail.random_choice_walker_float.construct [0, 0, 1000] = .ok sf ∧
      detail.random_choice_walker_integral.construct [0, 0, 1000] = .ok si ∧
      tower_sampling.construct [0, 0, 1000] = .ok st ∧
      (∀ fuel, ([0, 0, 1000] : List ℚ).length ≤ fuel →
        detail.random_choice_bsearch_call
          (detail.random_choice_bsearch_init [0, 0, 1000] []).2 (1 / 2) fuel = some rb) ∧
      (sf.call (fun _ => 1 / 2) 0).1 = 2 ∧ (si.call (fun _ => 12345) 0).1 = 2 ∧ rb = 2 ∧
      detail.random_choice_lsearch_call
        (detail.random_choice_lsearch_init [0, 0, 1000] []).2 (1 / 2) = 2 ∧
      st.call (1 / 2) = 2 := by
  obtain ⟨sf, si, st, rb, h1, h2, h3, h4, _, _, _, _, _, h5⟩ :=
    no_sampler_returns_zero_weight [0, 0, 1000] [] detail.valid_zero_zero_thousand
      (fun _ => 1 / 2) (fun _ => 12345) 0 (1 / 2) (by norm_num) (by norm_num) (by norm_num)
      (by norm_num) (by norm_num) (by norm_num)
  exact ⟨detail.valid_zero_zero_thousand, by norm_num, by norm_num, by norm_num,
    sf, si, st, rb, h1, h2, h3, h4, h5 2 detail.only_last_positive⟩

end walker

namespace walker

/-! ## The binary64 embedding: rounding -/

theorem log2_width_spec (n fuel j : ℕ) (h : n < 2 ^ 2 ^ (j + fuel)) :
    n < 2 ^ 2 ^ log2_width n fuel j := by
  induction fuel generalizing j with
  | zero => exact h
  | succ fuel ih =>
    unfold log2_width
    split_ifs with hj
    · exact hj
    · exact ih (j + 1) (by rw [show j + 1 + fuel = j + (fuel + 1) by omega]; exact h)

theorem log2_bisect_spec (n j k : ℕ) (h1 : 2 ^ k ≤ n) (h2 : n < 2 ^ (k + 2 ^ j)) :
    2 ^ log2_bisect n j k ≤ n ∧ n < 2 ^ (log2_bisect n j k + 1) := by
  induction j generalizing k with
  | zero =>
    unfold log2_bisect
    exact ⟨h1, by simpa using h2⟩
  | succ j ih =>
    unfold log2_bisect
    split_ifs with hc
    · exact ih (k + 2 ^ j) hc (by rw [show k + 2 ^ j + 2 ^ j = k + 2 ^ (j + 1) by ring]; exact h2)
    · exact ih k h1 (not_le.mp hc)

theorem nat_log2_spec (n : ℕ) (h1 : 1 ≤ n) :
    2 ^ nat_log2 n ≤ n ∧ n < 2 ^ (nat_log2 n + 1) := by
  unfold nat_log2
  apply log2_bisect_spec
  · simpa using h1
  · rw [Nat.zero_add]
    apply log2_width_spec
    rw [Nat.zero_add]
    calc n < 2 ^ n := Nat.lt_two_pow n
      _ ≤ 2 ^ 2 ^ n := Nat.pow_le_pow_right (by norm_num) (le_of_lt (Nat.lt_two_pow n))

/-- The exponent computed by `ilog2` is the binary exponent: `2^e ≤ x < 2^(e+1)`. -/
theorem ilog2_spec (x : ℚ) (hx : 0 < x) :
    (2 : ℚ) ^ ilog2 x ≤ x ∧ x < (2 : ℚ) ^ (ilog2 x + 1) := by
  have hnum : 0 < x.num := Rat.num_pos.mpr hx
  have hN : 1 ≤ x.num.natAbs := by omega
  have hD : 1 ≤ x.den := x.den_pos
  obtain ⟨a1, a2⟩ := nat_log2_spec x.num.natAbs hN
  obtain ⟨b1, b2⟩ := nat_log2_spec x.den hD
  have hxe : x = (x.num.natAbs : ℚ) / (x.den : ℚ) := by
    have hc : (x.num.natAbs : ℚ) = (x.num : ℚ) := by
      rw [← Int.cast_natCast, Int.natAbs_of_nonneg (le_of_lt hnum)]
    rw [hc]
    exact (Rat.num_div_den x).symm
  have hDq : (0 : ℚ) < x.den := by exact_mod_cast hD
  have a1q : (2 : ℚ) ^ (nat_log2 x.num.natAbs) ≤ (x.num.natAbs : ℚ) := by
    exact_mod_cast a1
  have a2q : (x.num.natAbs : ℚ) < (2 : ℚ) ^ (nat_log2 x.num.natAbs + 1) := by
    exact_mod_cast a2
  have b1q : (2 : ℚ) ^ (nat_log2 x.den) ≤ (x.den : ℚ) := by exact_mod_cast b1
  have b2q : (x.den : ℚ) < (2 : ℚ) ^ (nat_log2 x.den + 1) := by exact_mod_cast b2
  have h2 : (0 : ℚ) < 2 := by norm_num
  have h2ne : (2 : ℚ) ≠ 0 := by norm_num
  have hpb : (0 : ℚ) < (2 : ℚ) ^ (nat_log2 x.den) := pow_pos h2 _
  have hpb1 : (0 : ℚ) < (2 : ℚ) ^ (nat_log2 x.den + 1) := pow_pos h2 _
  unfold ilog2
  split_ifs with hc
  · refine ⟨hc, ?_⟩
    rw [show ((nat_log2 x.num.natAbs : ℤ) - (nat_log2 x.den : ℤ) + 1)
        = ((nat_log2 x.num.natAbs + 1 : ℕ) : ℤ) - ((nat_log2 x.den : ℕ) : ℤ)
        by push_cast; ring]
    rw [zpow_sub₀ h2ne, zpow_natCast, zpow_natCast]
    calc x = (x.num.natAbs : ℚ) / (x.den : ℚ) := hxe
      _ ≤ (x.num.natAbs : ℚ) / (2 : ℚ) ^ (nat_log2 x.den) :=
          div_le_div_of_nonneg_left (Nat.cast_nonneg _) hpb b1q
      _ < (2 : ℚ) ^ (nat_log2 x.num.natAbs + 1)
            / (2 : ℚ) ^ (nat_log2 x.den) := div_lt_div_of_pos_right a2q hpb
  · constructor
    · rw [show ((nat_log2 x.num.natAbs : ℤ) - (nat_log2 x.den : ℤ) - 1)
          = ((nat_log2 x.num.natAbs : ℕ) : ℤ)
            - ((nat_log2 x.den + 1 : ℕ) : ℤ) by push_cast; ring]
      rw [zpow_sub₀ h2ne, zpow_natCast, zpow_natCast]
      calc (2 : ℚ) ^ (nat_log2 x.num.natAbs)
            / (2 : ℚ) ^ (nat_log2 x.den + 1)
          ≤ (x.num.natAbs : ℚ) / (2 : ℚ) ^ (nat_log2 x.den + 1) :=
            div_le_div_of_nonneg_right a1q (le_of_lt hpb1)
        _ ≤ (x.num.natAbs : ℚ) / (x.den : ℚ) :=
            div_le_div_of_nonneg_left (Nat.cast_nonneg _) hDq (le_of_lt b2q)
        _ = x := hxe.symm
    · rw [sub_add_cancel]
      exact not_le.mp hc

/-- The integer chosen by `round_half_even` is within `1/2` of `x`, and is even
when `x` lies halfway between two integers. -/
theorem round_half_even_spec (x : ℚ) :
    |x - round_half_even x| ≤ 1 / 2 ∧
    (|x - round_half_even x| = 1 / 2 → round_half_even x % 2 = 0) := by
  have h0 : (⌊x⌋ : ℚ) ≤ x := Int.floor_le x
  have h1 : x < ⌊x⌋ + 1 := Int.lt_floor_add_one x
  unfold round_half_even
  split_ifs with ha hb hc
  · constructor
    · rw [abs_le]
      constructor <;> linarith
    · intro h
      rw [abs_of_nonneg (by linarith)] at h
      linarith
  · constructor
    · rw [abs_le]
      push_cast
      constructor <;> linarith
    · intro h
      push_cast at h
      rw [abs_of_nonpos (by linarith)] at h
      linarith
  · have he : x - ⌊x⌋ = 1 / 2 := le_antisymm (not_lt.mp hb) (not_lt.mp ha)
    refine ⟨?_, fun _ => hc⟩
    rw [he, abs_of_nonneg (by norm_num)]
  · have he : x - ⌊x⌋ = 1 / 2 := le_antisymm (not_lt.mp hb) (not_lt.mp ha)
    constructor
    · rw [abs_le]
      push_cast
      constructor <;> linarith
    · intro _
      omega

/-- A finite result of `Double.round` is a multiple of the spacing `2^(e-52)`,
`e` the binary exponent of `x` (at least `-1022`), within half that spacing of `x`. -/
theorem round_error (x y : ℚ) (hx : x ≠ 0) (h : Double.round x = .fin y) :
    (∃ m : ℤ, y = m * 2 ^ (max (ilog2 |x|) (-1022) - 52)) ∧
    |x - y| ≤ 2 ^ (max (ilog2 |x|) (-1022) - 52) / 2 := by
  unfold Double.round at h
  rw [if_neg hx] at h
  simp only [] at h
  split_ifs at h
  have hy : y = (round_half_even (x / 2 ^ (max (ilog2 |x|) (-1022) - 52)) : ℚ)
      * 2 ^ (max (ilog2 |x|) (-1022) - 52) := by
    injection h with h
    exact h.symm
  have hu : (0 : ℚ) < 2 ^ (max (ilog2 |x|) (-1022) - 52) := zpow_pos (by norm_num) _
  refine ⟨⟨_, hy⟩, ?_⟩
  have hs := (round_half_even_spec (x / 2 ^ (max (ilog2 |x|) (-1022) - 52))).1
  have he : x - y = (x / 2 ^ (max (ilog2 |x|) (-1022) - 52)
      - round_half_even (x / 2 ^ (max (ilog2 |x|) (-1022) - 52)))
      * 2 ^ (max (ilog2 |x|) (-1022) - 52) := by
    rw [hy]
    field_simp
    ring
  rw [he, abs_mul, abs_of_pos hu]
  calc |x / 2 ^ (max (ilog2 |x|) (-1022) - 52)
        - round_half_even (x / 2 ^ (max (ilog2 |x|) (-1022) - 52))|
        * 2 ^ (max (ilog2 |x|) (-1022) - 52)
      ≤ 1 / 2 * 2 ^ (max (ilog2 |x|) (-1022) - 52) :=
        mul_le_mul_of_nonneg_right hs (le_of_lt hu)
    _ = 2 ^ (max (ilog2 |x|) (-1022) - 52) / 2 := by ring

/-- Values of `Double.round` at the decimal literals `0.1` and `1e-10`, at the
halfway case `1 - 2^-54`, at the least subnormal, at half of it, and beyond the
largest finite value. -/
theorem round_examples :
    Double.round (1 / 10) = .fin (3602879701896397 / 2 ^ 55) ∧
    Double.round (1 / 10 ^ 10) = .fin (7737125245533627 / 2 ^ 86) ∧
    Double.round (1 - 1 / 2 ^ 54) = .fin 1 ∧
    Double.round (1 / 2 ^ 1074) = .fin (1 / 2 ^ 1074) ∧
    Double.round (1 / 2 ^ 1075) = .fin 0 ∧
    Double.round (2 ^ 1024) = .inf false := by
  decide!

end walker

namespace walker.detail

/-! ## The binary64 embedding: evaluation at concrete inputs -/

theorem assign_aliases_double_nan_inf {C : Type} (cut : Double → C) (full : C) (x y : C × ℕ) :
    (assign_aliases_double cut full
      { array := [(.nan, 1), (.inf false, 0)], pos_p := 0, table := [x, y] }).table
      = [(cut (.inf false), 1), (cut .nan, 1)] := by
  simp [assign_aliases_double, assign_step_double, List.range_succ, Double.add, Double.le]

theorem fill_ft2009_integral_double_least_subnormal (ub : Double → ℕ) :
    fill_ft2009_integral_double ub [.fin (1 / 2 ^ 1074)] []
      = (none, [(ub (.inf false), 1), (ub .nan, 1)]) := by
  have hm : grow_pow2 1 2 (by decide) = 2 := by decide!
  have hlt : (Double.fin (1 / 2 ^ 1074)).lt (.fin 0) = false := by decide!
  have hadd : (Double.fin 0).add (.fin (1 / 2 ^ 1074)) = .fin (1 / 2 ^ 1074) := by decide!
  have hle : (Double.fin (1 / 2 ^ 1074)).le (.fin 0) = false := by decide!
  have hnm : Double.of_nat uint_max = .fin 4294967295 := by decide!
  have hpa : (partition_excess_double 2 fun i =>
      (((Double.of_nat 2).div (.fin (1 / 2 ^ 1074))).mul
        (if i < 1 then [Double.fin (1 / 2 ^ 1074)].getD i default else .fin 0)).sub
        (.fin 1)).array = [(.nan, 1), (.inf false, 0)] := by decide!
  have hpp : (partition_excess_double 2 fun i =>
      (((Double.of_nat 2).div (.fin (1 / 2 ^ 1074))).mul
        (if i < 1 then [Double.fin (1 / 2 ^ 1074)].getD i default else .fin 0)).sub
        (.fin 1)).pos_p = 0 := by decide!
  have hres : resize ([] : Table ℕ) 2 = [default, default] := by decide!
  have hmul1 : (Double.fin 4294967295).mul (.inf false) = .inf false := by decide!
  have hmul2 : (Double.fin 4294967295).mul .nan = .nan := by decide!
  unfold fill_ft2009_integral_double
  simp only [List.length_singleton, hm, accumulate_checked_double, hlt, hadd, hle, hnm,
    one_ne_zero, if_false, Bool.false_eq_true, hpa, hpp, hres, assign_aliases_double_nan_inf,
    hmul1, hmul2, Double.to_uint]

theorem walker1977_passes_double_isNone (tol : Double) (k : ℕ) (t t' : Table Double)
    (b : List Double) :
    (walker1977_passes_double tol k t b).isNone
      = (walker1977_passes_double tol k t' b).isNone := by
  induction k generalizing t t' b with
  | zero => rfl
  | succ k ih =>
    unfold walker1977_passes_double
    simp only []
    split_ifs
    · rfl
    · split
      · exact ih _ _ _
      · rfl

theorem fill_walker1977_double_isNone (w : List Double) (t t' : Table Double) (tol : Double) :
    (fill_walker1977_double w t tol).isNone = (fill_walker1977_double w t' tol).isNone := by
  unfold fill_walker1977_double
  split_ifs
  · rfl
  · simp only []
    split
    · rfl
    · rename_i norm _
      split_ifs
      · rfl
      · have h := walker1977_passes_double_isNone tol w.length
          (init_table_double (resize t w.length) w.length)
          (init_table_double (resize t' w.length) w.length)
          ((List.range w.length).map
            (fun i => (((Double.of_nat w.length).div norm).mul (w.getD i default)).sub (.fin 1)))
        generalize walker1977_passes_double tol w.length
          (init_table_double (resize t w.length) w.length) _ = A at h ⊢
        generalize walker1977_passes_double tol w.length
          (init_table_double (resize t' w.length) w.length) _ = B at h ⊢
        cases A <;> cases B <;> first | rfl | exact absurd h (by simp)

theorem integral_call_bucket_one (c0 c1 : ℕ) (eng : ℕ → ℕ) (pos : ℕ)
    (h : eng pos = 2 ^ 31) :
    (({ bits_ := 31, table_ := [(c0, 1), (c1, 1)] } : random_choice_walker_integral).call
      eng pos).1 = 1 := by
  unfold random_choice_walker_integral.call random_choice_walker_integral.cutoff
    random_choice_walker_integral.alias
  simp only []
  rw [h, show (2 : ℕ) ^ 31 >>> 31 = 1 by decide]
  simp only [List.getD_cons_succ, List.getD_cons_zero]
  split_ifs <;> rfl

/-- The table the integral `fill_ft2009` builds for `[1, 5]`: in binary64 the
cutoff of entry `0` is stored as `1431655764`, in exact arithmetic as
`1431655765` (the excess `2/6 - 1` is rounded before it is scaled and truncated). -/
theorem fill_ft2009_integral_one_five :
    fill_ft2009_integral_double (fun _ => 0) [.fin 1, .fin 5] []
      = (none, [(1431655764, 1), (4294967295, 1)]) ∧
    fill_ft2009_integral [1, 5] [] = (none, [(1431655765, 1), (4294967295, 1)]) := by
  decide!

/-- The cumulative array built in binary64 for `[2, 4, 3, 1]` ends above `1`, and
the one built for `[1, 4, 1]` ends below `1`. -/
theorem cumulative_double_last_entry :
    random_choice_bsearch_init_double [.fin 2, .fin 4, .fin 3, .fin 1] []
      = (none, [.fin (3602879701896397 / 2 ^ 54), .fin (1351079888211149 / 2 ^ 51),
          .fin (4053239664633447 / 2 ^ 52), .fin (1 + 1 / 2 ^ 52)]) ∧
    random_choice_bsearch_init_double [.fin 1, .fin 4, .fin 1] []
      = (none, [.fin (6004799503160661 / 2 ^ 55), .fin (3752999689475413 / 2 ^ 52),
          .fin (1 - 1 / 2 ^ 53)]) := by
  decide!

end walker.detail

namespace walker

/-- C6 (failing input): in binary64 arithmetic, on the valid weight vector `[49]`
with `tol = 0`, `fill_walker1977` reads the uninitialised `maxpos`.  The excess
`(1 / 49) * 49 - 1` is computed as `-2^-53`, so the scan assigns `minpos` only,
the sum `2^-53` of the absolute excesses is not below `tol`, and line 200 uses
`maxpos`.  The floating-point `fill_ft2009` returns normally on the same
weights.  With the default `tol = 1e-10` the same read happens on `[1e308, 1e308]`
(the sum overflows, `norm` is `0` and both excesses are `-1`), where `fill_ft2009`
returns normally too. -/
theorem fill_walker1977_reads_uninitialised_maxpos :
    detail.fill_walker1977_double [.fin 49] [] (.fin 0) = none ∧
    (((Double.of_nat 1).div (.fin 49)).mul (.fin 49)).sub (.fin 1) = .fin (-(1 / 2 ^ 53)) ∧
    (detail.scan_double [.fin (-(1 / 2 ^ 53))]).minpos = some 0 ∧
    (detail.scan_double [.fin (-(1 / 2 ^ 53))]).maxpos = none ∧
    (detail.scan_double [.fin (-(1 / 2 ^ 53))]).sum = .fin (1 / 2 ^ 53) ∧
    detail.fill_ft2009_double [.fin 49] [] = (none, [(.fin 1, 0)]) ∧
    detail.fill_walker1977_double [Double.round (10 ^ 308), Double.round (10 ^ 308)] []
      (Double.round (1 / 10 ^ 10)) = none ∧
    detail.fill_ft2009_double [Double.round (10 ^ 308), Double.round (10 ^ 308)] []
      = (none, [(.fin 1, 0), (.fin 1, 1)]) := by
  refine ⟨by decide!, by decide!, by decide!, by decide!, by decide!, by decide!, by decide!,
    by decide!⟩

/-- C16 (failing input): in binary64 arithmetic, for the single weight
`w = 2^-1074` (the least positive `double`, `5e-324`) the integral sampler is
constructed with `bits_ = 31` and a table whose two entries both have alias `1`:
`norm = 2 / w` overflows to infinity, the excess of the padding slot is
`inf * 0 - 1 = NaN`, which is not `< 0`, so the padding slot joins the surplus
group.  Whatever the undefined conversions of `inf` and `NaN` to `unsigned int`
yield, a first raw draw `r1 = 2^31` selects bucket `1` and `operator()` returns
`1`, for every second draw.  The floating-point sampler built on the same weight
returns `0`, and the cumulative array built on it is `[1]`. -/
theorem integral_sampler_returns_padding_index (ub : Double → ℕ) (r2 : ℕ) :
    Double.round (1 / 2 ^ 1074) = .fin (1 / 2 ^ 1074) ∧
    (∃ s, detail.random_choice_walker_integral.construct_double ub [.fin (1 / 2 ^ 1074)]
        = .ok s ∧
      s.bits_ = 31 ∧ s.table_ = [(ub (.inf false), 1), (ub .nan, 1)] ∧
      (s.call (fun k => if k = 0 then 2 ^ 31 else r2) 0).1 = 1) ∧
    (∃ s, detail.random_choice_walker_double.construct [.fin (1 / 2 ^ 1074)] = .ok s ∧
      s.table_ = [(.inf false, 0)] ∧
      (s.call ub (fun _ => .fin (1 / 2)) 0).1 = 0) ∧
    detail.random_choice_bsearch_init_double [.fin (1 / 2 ^ 1074)] [] = (none, [.fin 1]) := by
  refine ⟨by decide!, ?_, ?_, by decide!⟩
  · have hb : (((31 : ℤ) - Int.log 2 (((2 ^ 1 : ℕ) : ℚ) - 1 / 2)) % 2 ^ 32).toNat = 31 :=
      detail.bits_of_pow 1 le_rfl (by norm_num)
    refine ⟨{ bits_ := 31, table_ := [(ub (.inf false), 1), (ub .nan, 1)] }, ?_, rfl, rfl, ?_⟩
    · have hl : ([(ub (.inf false), 1), (ub .nan, 1)] : Table ℕ).length = 2 ^ 1 := rfl
      unfold detail.random_choice_walker_integral.construct_double
      rw [detail.fill_ft2009_integral_double_least_subnormal ub]
      simp only []
      rw [hl, hb]
    · exact detail.integral_call_bucket_one _ _ _ 0 (if_pos rfl)
  · have ht : detail.fill_ft2009_double [.fin (1 / 2 ^ 1074)] [] = (none, [(.inf false, 0)]) := by
      decide!
    have hprod : (Double.of_nat 1).mul (.fin (1 / 2)) = .fin (1 / 2) := by decide!
    have hconv : Double.to_uint ub (.fin (1 / 2)) = 0 := by
      show (if -1 < (1 / 2 : ℚ) ∧ (1 / 2 : ℚ) < 2 ^ 32 then ⌊(1 / 2 : ℚ)⌋.toNat
        else ub (.fin (1 / 2))) = 0
      rw [if_pos (by norm_num)]
      norm_num
    have hlt : (Double.fin (1 / 2)).lt (.inf false) = true := rfl
    refine ⟨{ table_ := [(.inf false, 0)] }, ?_, rfl, ?_⟩
    · unfold detail.random_choice_walker_double.construct
      rw [ht]
    · unfold detail.random_choice_walker_double.call
      simp only [List.length_cons, List.length_nil, Nat.zero_add]
      rw [hprod, hconv]
      simp only [List.getD_cons_zero]
      rw [hlt]
      rfl

/-- C18 (failing input): in binary64 arithmetic, on the valid weights
`[0.1, 0.1, 0.1]` with `tol = 0`, `fill_walker1977` reads the uninitialised
`maxpos` whatever table is passed in: the three excesses are computed as
`-2^-53`, so the first scan assigns `minpos = 2` only and the sum `3 * 2^-53` of
the absolute excesses is not below `tol`.  The value written to
`table[minpos].second` is therefore not determined by the weights. -/
theorem fill_walker1977_table_not_determined_by_weights (t : Table Double) :
    detail.fill_walker1977_double
      [Double.round (1 / 10), Double.round (1 / 10), Double.round (1 / 10)] t (.fin 0) = none ∧
    (List.range 3).map (fun i =>
        (((Double.of_nat 3).div
          (((Double.fin 0).add (Double.round (1 / 10))).add (Double.round (1 / 10))
            |>.add (Double.round (1 / 10)))).mul
          ([Double.round (1 / 10), Double.round (1 / 10), Double.round (1 / 10)].getD i
            default)).sub (.fin 1))
      = [.fin (-(1 / 2 ^ 53)), .fin (-(1 / 2 ^ 53)), .fin (-(1 / 2 ^ 53))] ∧
    (detail.scan_double
      [.fin (-(1 / 2 ^ 53)), .fin (-(1 / 2 ^ 53)), .fin (-(1 / 2 ^ 53))]).minpos = some 2 ∧
    (detail.scan_double
      [.fin (-(1 / 2 ^ 53)), .fin (-(1 / 2 ^ 53)), .fin (-(1 / 2 ^ 53))]).maxpos = none ∧
    (detail.scan_double
      [.fin (-(1 / 2 ^ 53)), .fin (-(1 / 2 ^ 53)), .fin (-(1 / 2 ^ 53))]).sum
      = .fin (3 / 2 ^ 53) := by
  refine ⟨?_, by decide!, by decide!, by decide!, by decide!⟩
  have h0 : (detail.fill_walker1977_double
      [Double.round (1 / 10), Double.round (1 / 10), Double.round (1 / 10)] []
      (.fin 0)).isNone = true := by decide!
  have h := detail.fill_walker1977_double_isNone
    [Double.round (1 / 10), Double.round (1 / 10), Double.round (1 / 10)] t [] (.fin 0)
  rw [h0] at h
  exact Option.isNone_iff_eq_none.mp h

end walker
